import Mathlib

/-!
Verification of the lgdebug state-transition recorder.

This file shallowly embeds the core of the `lgdebug` Python package
(serialization normalizer, structural diff / patch engine, collector and
SQLite-backed storage) into Lean and proves or refutes the frozen claims
about it.

Python values are modelled by the inductive type `Val` below: a closed
universe containing the constructors the claims exercise (`None`, `bool`,
`int`, `float`, `str`, `list`, `tuple`, `set`, `bytes`, `dict` with string
keys).  Python `dict`s are modelled as ordered association lists with
string keys (Python dicts preserve insertion order; `str(k)` applied to a
string key is the identity, so keys are taken to be strings from the
start).  Floats are modelled abstractly by a finiteness flag plus an
integer stand-in for the payload; no floating-point arithmetic is ever
performed on them, which matches the source (floats are only passed
through and compared).  Machine-level float equality punning (`1 == 1.0`,
`True == 1`) is not modelled; values are compared structurally, which
agrees with Python equality on the tree fragment the claims quantify
over.
-/

/-- Model of a Python runtime value, restricted to the constructors the
lgdebug code paths under verification can meet. -/
inductive Val where
  | none
  | bool (b : Bool)
  | int (n : Int)
  | float (finite : Bool) (mag : Int)
  | str (s : String)
  | list (xs : List Val)
  | tup (xs : List Val)
  | setv (xs : List Val)
  | bytes (len : Nat)
  | dict (kvs : List (String × Val))

mutual

/-- Structural boolean equality on `Val`, the model of Python `==` at the
positions where the diff engine compares values (non-container or
mixed-type positions). -/
def Val.beq : Val → Val → Bool
  | .none, .none => true
  | .bool x, .bool y => x == y
  | .int x, .int y => x == y
  | .float f x, .float g y => f == g && x == y
  | .str x, .str y => x == y
  | .bytes x, .bytes y => x == y
  | .list xs, .list ys => Val.beqL xs ys
  | .tup xs, .tup ys => Val.beqL xs ys
  | .setv xs, .setv ys => Val.beqL xs ys
  | .dict xs, .dict ys => Val.beqKV xs ys
  | _, _ => false

/-- Elementwise equality of value lists. -/
def Val.beqL : List Val → List Val → Bool
  | [], [] => true
  | x :: xs, y :: ys => Val.beq x y && Val.beqL xs ys
  | _, _ => false

/-- Pairwise equality of association lists (order-sensitive). -/
def Val.beqKV : List (String × Val) → List (String × Val) → Bool
  | [], [] => true
  | (k, v) :: xs, (l, w) :: ys => k == l && Val.beq v w && Val.beqKV xs ys
  | _, _ => false

end

mutual

theorem Val.beq_iff_eq : ∀ (a b : Val), Val.beq a b = true ↔ a = b
  | .none, b => by cases b <;> simp [Val.beq]
  | .bool x, b => by cases b <;> simp [Val.beq]
  | .int x, b => by cases b <;> simp [Val.beq]
  | .float f x, b => by cases b <;> simp [Val.beq]
  | .str x, b => by cases b <;> simp [Val.beq]
  | .bytes x, b => by cases b <;> simp [Val.beq]
  | .list xs, b => by
      cases b <;> simp [Val.beq]
      exact Val.beqL_iff_eq xs _
  | .tup xs, b => by
      cases b <;> simp [Val.beq]
      exact Val.beqL_iff_eq xs _
  | .setv xs, b => by
      cases b <;> simp [Val.beq]
      exact Val.beqL_iff_eq xs _
  | .dict xs, b => by
      cases b <;> simp [Val.beq]
      exact Val.beqKV_iff_eq xs _

theorem Val.beqL_iff_eq : ∀ (xs ys : List Val), Val.beqL xs ys = true ↔ xs = ys
  | [], ys => by cases ys <;> simp [Val.beqL]
  | x :: xs, [] => by simp [Val.beqL]
  | x :: xs, y :: ys => by
      simp [Val.beqL, Val.beq_iff_eq x y, Val.beqL_iff_eq xs ys]

theorem Val.beqKV_iff_eq : ∀ (xs ys : List (String × Val)),
    Val.beqKV xs ys = true ↔ xs = ys
  | [], ys => by cases ys <;> simp [Val.beqKV]
  | x :: xs, [] => by simp [Val.beqKV]
  | (k, v) :: xs, (l, w) :: ys => by
      simp [Val.beqKV, Val.beq_iff_eq v w, Val.beqKV_iff_eq xs ys, Prod.ext_iff]

end

instance : DecidableEq Val := fun a b =>
  decidable_of_iff _ (Val.beq_iff_eq a b)

/-! ## Python container primitives

Association-list models of the Python `dict` operations used by the
source: ordered, first occurrence of a key wins on lookup, assignment
updates in place (keeping the key's position) or appends, deletion
removes the key. -/

/-- Python `d[k]` / `d.get(k)`: first binding of `k`, if any. -/
def dictGet (kvs : List (String × Val)) (k : String) : Option Val :=
  match kvs with
  | [] => Option.none
  | (k', v) :: rest => if k' = k then some v else dictGet rest k

/-- Python `k in d`. -/
def dictHas (kvs : List (String × Val)) (k : String) : Bool :=
  (dictGet kvs k).isSome

/-- Python `d[k] = v`: update in place if present, else append. -/
def dictSet (kvs : List (String × Val)) (k : String) (v : Val) :
    List (String × Val) :=
  match kvs with
  | [] => [(k, v)]
  | (k', v') :: rest =>
      if k' = k then (k', v) :: rest else (k', v') :: dictSet rest k v

/-- Python `del d[k]` (no-op when absent, matching the guarded delete in
`_delete_at_path`). -/
def dictDel (kvs : List (String × Val)) (k : String) : List (String × Val) :=
  match kvs with
  | [] => []
  | (k', v') :: rest =>
      if k' = k then rest else (k', v') :: dictDel rest k

/-- Update the value bound to `k` in place, leaving other bindings and the
binding order untouched. -/
def dictUpd (kvs : List (String × Val)) (k : String) (f : Val → Val) :
    List (String × Val) :=
  match kvs with
  | [] => []
  | (k', v') :: rest =>
      if k' = k then (k', f v') :: rest else (k', v') :: dictUpd rest k f

/-- The keys of an association list, in order. -/
def keysOf (kvs : List (String × Val)) : List String := kvs.map (·.1)

/-! ## Serialization normalizer (`core/serialization.py`, `serialize_state`)

The source walks an arbitrary Python object.  The branches of the model
correspond one-to-one to the branches reachable for `Val` inputs:
primitives pass through (including non-finite floats — line 63 of the
source treats every `float` alike), `dict` becomes a dict comprehension
over `str(k)` (identity on string keys) and serialized values, `list` and
`tuple` become lists, `set` becomes `sorted(...)` falling back to
insertion order when elements are not comparable (the source catches the
`TypeError` raised by `sorted`), `bytes` become the sentinel string.  The
circular-reference guard (`_seen`) can never fire on inductive (hence
acyclic, unshared) values, so it is dropped from the model.  The branches
for enums, dates, UUIDs, paths, pydantic models, dataclasses and generic
objects concern constructors outside the model universe. -/

/-- Comparison model for Python `<` on serialized scalars: defined for
`int`/`int` and `str`/`str` pairs, undefined (raises `TypeError`)
otherwise.  Cross-type numeric comparisons and list lexicographic
comparison are not modelled; the set-sorting fallback below is the only
consumer. -/
def pyCmp : Val → Val → Option Ordering
  | .int a, .int b => some (compare a b)
  | .str a, .str b => some (compare a b)
  | _, _ => Option.none

/-- `sorted(xs)` when every pair of elements is comparable, `xs` unchanged
otherwise (the source wraps `sorted` in `try/except TypeError`;  Python
raises as soon as one incomparable pair is compared, approximated here by
the pairwise test). -/
def pySorted (xs : List Val) : List Val :=
  if xs.all (fun a => xs.all (fun b => (pyCmp a b).isSome)) then
    xs.mergeSort (fun a b => pyCmp a b ≠ some Ordering.gt)
  else xs

/-- The `<bytes len=N>` sentinel, truncation-annotated past the 1024-byte
inline limit (`_MAX_BYTES_INLINE`). -/
def bytesRepr (n : Nat) : String :=
  if n ≤ 1024 then "<bytes len=" ++ toString n ++ ">"
  else "<bytes len=" ++ toString n ++ " truncated>"

/-- Python dict-comprehension accumulation: later duplicate keys overwrite
the value in place, the first occurrence fixes the position. -/
def dictComp (kvs : List (String × Val)) : List (String × Val) :=
  kvs.foldl (fun acc p => dictSet acc p.1 p.2) []

mutual

/-- Model of `serialize_state` on the `Val` universe. -/
def serialize_state : Val → Val
  | .none => .none
  | .bool b => .bool b
  | .int n => .int n
  | .float f m => .float f m
  | .str s => .str s
  | .list xs => .list (serializeL xs)
  | .tup xs => .list (serializeL xs)
  | .setv xs => .list (pySorted (serializeL xs))
  | .bytes n => .str (bytesRepr n)
  | .dict kvs => .dict (dictComp (serializeKV kvs))

/-- Serialize the elements of a list/tuple/set, in order. -/
def serializeL : List Val → List Val
  | [] => []
  | x :: xs => serialize_state x :: serializeL xs

/-- Serialize the values of a dict's items, in order. -/
def serializeKV : List (String × Val) → List (String × Val)
  | [] => []
  | (k, v) :: rest => (k, serialize_state v) :: serializeKV rest

end

mutual

/-- The serialized-tree universe of spec invariant I6, with floats kept
(the source passes every float through): null, booleans, numbers,
strings, lists of trees, string-keyed mappings of trees. -/
def isTree : Val → Bool
  | .none | .bool _ | .int _ | .float _ _ | .str _ => true
  | .list xs => isTreeL xs
  | .dict kvs => isTreeKV kvs
  | _ => false

def isTreeL : List Val → Bool
  | [] => true
  | x :: xs => isTree x && isTreeL xs

def isTreeKV : List (String × Val) → Bool
  | [] => true
  | (_, v) :: rest => isTree v && isTreeKV rest

end

mutual

/-- Every mapping anywhere in the value binds each key at most once
(automatic for values that model real Python dicts). -/
def nodupKeys : Val → Bool
  | .list xs | .tup xs | .setv xs => nodupKeysL xs
  | .dict kvs => (keysOf kvs).Nodup && nodupKeysKV kvs
  | _ => true

def nodupKeysL : List Val → Bool
  | [] => true
  | x :: xs => nodupKeys x && nodupKeysL xs

def nodupKeysKV : List (String × Val) → Bool
  | [] => true
  | (_, v) :: rest => nodupKeys v && nodupKeysKV rest

end

/-! ### Serializer lemmas -/

theorem dictGet_isSome_iff (l : List (String × Val)) (k : String) :
    (dictGet l k).isSome = true ↔ k ∈ keysOf l := by
  induction l with
  | nil => simp [dictGet, keysOf]
  | cons p rest ih =>
      obtain ⟨k', v⟩ := p
      by_cases h : k' = k <;> simp [dictGet, keysOf, h, ih]
      exact fun hk => (h hk.symm).elim

theorem keysOf_dictSet_of_mem (l : List (String × Val)) (k : String) (v : Val)
    (h : k ∈ keysOf l) : keysOf (dictSet l k v) = keysOf l := by
  induction l with
  | nil => simp [keysOf] at h
  | cons p rest ih =>
      obtain ⟨k', v'⟩ := p
      by_cases hk : k' = k
      · simp [dictSet, hk, keysOf]
      · simp [keysOf, hk] at h
        rcases h with h | h
        · exact absurd h.symm hk
        · obtain ⟨x, hx⟩ := h
          have hkm : k ∈ keysOf rest := List.mem_map_of_mem _ hx
          have step : dictSet ((k', v') :: rest) k v = (k', v') :: dictSet rest k v := by
            simp [dictSet, hk]
          rw [step]
          have goal2 := ih hkm
          simp only [keysOf, List.map_cons] at goal2 ⊢
          rw [goal2]

theorem dictSet_of_not_mem (l : List (String × Val)) (k : String) (v : Val)
    (h : k ∉ keysOf l) : dictSet l k v = l ++ [(k, v)] := by
  induction l with
  | nil => simp [dictSet]
  | cons p rest ih =>
      obtain ⟨k', v'⟩ := p
      simp [keysOf] at h
      simp [dictSet, h.1, ih (by simpa [keysOf] using h.2)]
      intro hk
      exact absurd hk.symm h.1

theorem mem_dictSet (l : List (String × Val)) (k : String) (v : Val) (q : String × Val)
    (h : q ∈ dictSet l k v) : q ∈ l ∨ q = (k, v) := by
  induction l with
  | nil => simpa [dictSet] using h
  | cons p rest ih =>
      obtain ⟨k', v'⟩ := p
      by_cases hk : k' = k
      · subst hk
        simp [dictSet] at h
        rcases h with h | h
        · exact Or.inr (by simp [h])
        · exact Or.inl (by simp [h])
      · simp [dictSet, hk] at h
        rcases h with h | h
        · exact Or.inl (by simp [h])
        · rcases ih h with h' | h'
          · exact Or.inl (by simp [h'])
          · exact Or.inr h'

theorem nodup_keysOf_dictSet (l : List (String × Val)) (k : String) (v : Val)
    (h : (keysOf l).Nodup) : (keysOf (dictSet l k v)).Nodup := by
  by_cases hm : k ∈ keysOf l
  · rw [keysOf_dictSet_of_mem l k v hm]; exact h
  · rw [dictSet_of_not_mem l k v hm]
    have hkeys : keysOf (l ++ [(k, v)]) = keysOf l ++ [k] := by simp [keysOf]
    rw [hkeys]
    refine List.Nodup.append h (List.nodup_singleton k) ?_
    intro a ha hb
    simp at hb
    subst hb
    exact hm ha

theorem mem_foldl_dictSet (l acc : List (String × Val)) (q : String × Val)
    (h : q ∈ l.foldl (fun a p => dictSet a p.1 p.2) acc) : q ∈ acc ∨ q ∈ l := by
  induction l generalizing acc with
  | nil => exact Or.inl h
  | cons p rest ih =>
      rcases ih (dictSet acc p.1 p.2) h with h' | h'
      · rcases mem_dictSet acc p.1 p.2 q h' with h'' | h''
        · exact Or.inl h''
        · exact Or.inr (by simp [h''])
      · exact Or.inr (by simp [h'])

theorem nodup_keysOf_foldl_dictSet (l acc : List (String × Val))
    (h : (keysOf acc).Nodup) :
    (keysOf (l.foldl (fun a p => dictSet a p.1 p.2) acc)).Nodup := by
  induction l generalizing acc with
  | nil => exact h
  | cons p rest ih => exact ih _ (nodup_keysOf_dictSet acc p.1 p.2 h)

theorem nodup_keysOf_dictComp (l : List (String × Val)) :
    (keysOf (dictComp l)).Nodup :=
  nodup_keysOf_foldl_dictSet l [] (by simp [keysOf])

theorem mem_dictComp (l : List (String × Val)) (q : String × Val)
    (h : q ∈ dictComp l) : q ∈ l := by
  rcases mem_foldl_dictSet l [] q h with h' | h'
  · simp at h'
  · exact h'

theorem foldl_dictSet_eq_append (l acc : List (String × Val))
    (h : (keysOf acc ++ keysOf l).Nodup) :
    l.foldl (fun a p => dictSet a p.1 p.2) acc = acc ++ l := by
  induction l generalizing acc with
  | nil => simp
  | cons p rest ih =>
      obtain ⟨k, v⟩ := p
      have hk : k ∉ keysOf acc := by
        intro hm
        have : k ∈ keysOf ((k, v) :: rest) := by simp [keysOf]
        exact (List.disjoint_of_nodup_append h) hm this
      have step : dictSet acc k v = acc ++ [(k, v)] := dictSet_of_not_mem acc k v hk
      have h' : (keysOf (acc ++ [(k, v)]) ++ keysOf rest).Nodup := by
        have e : keysOf (acc ++ [(k, v)]) ++ keysOf rest
            = keysOf acc ++ keysOf ((k, v) :: rest) := by simp [keysOf]
        rw [e]
        exact h
      calc ((k, v) :: rest).foldl (fun a p => dictSet a p.1 p.2) acc
          = rest.foldl (fun a p => dictSet a p.1 p.2) (acc ++ [(k, v)]) := by
            simp [step]
        _ = (acc ++ [(k, v)]) ++ rest := ih _ h'
        _ = acc ++ (k, v) :: rest := by simp

theorem dictComp_eq_self (l : List (String × Val)) (h : (keysOf l).Nodup) :
    dictComp l = l := by
  have := foldl_dictSet_eq_append l [] (by simpa [keysOf] using h)
  simpa [dictComp] using this

theorem isTreeL_iff (xs : List Val) :
    isTreeL xs = true ↔ ∀ x ∈ xs, isTree x = true := by
  induction xs with
  | nil => simp [isTreeL]
  | cons x xs ih => simp [isTreeL, ih]

theorem isTreeKV_iff (kvs : List (String × Val)) :
    isTreeKV kvs = true ↔ ∀ p ∈ kvs, isTree p.2 = true := by
  induction kvs with
  | nil => simp [isTreeKV]
  | cons p rest ih =>
      obtain ⟨k, v⟩ := p
      simp [isTreeKV, ih]

theorem nodupKeysL_iff (xs : List Val) :
    nodupKeysL xs = true ↔ ∀ x ∈ xs, nodupKeys x = true := by
  induction xs with
  | nil => simp [nodupKeysL]
  | cons x xs ih => simp [nodupKeysL, ih]

theorem nodupKeysKV_iff (kvs : List (String × Val)) :
    nodupKeysKV kvs = true ↔ ∀ p ∈ kvs, nodupKeys p.2 = true := by
  induction kvs with
  | nil => simp [nodupKeysKV]
  | cons p rest ih =>
      obtain ⟨k, v⟩ := p
      simp [nodupKeysKV, ih]

theorem mem_pySorted (xs : List Val) (x : Val) (h : x ∈ pySorted xs) : x ∈ xs := by
  unfold pySorted at h
  split at h
  · exact (List.mergeSort_perm xs _).mem_iff.mp h
  · exact h

mutual

theorem serialize_state_isTree : ∀ v : Val, isTree (serialize_state v) = true
  | .none => by simp [serialize_state, isTree]
  | .bool b => by simp [serialize_state, isTree]
  | .int n => by simp [serialize_state, isTree]
  | .float f m => by simp [serialize_state, isTree]
  | .str s => by simp [serialize_state, isTree]
  | .bytes n => by simp [serialize_state, isTree]
  | .list xs => by
      simp only [serialize_state, isTree]
      exact serializeL_isTree xs
  | .tup xs => by
      simp only [serialize_state, isTree]
      exact serializeL_isTree xs
  | .setv xs => by
      simp only [serialize_state, isTree]
      rw [isTreeL_iff]
      intro x hx
      exact (isTreeL_iff _).mp (serializeL_isTree xs) x (mem_pySorted _ x hx)
  | .dict kvs => by
      simp only [serialize_state, isTree]
      rw [isTreeKV_iff]
      intro p hp
      exact (isTreeKV_iff _).mp (serializeKV_isTree kvs) p (mem_dictComp _ p hp)

theorem serializeL_isTree : ∀ xs : List Val, isTreeL (serializeL xs) = true
  | [] => by simp [serializeL, isTreeL]
  | x :: xs => by
      simp only [serializeL, isTreeL, Bool.and_eq_true]
      exact ⟨serialize_state_isTree x, serializeL_isTree xs⟩

theorem serializeKV_isTree : ∀ kvs : List (String × Val),
    isTreeKV (serializeKV kvs) = true
  | [] => by simp [serializeKV, isTreeKV]
  | (k, v) :: rest => by
      simp only [serializeKV, isTreeKV, Bool.and_eq_true]
      exact ⟨serialize_state_isTree v, serializeKV_isTree rest⟩

end

mutual

theorem serialize_state_nodup : ∀ v : Val, nodupKeys (serialize_state v) = true
  | .none => by simp [serialize_state, nodupKeys]
  | .bool b => by simp [serialize_state, nodupKeys]
  | .int n => by simp [serialize_state, nodupKeys]
  | .float f m => by simp [serialize_state, nodupKeys]
  | .str s => by simp [serialize_state, nodupKeys]
  | .bytes n => by simp [serialize_state, nodupKeys]
  | .list xs => by
      simp only [serialize_state, nodupKeys]
      exact serializeL_nodup xs
  | .tup xs => by
      simp only [serialize_state, nodupKeys]
      exact serializeL_nodup xs
  | .setv xs => by
      simp only [serialize_state, nodupKeys]
      rw [nodupKeysL_iff]
      intro x hx
      exact (nodupKeysL_iff _).mp (serializeL_nodup xs) x (mem_pySorted _ x hx)
  | .dict kvs => by
      simp only [serialize_state, nodupKeys, Bool.and_eq_true]
      refine ⟨by simpa using nodup_keysOf_dictComp (serializeKV kvs), ?_⟩
      rw [nodupKeysKV_iff]
      intro p hp
      exact (nodupKeysKV_iff _).mp (serializeKV_nodup kvs) p (mem_dictComp _ p hp)

theorem serializeL_nodup : ∀ xs : List Val, nodupKeysL (serializeL xs) = true
  | [] => by simp [serializeL, nodupKeysL]
  | x :: xs => by
      simp only [serializeL, nodupKeysL, Bool.and_eq_true]
      exact ⟨serialize_state_nodup x, serializeL_nodup xs⟩

theorem serializeKV_nodup : ∀ kvs : List (String × Val),
    nodupKeysKV (serializeKV kvs) = true
  | [] => by simp [serializeKV, nodupKeysKV]
  | (k, v) :: rest => by
      simp only [serializeKV, nodupKeysKV, Bool.and_eq_true]
      exact ⟨serialize_state_nodup v, serializeKV_nodup rest⟩

end

theorem keysOf_serializeKV (kvs : List (String × Val)) :
    keysOf (serializeKV kvs) = keysOf kvs := by
  induction kvs with
  | nil => simp [serializeKV]
  | cons p rest ih =>
      obtain ⟨k, v⟩ := p
      simp [serializeKV, keysOf] at ih ⊢
      exact ih

mutual

theorem serialize_state_eq_self : ∀ v : Val, isTree v = true → nodupKeys v = true →
    serialize_state v = v
  | .none, _, _ => by simp [serialize_state]
  | .bool b, _, _ => by simp [serialize_state]
  | .int n, _, _ => by simp [serialize_state]
  | .float f m, _, _ => by simp [serialize_state]
  | .str s, _, _ => by simp [serialize_state]
  | .bytes n, ht, _ => by simp [isTree] at ht
  | .tup xs, ht, _ => by simp [isTree] at ht
  | .setv xs, ht, _ => by simp [isTree] at ht
  | .list xs, ht, hn => by
      simp only [serialize_state]
      rw [serializeL_eq_self xs (by simpa [isTree] using ht) (by simpa [nodupKeys] using hn)]
  | .dict kvs, ht, hn => by
      simp only [serialize_state]
      have hn' : (keysOf kvs).Nodup ∧ nodupKeysKV kvs = true := by
        simpa [nodupKeys, Bool.and_eq_true] using hn
      rw [serializeKV_eq_self kvs (by simpa [isTree] using ht) hn'.2]
      rw [dictComp_eq_self kvs hn'.1]

theorem serializeL_eq_self : ∀ xs : List Val, isTreeL xs = true →
    nodupKeysL xs = true → serializeL xs = xs
  | [], _, _ => by simp [serializeL]
  | x :: xs, ht, hn => by
      simp only [isTreeL, Bool.and_eq_true] at ht
      simp only [nodupKeysL, Bool.and_eq_true] at hn
      simp only [serializeL]
      rw [serialize_state_eq_self x ht.1 hn.1, serializeL_eq_self xs ht.2 hn.2]

theorem serializeKV_eq_self : ∀ kvs : List (String × Val), isTreeKV kvs = true →
    nodupKeysKV kvs = true → serializeKV kvs = kvs
  | [], _, _ => by simp [serializeKV]
  | (k, v) :: rest, ht, hn => by
      simp only [isTreeKV, Bool.and_eq_true] at ht
      simp only [nodupKeysKV, Bool.and_eq_true] at hn
      simp only [serializeKV]
      rw [serialize_state_eq_self v ht.1 hn.1, serializeKV_eq_self rest ht.2 hn.2]

end

theorem serialize_state_idem (v : Val) :
    serialize_state (serialize_state v) = serialize_state v :=
  serialize_state_eq_self _ (serialize_state_isTree v) (serialize_state_nodup v)

/-! ## Paths (`core/diff.py`: `_join_path`, bracket indices, `_parse_path`)

Diff paths are strings built with `_join_path` (dotted keys) and
`f"{path}[{i}]"` (list indices) and are re-parsed by `_parse_path` into a
sequence of key and index segments.  The parser is modelled directly on
the character scan of the source. -/

/-- One parsed path segment: a mapping key or a list index. -/
inductive Seg where
  | key (k : String)
  | idx (n : Nat)
  deriving DecidableEq

/-- Decimal rendering of a list index, the model of Python `str(i)`
inside the f-string (most-significant digit first). -/
def decRepr (n : Nat) : String :=
  if n = 0 then "0" else ⟨(Nat.digits 10 n).reverse.map Nat.digitChar⟩

/-- Model of Python `int(s)` on digit strings (the only shape
`_parse_path` feeds it); returns garbage instead of raising on
non-digits. -/
def pyInt (s : String) : Nat :=
  s.data.foldl (fun a c => a * 10 + (c.toNat - 48)) 0

/-- `_join_path`: dotted path concatenation. -/
def joinPath (parent key : String) : String :=
  if parent = "" then key else parent ++ "." ++ key

/-- `f"{path}[{i}]"`: bracketed index concatenation. -/
def idxPath (parent : String) (i : Nat) : String :=
  parent ++ "[" ++ decRepr i ++ "]"

/-- `f"{path}.length"`: the synthetic list-length path. -/
def lenPath (parent : String) : String := parent ++ ".length"

mutual

/-- The character scan of `_parse_path`, main mode; `cur` is the pending
`current` accumulator of the source. -/
def parseSegsAux : List Char → List Char → List Seg
  | [], cur => if cur = [] then [] else [Seg.key ⟨cur⟩]
  | c :: rest, cur =>
      if c = '.' then
        (if cur = [] then [] else [Seg.key ⟨cur⟩]) ++ parseSegsAux rest []
      else if c = '[' then
        (if cur = [] then [] else [Seg.key ⟨cur⟩]) ++ parseIdxAux rest []
      else
        parseSegsAux rest (cur ++ [c])

/-- The inner index scan of `_parse_path`: collect characters until `]`
(or the end of input), convert with `int`, resume the main scan. -/
def parseIdxAux : List Char → List Char → List Seg
  | [], acc => [Seg.idx (pyInt ⟨acc⟩)]
  | c :: rest, acc =>
      if c = ']' then Seg.idx (pyInt ⟨acc⟩) :: parseSegsAux rest []
      else parseIdxAux rest (acc ++ [c])

end

/-- `_parse_path`. -/
def parsePath (path : String) : List Seg := parseSegsAux path.data []

/-- Append one segment to a rendered path string, exactly as the diff
recursion builds paths. -/
def renderSeg (parent : String) : Seg → String
  | .key k => joinPath parent k
  | .idx n => idxPath parent n

/-- Render a whole segment sequence starting from the empty path. -/
def renderSegs (p : List Seg) : String := p.foldl renderSeg ""

/-- A usable mapping key for the dotted-path encoding: nonempty, free of
the two path metacharacters, and not the word reserved for the synthetic
list-length entries. -/
def goodKey (k : String) : Bool :=
  k ≠ "" && decide ('.' ∉ k.data) && decide ('[' ∉ k.data) && k ≠ "length"

/-- A segment whose key part (if any) is usable. -/
def goodSeg : Seg → Bool
  | .key k => goodKey k
  | .idx _ => true

/-! ### Path parsing round-trip -/

theorem strMk_data (s : String) : (⟨s.data⟩ : String) = s := by
  cases s
  rfl

theorem digitChar_toNat_sub (d : Nat) (h : d < 10) :
    (Nat.digitChar d).toNat - 48 = d := by
  interval_cases d <;> decide

theorem digitChar_ne_rbracket (d : Nat) (h : d < 10) : Nat.digitChar d ≠ ']' := by
  interval_cases d <;> decide

theorem decRepr_chars_ne_rbracket (n : Nat) :
    ∀ c ∈ (decRepr n).data, c ≠ ']' := by
  intro c hc
  unfold decRepr at hc
  split at hc
  · simp at hc
    subst hc
    decide
  · simp at hc
    obtain ⟨d, hd, hdc⟩ := hc
    have : d < 10 := Nat.digits_lt_base (by norm_num) hd
    exact hdc ▸ digitChar_ne_rbracket d this

theorem foldr_base10 (l : List Nat) :
    l.foldr (fun d a => a * 10 + d) 0 = Nat.ofDigits 10 l := by
  induction l with
  | nil => simp [Nat.ofDigits]
  | cons d ds ih =>
      simp only [List.foldr_cons, Nat.ofDigits_cons, ih]
      ring

theorem foldl_digitChar (l : List Nat) (hlt : ∀ d ∈ l, d < 10) (a : Nat) :
    List.foldl (fun a c => a * 10 + (c.toNat - 48)) a (l.map Nat.digitChar)
      = List.foldl (fun a d => a * 10 + d) a l := by
  induction l generalizing a with
  | nil => simp
  | cons d ds ih =>
      simp only [List.map_cons, List.foldl_cons]
      rw [digitChar_toNat_sub d (hlt d (by simp))]
      exact ih (fun d' hd' => hlt d' (by simp [hd'])) _

theorem foldl_base10_reverse (l : List Nat) :
    List.foldl (fun a d => a * 10 + d) 0 l.reverse = Nat.ofDigits 10 l := by
  rw [List.foldl_reverse]
  exact foldr_base10 l

theorem pyInt_decRepr (n : Nat) : pyInt (decRepr n) = n := by
  unfold pyInt decRepr
  split
  · subst n
    decide
  · show List.foldl (fun a c => a * 10 + (c.toNat - 48)) 0
        ((Nat.digits 10 n).reverse.map Nat.digitChar) = n
    rw [foldl_digitChar _ (fun d hd => Nat.digits_lt_base (by norm_num)
      (List.mem_reverse.mp hd)) 0]
    rw [foldl_base10_reverse]
    exact Nat.ofDigits_digits 10 n

/-- The character contribution of a non-initial segment to a rendered
path. -/
def segChars : Seg → List Char
  | .key k => '.' :: k.data
  | .idx n => '[' :: ((decRepr n).data ++ [']'])

/-- Render a segment sequence on top of an existing nonempty parent
path. -/
def renderFrom (parent : String) (p : List Seg) : String :=
  p.foldl renderSeg parent

theorem goodKey_parts (k : String) (h : goodKey k = true) :
    k ≠ "" ∧ '.' ∉ k.data ∧ '[' ∉ k.data ∧ k ≠ "length" := by
  unfold goodKey at h
  simp only [Bool.and_eq_true, bne_iff_ne, ne_eq, decide_eq_true_eq] at h
  exact ⟨h.1.1.1, h.1.1.2, h.1.2, h.2⟩

theorem goodKey_chars (k : String) (h : goodKey k = true) :
    ∀ c ∈ k.data, c ≠ '.' ∧ c ≠ '[' := by
  obtain ⟨-, hdot, hbr, -⟩ := goodKey_parts k h
  intro c hc
  exact ⟨fun he => hdot (he ▸ hc), fun he => hbr (he ▸ hc)⟩

theorem goodKey_ne_empty (k : String) (h : goodKey k = true) : k.data ≠ [] := by
  obtain ⟨hne, -, -, -⟩ := goodKey_parts k h
  intro hd
  apply hne
  cases k
  simp only at hd
  rw [hd]

theorem str_ne_empty_iff (s : String) : s ≠ "" ↔ s.data ≠ [] := by
  constructor
  · intro h hd
    exact h (String.ext (by rw [hd]))
  · intro h he
    subst he
    exact h rfl

theorem joinPath_data (parent k : String) (h : parent ≠ "") :
    (joinPath parent k).data = parent.data ++ '.' :: k.data := by
  unfold joinPath
  rw [if_neg h]
  simp

theorem idxPath_data (parent : String) (n : Nat) :
    (idxPath parent n).data = parent.data ++ '[' :: ((decRepr n).data ++ [']']) := by
  unfold idxPath
  simp

theorem renderSeg_data (parent : String) (s : Seg) (h : parent ≠ "") :
    (renderSeg parent s).data = parent.data ++ segChars s := by
  cases s with
  | key k => simpa [renderSeg, segChars] using joinPath_data parent k h
  | idx n => simpa [renderSeg, segChars] using idxPath_data parent n

theorem renderFrom_data (p : List Seg) :
    ∀ parent : String, parent ≠ "" →
      (renderFrom parent p).data = parent.data ++ (p.map segChars).join := by
  induction p with
  | nil => intro parent _; simp [renderFrom]
  | cons s p' ih =>
      intro parent hp
      have hne : renderSeg parent s ≠ "" := by
        rw [str_ne_empty_iff, renderSeg_data parent s hp]
        intro hcontra
        rcases List.append_eq_nil.mp hcontra with ⟨-, h2⟩
        cases s <;> simp [segChars] at h2
      have : renderFrom parent (s :: p') = renderFrom (renderSeg parent s) p' := rfl
      rw [this, ih _ hne, renderSeg_data parent s hp]
      simp

theorem parseSegsAux_plain (ks : List Char) (hk : ∀ c ∈ ks, c ≠ '.' ∧ c ≠ '[') :
    ∀ rest cur, parseSegsAux (ks ++ rest) cur = parseSegsAux rest (cur ++ ks) := by
  induction ks with
  | nil => intro rest cur; simp
  | cons c ks' ih =>
      intro rest cur
      have hc := hk c (by simp)
      show parseSegsAux (c :: (ks' ++ rest)) cur = _
      rw [parseSegsAux, if_neg hc.1, if_neg hc.2]
      rw [ih (fun c' hc' => hk c' (by simp [hc'])) rest (cur ++ [c])]
      simp

theorem parseIdxAux_plain (ds : List Char) (hd : ∀ c ∈ ds, c ≠ ']') :
    ∀ rest acc, parseIdxAux (ds ++ rest) acc = parseIdxAux rest (acc ++ ds) := by
  induction ds with
  | nil => intro rest acc; simp
  | cons c ds' ih =>
      intro rest acc
      have hc := hd c (by simp)
      show parseIdxAux (c :: (ds' ++ rest)) acc = _
      rw [parseIdxAux, if_neg hc]
      rw [ih (fun c' hc' => hd c' (by simp [hc'])) rest (acc ++ [c])]
      simp

theorem parseTail (p : List Seg) (hp : ∀ s ∈ p, goodSeg s = true) :
    ∀ cur, parseSegsAux ((p.map segChars).join) cur
      = (if cur = [] then [] else [Seg.key ⟨cur⟩]) ++ p := by
  induction p with
  | nil =>
      intro cur
      simp [parseSegsAux]
  | cons s p' ih =>
      intro cur
      have hp' : ∀ t ∈ p', goodSeg t = true := fun t ht => hp t (by simp [ht])
      cases s with
      | key k =>
          have hgk : goodKey k = true := by simpa [goodSeg] using hp (Seg.key k) (by simp)
          have hkchars := goodKey_chars k hgk
          have hkne := goodKey_ne_empty k hgk
          show parseSegsAux (('.' :: k.data) ++ (p'.map segChars).join) cur = _
          rw [List.cons_append, parseSegsAux, if_pos rfl]
          rw [parseSegsAux_plain k.data hkchars _ []]
          rw [List.nil_append]
          rw [ih hp' k.data]
          rw [if_neg hkne, strMk_data]
          simp
      | idx n =>
          show parseSegsAux (('[' :: ((decRepr n).data ++ [']'])) ++ (p'.map segChars).join) cur = _
          rw [List.cons_append, parseSegsAux, if_neg (by decide), if_pos rfl]
          rw [List.append_assoc]
          rw [parseIdxAux_plain (decRepr n).data (decRepr_chars_ne_rbracket n) _ []]
          rw [List.nil_append]
          show (if cur = [] then [] else [Seg.key ⟨cur⟩])
              ++ (Seg.idx (pyInt ⟨(decRepr n).data⟩) :: parseSegsAux (p'.map segChars).join []) = _
          rw [strMk_data, pyInt_decRepr]
          rw [ih hp' []]
          simp

theorem parsePath_renderSegs (p : List Seg) (hp : ∀ s ∈ p, goodSeg s = true) :
    parsePath (renderSegs p) = p := by
  cases p with
  | nil => rfl
  | cons s p' =>
      have hp' : ∀ t ∈ p', goodSeg t = true := fun t ht => hp t (by simp [ht])
      cases s with
      | key k =>
          have hgk : goodKey k = true := by simpa [goodSeg] using hp (Seg.key k) (by simp)
          have hkchars := goodKey_chars k hgk
          have hkne := goodKey_ne_empty k hgk
          have hstep : renderSegs (Seg.key k :: p') = renderFrom k p' := by
            show renderFrom (renderSeg "" (Seg.key k)) p' = _
            simp [renderSeg, joinPath]
          unfold parsePath
          rw [hstep, renderFrom_data p' k ((str_ne_empty_iff k).mpr hkne)]
          rw [parseSegsAux_plain k.data hkchars _ []]
          rw [List.nil_append, parseTail p' hp' k.data, if_neg hkne, strMk_data]
          rfl
      | idx n =>
          have hstep : renderSegs (Seg.idx n :: p') = renderFrom (idxPath "" n) p' := rfl
          have hne : idxPath "" n ≠ "" := by
            rw [str_ne_empty_iff, idxPath_data]
            simp
          unfold parsePath
          rw [hstep, renderFrom_data p' _ hne, idxPath_data]
          show parseSegsAux (('[' :: ((decRepr n).data ++ [']'])) ++ (p'.map segChars).join) [] = _
          rw [List.cons_append, parseSegsAux, if_neg (by decide), if_pos rfl]
          rw [List.append_assoc]
          rw [parseIdxAux_plain (decRepr n).data (decRepr_chars_ne_rbracket n) _ []]
          rw [List.nil_append]
          show (if ([] : List Char) = [] then ([] : List Seg) else [Seg.key ⟨[]⟩])
              ++ (Seg.idx (pyInt ⟨(decRepr n).data⟩) :: parseSegsAux (p'.map segChars).join []) = _
          rw [strMk_data, pyInt_decRepr]
          rw [parseTail p' hp' []]
          simp

/-! ### The synthetic `.length` suffix test

`apply_diff` skips changed entries whose path satisfies Python
`path.endswith(".length")`, modelled as a character-sequence suffix
test. -/

/-- Model of Python `str.endswith`. -/
def strEndsWith (s suff : String) : Bool := decide (suff.data <:+ s.data)

theorem strEndsWith_lenPath (s : String) : strEndsWith (lenPath s) ".length" = true := by
  unfold strEndsWith lenPath
  simp only [decide_eq_true_eq]
  show (".length").data <:+ (s ++ ".length").data
  rw [String.data_append]
  exact List.suffix_append s.data _

theorem dotSplit_unique : ∀ (A B K L : List Char), '.' ∉ K → '.' ∉ L →
    A ++ '.' :: K = B ++ '.' :: L → K = L := by
  intro A
  induction A with
  | nil =>
      intro B K L hK hL h
      cases B with
      | nil => simpa using h
      | cons b B' =>
          simp only [List.nil_append, List.cons_append, List.cons_eq_cons] at h
          exfalso
          apply hK
          rw [h.2]
          simp
  | cons a A' ih =>
      intro B K L hK hL h
      cases B with
      | nil =>
          simp only [List.cons_append, List.nil_append, List.cons_eq_cons] at h
          exfalso
          apply hL
          rw [← h.2]
          simp
      | cons b B' =>
          simp only [List.cons_append, List.cons_eq_cons] at h
          exact ih B' K L hK hL h.2

theorem renderSegs_ne_empty (p : List Seg) (hp : ∀ s ∈ p, goodSeg s = true)
    (hne : p ≠ []) : renderSegs p ≠ "" := by
  cases p with
  | nil => exact absurd rfl hne
  | cons s p' =>
      have hp' : ∀ t ∈ p', goodSeg t = true := fun t ht => hp t (by simp [ht])
      rw [str_ne_empty_iff]
      cases s with
      | key k =>
          have hgk : goodKey k = true := by simpa [goodSeg] using hp (Seg.key k) (by simp)
          have hkne := goodKey_ne_empty k hgk
          have hstep : renderSegs (Seg.key k :: p') = renderFrom k p' := by
            show renderFrom (renderSeg "" (Seg.key k)) p' = _
            simp [renderSeg, joinPath]
          rw [hstep, renderFrom_data p' k ((str_ne_empty_iff k).mpr hkne)]
          simp [hkne]
      | idx n =>
          have hne2 : idxPath "" n ≠ "" := by
            rw [str_ne_empty_iff, idxPath_data]
            simp
          have hstep : renderSegs (Seg.idx n :: p') = renderFrom (idxPath "" n) p' := rfl
          rw [hstep, renderFrom_data p' _ hne2, idxPath_data]
          simp

theorem strEndsWith_renderSegs_false (p : List Seg) (hp : ∀ s ∈ p, goodSeg s = true)
    (hne : p ≠ []) : strEndsWith (renderSegs p) ".length" = false := by
  rcases List.eq_nil_or_concat p with rfl | ⟨q, s, rfl⟩
  · exact absurd rfl hne
  rw [List.concat_eq_append] at hp hne ⊢
  unfold strEndsWith
  simp only [decide_eq_false_iff_not]
  intro hsuf
  have hq : ∀ t ∈ q, goodSeg t = true := fun t ht => hp t (by simp [ht])
  have hrender : renderSegs (q ++ [s]) = renderSeg (renderSegs q) s := by
    unfold renderSegs
    rw [List.foldl_append]
    rfl
  obtain ⟨t, ht⟩ := hsuf
  cases s with
  | idx n =>
      have hdata : (renderSegs (q ++ [Seg.idx n])).data
          = (renderSegs q).data ++ '[' :: ((decRepr n).data ++ [']']) := by
        rw [hrender]
        exact idxPath_data (renderSegs q) n
      have hlast : ((renderSegs (q ++ [Seg.idx n])).data).getLast? = some ']' := by
        rw [hdata]
        rw [List.getLast?_append]
        have : ('[' :: ((decRepr n).data ++ [']'])).getLast? = some ']' := by
          show (('[' :: (decRepr n).data) ++ [']']).getLast? = some ']'
          exact List.getLast?_concat _
        rw [this]
        rfl
      rw [← ht, List.getLast?_append] at hlast
      simp at hlast
  | key k =>
      have hgk : goodKey k = true := by simpa [goodSeg] using hp (Seg.key k) (by simp)
      obtain ⟨hne0, hdot, hbr, hlen⟩ := goodKey_parts k hgk
      rcases List.eq_nil_or_concat q with rfl | hq2
      · -- single key: the rendered path is `k` itself, which contains no '.'
        have hdata : (renderSegs ([] ++ [Seg.key k])).data = k.data := by
          show (renderSeg "" (Seg.key k)).data = k.data
          simp [renderSeg, joinPath]
        rw [hdata] at ht
        apply hdot
        rw [← ht]
        simp
      · have hqne : q ≠ [] := by
          rcases hq2 with ⟨q', s', rfl⟩
          simp
        have hparent : renderSegs q ≠ "" := renderSegs_ne_empty q hq hqne
        have hdata : (renderSegs (q ++ [Seg.key k])).data
            = (renderSegs q).data ++ '.' :: k.data := by
          rw [hrender]
          exact joinPath_data (renderSegs q) k hparent
        rw [hdata] at ht
        have heq : t ++ '.' :: ("length").data = (renderSegs q).data ++ '.' :: k.data := by
          simpa using ht
        have hKL := dotSplit_unique t (renderSegs q).data ("length").data k.data
          (by decide) hdot heq
        apply hlen
        apply String.ext
        rw [← hKL]

/-! ## Structural diff engine (`core/diff.py`)

`compute_diff` / `_diff_dicts` / `_diff_values` / `_diff_lists`, modelled
functionally: where the source appends entries to one mutable `StateDiff`
during its depth-first walk, the model returns each call's contribution
and concatenates them in the identical order, list by list. -/

/-- A `{path, old_value, new_value}` entry of `StateDiff.changed`. -/
structure ChangedE where
  path : String
  old_value : Val
  new_value : Val
  deriving DecidableEq

/-- A `{path, value}` entry of `StateDiff.added`. -/
structure AddedE where
  path : String
  value : Val
  deriving DecidableEq

/-- A `{path, value}` entry of `StateDiff.removed`. -/
structure RemovedE where
  path : String
  value : Val
  deriving DecidableEq

/-- `core/models.py` `StateDiff`: the three ordered entry lists. -/
structure StateDiff where
  changed : List ChangedE
  added : List AddedE
  removed : List RemovedE
  deriving DecidableEq

/-- The all-empty diff (`StateDiff()`). -/
def StateDiff.empty : StateDiff := ⟨[], [], []⟩

/-- Concatenate the contributions of two stretches of the source's
depth-first walk. -/
def StateDiff.app (d e : StateDiff) : StateDiff :=
  ⟨d.changed ++ e.changed, d.added ++ e.added, d.removed ++ e.removed⟩

/-- The `is_empty` property of `StateDiff`. -/
def StateDiff.isEmpty (d : StateDiff) : Bool :=
  d.changed.isEmpty && d.added.isEmpty && d.removed.isEmpty

/-- Python `sorted` on key lists (total lexicographic order on strings). -/
def sortStr (l : List String) : List String :=
  l.mergeSort (fun a b => decide (a ≤ b))

/-- Python `set(d.keys())`, as a deduplicated key list. -/
def setKeys (kvs : List (String × Val)) : List String := (keysOf kvs).dedup

/-- The `added` entries for one appended list tail, indices `i, i+1, …`. -/
def addedTailE (path : String) (i : Nat) (vs : List Val) : List AddedE :=
  match vs with
  | [] => []
  | v :: rest => ⟨idxPath path i, v⟩ :: addedTailE path (i + 1) rest

/-- The `removed` entries for one dropped list tail. -/
def removedTailE (path : String) (i : Nat) (vs : List Val) : List RemovedE :=
  match vs with
  | [] => []
  | v :: rest => ⟨idxPath path i, v⟩ :: removedTailE path (i + 1) rest

/-- The key set of one side of `_diff_dicts`, with `ignore_keys` removed
at depth 0 only (`if not path`). -/
def filteredKeys (kvs : List (String × Val)) (path : String)
    (ignore : List String) : List String :=
  if path = "" then (setKeys kvs).filter (fun k => decide (k ∉ ignore))
  else setKeys kvs

/-- `sorted(after_keys - before_keys)`. -/
def addedKeysOf (bk ak : List String) : List String :=
  sortStr (ak.filter (fun k => decide (k ∉ bk)))

/-- `sorted(before_keys - after_keys)`. -/
def removedKeysOf (bk ak : List String) : List String :=
  sortStr (bk.filter (fun k => decide (k ∉ ak)))

/-- `sorted(before_keys & after_keys)`. -/
def sharedKeysOf (bk ak : List String) : List String :=
  sortStr (bk.filter (fun k => decide (k ∈ ak)))

theorem sizeOf_dictGet (l : List (String × Val)) (k : String) (v : Val)
    (h : dictGet l k = some v) : sizeOf v < sizeOf l := by
  induction l with
  | nil => simp [dictGet] at h
  | cons p rest ih =>
      obtain ⟨k', v'⟩ := p
      unfold dictGet at h
      by_cases hk : k' = k
      · rw [if_pos hk] at h
        cases h
        simp
        omega
      · rw [if_neg hk] at h
        have := ih h
        simp
        omega

mutual

/-- `_diff_values`: dispatch on the two values' types. -/
def diffValues (b a : Val) (path : String) (ignore : List String) : StateDiff :=
  match b, a with
  | .dict x, .dict y => diffDicts x y path ignore
  | .list xs, .list ys => diffLists xs ys path ignore
  | b, a => if Val.beq b a then .empty else ⟨[⟨path, b, a⟩], [], []⟩
termination_by (sizeOf b + sizeOf a, 0, 0)
decreasing_by
  · simp_wf
    exact Prod.Lex.left _ _ (by omega)
  · simp_wf
    exact Prod.Lex.left _ _ (by omega)

/-- `_diff_dicts`: added/removed key sets, then recursion over the shared
keys, all three in sorted key order. -/
def diffDicts (before after : List (String × Val)) (path : String)
    (ignore : List String) : StateDiff :=
  StateDiff.app
    ⟨[],
     (addedKeysOf (filteredKeys before path ignore) (filteredKeys after path ignore)).map
       (fun k => ⟨joinPath path k, (dictGet after k).getD .none⟩),
     (removedKeysOf (filteredKeys before path ignore) (filteredKeys after path ignore)).map
       (fun k => ⟨joinPath path k, (dictGet before k).getD .none⟩)⟩
    (diffShared before after
      (sharedKeysOf (filteredKeys before path ignore) (filteredKeys after path ignore))
      path ignore)
termination_by (sizeOf before + sizeOf after, 1, 0)
decreasing_by
  · simp_wf
    exact Prod.Lex.right _ (Prod.Lex.left _ _ (by omega))

/-- The shared-key loop of `_diff_dicts`, one recursive `_diff_values`
call per key. -/
def diffShared (before after : List (String × Val)) (keys : List String)
    (path : String) (ignore : List String) : StateDiff :=
  match keys with
  | [] => .empty
  | k :: rest =>
      (match hb : dictGet before k, ha : dictGet after k with
       | some bv, some av => diffValues bv av (joinPath path k) ignore
       | _, _ => .empty).app
        (diffShared before after rest path ignore)
termination_by (sizeOf before + sizeOf after, 0, keys.length)
decreasing_by
  · simp_wf
    have h1 := sizeOf_dictGet before k bv hb
    have h2 := sizeOf_dictGet after k av ha
    exact Prod.Lex.left _ _ (by omega)
  · simp_wf
    exact Prod.Lex.right _ (Prod.Lex.right _ (by omega))

/-- `_diff_lists`: shared prefix elementwise, then added/removed tails,
then the synthetic `.length` entry. -/
def diffLists (bs as : List Val) (path : String) (ignore : List String) :
    StateDiff :=
  ⟨(diffListsAux bs as 0 path ignore).changed ++
     (if bs.length ≠ as.length
      then [⟨lenPath path, .int bs.length, .int as.length⟩] else []),
   (diffListsAux bs as 0 path ignore).added ++
     addedTailE path (min bs.length as.length) (as.drop (min bs.length as.length)),
   (diffListsAux bs as 0 path ignore).removed ++
     removedTailE path (min bs.length as.length) (bs.drop (min bs.length as.length))⟩
termination_by (sizeOf bs + sizeOf as, 1, 0)
decreasing_by
  · simp_wf
    exact Prod.Lex.right _ (Prod.Lex.left _ _ (by omega))

/-- The shared-prefix loop of `_diff_lists` (`for i in range(min_len)`). -/
def diffListsAux (bs as : List Val) (i : Nat) (path : String)
    (ignore : List String) : StateDiff :=
  match bs, as with
  | b :: bs', a :: as' =>
      (diffValues b a (idxPath path i) ignore).app
        (diffListsAux bs' as' (i + 1) path ignore)
  | _, _ => .empty
termination_by (sizeOf bs + sizeOf as, 0, 0)
decreasing_by
  · simp_wf
    exact Prod.Lex.left _ _ (by omega)
  · simp_wf
    exact Prod.Lex.left _ _ (by omega)

end

/-- `compute_diff`: the public entry point (the `ignore_keys=None` default
becomes the empty list). -/
def compute_diff (before after : List (String × Val)) (ignore_keys : List String) :
    StateDiff :=
  diffDicts before after "" ignore_keys

/-! ## Patch engine (`core/diff.py`: `apply_diff`, `_set_at_path`,
`_delete_at_path`)

The source deep-copies the base dict and then mutates it; the model
rebuilds the value functionally, which is the same function on trees.
Intermediate navigation failures that would raise in `_set_at_path`
(indexing a list with a string key and the like) return the value
unchanged here; they are unreachable for the diffs this file applies.
`_delete_at_path` swallows those failures in the source itself. -/

/-- Extend `xs` with copies of `fill` until index `n` exists
(`while len(current) <= n: current.append(fill)`). -/
def padWith (xs : List Val) (n : Nat) (fill : Val) : List Val :=
  xs ++ List.replicate (n + 1 - xs.length) fill

/-- `_set_at_path` after `_parse_path`, on segment lists.  The final
segment assigns (padding lists with `None`); earlier segments navigate,
creating `{}` mappings and padding lists with `{}`. -/
def setSegs : Val → List Seg → Val → Val
  | _, [], v => v
  | cur, [Seg.key k], v =>
      match cur with
      | .dict kvs => .dict (dictSet kvs k v)
      | other => other
  | cur, [Seg.idx n], v =>
      match cur with
      | .list xs => .list ((padWith xs n .none).set n v)
      | other => other
  | cur, Seg.key k :: s₂ :: rest, v =>
      match cur with
      | .dict kvs =>
          if dictHas kvs k then .dict (dictUpd kvs k (fun c => setSegs c (s₂ :: rest) v))
          else .dict (kvs ++ [(k, setSegs (.dict []) (s₂ :: rest) v)])
      | other => other
  | cur, Seg.idx n :: s₂ :: rest, v =>
      match cur with
      | .list xs => .list (List.modify (fun c => setSegs c (s₂ :: rest) v) n (padWith xs n (.dict [])))
      | other => other

/-- `_delete_at_path` after `_parse_path`: navigate, pop a list index or
delete a mapping key; any failure leaves the value unchanged. -/
def delSegs : Val → List Seg → Val
  | cur, [] => cur
  | cur, [Seg.key k] =>
      match cur with
      | .dict kvs => .dict (dictDel kvs k)
      | other => other
  | cur, [Seg.idx n] =>
      match cur with
      | .list xs => if n < xs.length then .list (xs.eraseIdx n) else .list xs
      | other => other
  | cur, Seg.key k :: s₂ :: rest =>
      match cur with
      | .dict kvs =>
          if dictHas kvs k then .dict (dictUpd kvs k (fun c => delSegs c (s₂ :: rest)))
          else .dict kvs
      | other => other
  | cur, Seg.idx n :: s₂ :: rest =>
      match cur with
      | .list xs =>
          if n < xs.length then .list (List.modify (fun c => delSegs c (s₂ :: rest)) n xs)
          else .list xs
      | other => other

/-- `_set_at_path` proper. -/
def setAtPath (state : Val) (path : String) (v : Val) : Val :=
  setSegs state (parsePath path) v

/-- `_delete_at_path` proper. -/
def delAtPath (state : Val) (path : String) : Val :=
  delSegs state (parsePath path)

/-- Unwrap the root mapping again (the root stays a mapping throughout
`apply_diff`: every generated path is nonempty). -/
def asDict : Val → List (String × Val)
  | .dict kvs => kvs
  | _ => []

/-- Phase 1 of `apply_diff`: removals, iterated over `reversed(removed)`
by the caller. -/
def applyRemoved (s : Val) (es : List RemovedE) : Val :=
  es.foldl (fun t e => delAtPath t e.path) s

/-- Phase 2 of `apply_diff`: additions in given order. -/
def applyAdded (s : Val) (es : List AddedE) : Val :=
  es.foldl (fun t e => setAtPath t e.path e.value) s

/-- Phase 3 of `apply_diff`: changed entries in given order, skipping the
synthetic `*.length` paths. -/
def applyChanged (s : Val) (es : List ChangedE) : Val :=
  es.foldl (fun t e =>
    if strEndsWith e.path ".length" then t else setAtPath t e.path e.new_value) s

/-- `apply_diff`: deep-copy (value semantics), removals in reverse,
additions, then changed entries. -/
def apply_diff (state : List (String × Val)) (d : StateDiff) : List (String × Val) :=
  asDict (applyChanged (applyAdded (applyRemoved (Val.dict state) d.removed.reverse) d.added) d.changed)

/-! ## Python `==` on serialized trees

`compute_diff(t, u)` reproduces `u` only up to Python dict equality:
`apply_diff` appends newly added keys at the end of the mapping, so the
reconstructed mapping can order its keys differently from `u`.  `Val.peq`
is the model of Python `==` on serialized trees: structural except that
mappings compare by key lookup. -/

mutual

/-- Python `==` on serialized trees (mapping order ignored). -/
def Val.peq : Val → Val → Bool
  | .dict x, .dict y => Val.peqKV x y
  | .list xs, .list ys => Val.peqL xs ys
  | b, a => Val.beq b a
termination_by b a => (sizeOf b + sizeOf a, 0)
decreasing_by
  · simp_wf
    exact Prod.Lex.left _ _ (by omega)
  · simp_wf
    exact Prod.Lex.left _ _ (by omega)

/-- Elementwise `==` on lists. -/
def Val.peqL : List Val → List Val → Bool
  | [], [] => true
  | x :: xs, y :: ys => Val.peq x y && Val.peqL xs ys
  | _, _ => false
termination_by xs ys => (sizeOf xs + sizeOf ys, 0)
decreasing_by
  · simp_wf
    exact Prod.Lex.left _ _ (by omega)
  · simp_wf
    exact Prod.Lex.left _ _ (by omega)

/-- Mapping `==`: same key set, equal values under lookup. -/
def Val.peqKV (x y : List (String × Val)) : Bool :=
  x.all (fun p => dictHas y p.1) && Val.peqLookup x y

termination_by (sizeOf x + sizeOf y, 1)
decreasing_by
  · simp_wf
    exact Prod.Lex.right _ (by omega)

/-- For each binding of the right mapping, the left mapping holds an
equal value under its key. -/
def Val.peqLookup (x : List (String × Val)) : List (String × Val) → Bool
  | [] => true
  | (kq, wq) :: rest =>
      (match h : dictGet x kq with
       | some v => Val.peq v wq
       | Option.none => false) && Val.peqLookup x rest
termination_by y => (sizeOf x + sizeOf y, 0)
decreasing_by
  · simp_wf
    have := sizeOf_dictGet _ _ _ h
    exact Prod.Lex.left _ _ (by omega)
  · simp_wf
    exact Prod.Lex.left _ _ (by omega)

end

/-! ### Association-list operation lemmas -/

theorem dictGet_dictSet_self (t : List (String × Val)) (k : String) (v : Val) :
    dictGet (dictSet t k v) k = some v := by
  induction t with
  | nil => simp [dictSet, dictGet]
  | cons p rest ih =>
      obtain ⟨k', v'⟩ := p
      by_cases hk : k' = k <;> simp [dictSet, dictGet, hk, ih]

theorem dictGet_dictSet_other (t : List (String × Val)) (k k' : String) (v : Val)
    (h : k' ≠ k) : dictGet (dictSet t k v) k' = dictGet t k' := by
  induction t with
  | nil => simp [dictSet, dictGet, Ne.symm h]
  | cons p rest ih =>
      obtain ⟨k₀, v₀⟩ := p
      by_cases hk : k₀ = k
      · subst hk
        simp [dictSet, dictGet, Ne.symm h]
      · simp [dictSet, hk, dictGet, ih]

theorem dictGet_dictUpd_self (t : List (String × Val)) (k : String) (f : Val → Val) :
    dictGet (dictUpd t k f) k = (dictGet t k).map f := by
  induction t with
  | nil => simp [dictUpd, dictGet]
  | cons p rest ih =>
      obtain ⟨k', v'⟩ := p
      by_cases hk : k' = k <;> simp [dictUpd, dictGet, hk, ih]

theorem dictGet_dictUpd_other (t : List (String × Val)) (k k' : String) (f : Val → Val)
    (h : k' ≠ k) : dictGet (dictUpd t k f) k' = dictGet t k' := by
  induction t with
  | nil => simp [dictUpd, dictGet]
  | cons p rest ih =>
      obtain ⟨k₀, v₀⟩ := p
      by_cases hk : k₀ = k
      · subst hk
        simp [dictUpd, dictGet, Ne.symm h]
      · simp [dictUpd, hk, dictGet, ih]

theorem dictGet_dictDel_other (t : List (String × Val)) (k k' : String)
    (h : k' ≠ k) : dictGet (dictDel t k) k' = dictGet t k' := by
  induction t with
  | nil => simp [dictDel, dictGet]
  | cons p rest ih =>
      obtain ⟨k₀, v₀⟩ := p
      by_cases hk : k₀ = k
      · subst hk
        simp [dictDel, dictGet, Ne.symm h]
      · simp [dictDel, hk, dictGet, ih]

theorem keysOf_dictUpd (t : List (String × Val)) (k : String) (f : Val → Val) :
    keysOf (dictUpd t k f) = keysOf t := by
  induction t with
  | nil => simp [dictUpd]
  | cons p rest ih =>
      obtain ⟨k', v'⟩ := p
      by_cases hk : k' = k <;> simp [dictUpd, keysOf, hk] <;>
        simpa [keysOf] using ih

theorem keysOf_dictDel (t : List (String × Val)) (k : String) :
    keysOf (dictDel t k) = (keysOf t).erase k := by
  induction t with
  | nil => simp [dictDel, keysOf]
  | cons p rest ih =>
      obtain ⟨k', v'⟩ := p
      by_cases hk : k' = k
      · subst hk
        simp [dictDel, keysOf, List.erase_cons]
      · simp [dictDel, hk, keysOf, List.erase_cons, ih]
        simpa [keysOf] using ih

theorem dictUpd_dictUpd_same (t : List (String × Val)) (k : String) (f g : Val → Val) :
    dictUpd (dictUpd t k f) k g = dictUpd t k (fun v => g (f v)) := by
  induction t with
  | nil => simp [dictUpd]
  | cons p rest ih =>
      obtain ⟨k', v'⟩ := p
      by_cases hk : k' = k <;> simp [dictUpd, hk, ih]

theorem dictUpd_comm (t : List (String × Val)) (k k' : String) (f g : Val → Val)
    (h : k ≠ k') : dictUpd (dictUpd t k f) k' g = dictUpd (dictUpd t k' g) k f := by
  induction t with
  | nil => simp [dictUpd]
  | cons p rest ih =>
      obtain ⟨k₀, v₀⟩ := p
      by_cases hk : k₀ = k
      · subst hk
        simp [dictUpd, h, Ne.symm h, ih]
      · by_cases hk' : k₀ = k'
        · subst hk'
          simp [dictUpd, hk, ih]
        · simp [dictUpd, hk, hk', ih]

theorem dictUpd_dictDel_comm (t : List (String × Val)) (k r : String) (f : Val → Val)
    (h : k ≠ r) : dictUpd (dictDel t r) k f = dictDel (dictUpd t k f) r := by
  induction t with
  | nil => simp [dictUpd, dictDel]
  | cons p rest ih =>
      obtain ⟨k₀, v₀⟩ := p
      by_cases hk : k₀ = k
      · subst hk
        simp [dictUpd, dictDel, h, Ne.symm h, ih]
      · by_cases hr : k₀ = r
        · subst hr
          simp [dictUpd, dictDel, hk]
        · simp [dictUpd, dictDel, hk, hr, ih]

theorem dictUpd_append (t u : List (String × Val)) (k : String) (f : Val → Val)
    (h : k ∈ keysOf t) : dictUpd (t ++ u) k f = dictUpd t k f ++ u := by
  induction t with
  | nil => simp [keysOf] at h
  | cons p rest ih =>
      obtain ⟨k', v'⟩ := p
      by_cases hk : k' = k
      · simp [dictUpd, hk]
      · simp [keysOf, hk] at h
        rcases h with h | h
        · exact absurd h.symm hk
        · obtain ⟨x, hx⟩ := h
          have : k ∈ keysOf rest := List.mem_map_of_mem _ hx
          simp [dictUpd, hk, ih this]

theorem dictDel_append (t u : List (String × Val)) (r : String)
    (h : r ∈ keysOf t) : dictDel (t ++ u) r = dictDel t r ++ u := by
  induction t with
  | nil => simp [keysOf] at h
  | cons p rest ih =>
      obtain ⟨k', v'⟩ := p
      by_cases hk : k' = r
      · simp [dictDel, hk]
      · simp [keysOf, hk] at h
        rcases h with h | h
        · exact absurd h.symm hk
        · obtain ⟨x, hx⟩ := h
          have : r ∈ keysOf rest := List.mem_map_of_mem _ hx
          simp [dictDel, hk, ih this]

theorem dictSet_eq_dictUpd (t : List (String × Val)) (k : String) (v : Val)
    (h : k ∈ keysOf t) : dictSet t k v = dictUpd t k (fun _ => v) := by
  induction t with
  | nil => simp [keysOf] at h
  | cons p rest ih =>
      obtain ⟨k', v'⟩ := p
      by_cases hk : k' = k
      · simp [dictSet, dictUpd, hk]
      · simp [keysOf, hk] at h
        rcases h with h | h
        · exact absurd h.symm hk
        · obtain ⟨x, hx⟩ := h
          have : k ∈ keysOf rest := List.mem_map_of_mem _ hx
          simp [dictSet, dictUpd, hk, ih this]

theorem dictHas_iff (t : List (String × Val)) (k : String) :
    dictHas t k = true ↔ k ∈ keysOf t := by
  unfold dictHas
  exact dictGet_isSome_iff t k

theorem dictGet_of_mem_nodup (t : List (String × Val)) (k : String) (v : Val)
    (hmem : (k, v) ∈ t) (hnd : (keysOf t).Nodup) : dictGet t k = some v := by
  induction t with
  | nil => simp at hmem
  | cons p rest ih =>
      obtain ⟨k', v'⟩ := p
      have hnd' : k' ∉ keysOf rest ∧ (keysOf rest).Nodup := by
        simpa [keysOf] using hnd
      simp only [List.mem_cons] at hmem
      rcases hmem with h | h
      · rw [Prod.mk.injEq] at h
        simp [dictGet, h.1, h.2]
      · have hk : k' ≠ k := by
          intro he
          subst he
          exact hnd'.1 (List.mem_map_of_mem _ h)
        simp [dictGet, hk]
        exact ih h hnd'.2

/-! ## Segment-level view of the diff

`compute_diff` builds path strings and `apply_diff` re-parses them.  For
the round-trip proof the diff is reflected into segment lists
(`diffVS` below), related to the string layer through `renderSegs` /
`parsePath`.  A changed entry carries a `synth` flag marking the
synthetic `.length` entries, whose rendered path gains the `.length`
suffix. -/

/-- Segment-level changed entry. -/
structure ChangedS where
  segs : List Seg
  old_value : Val
  new_value : Val
  synth : Bool
  deriving DecidableEq

/-- Segment-level added entry. -/
structure AddedS where
  segs : List Seg
  value : Val
  deriving DecidableEq

/-- Segment-level removed entry. -/
structure RemovedS where
  segs : List Seg
  value : Val
  deriving DecidableEq

/-- Segment-level diff. -/
structure DiffS where
  changed : List ChangedS
  added : List AddedS
  removed : List RemovedS
  deriving DecidableEq

/-- The empty segment-level diff. -/
def DiffS.empty : DiffS := ⟨[], [], []⟩

/-- Concatenation of segment-level diffs. -/
def DiffS.app (d e : DiffS) : DiffS :=
  ⟨d.changed ++ e.changed, d.added ++ e.added, d.removed ++ e.removed⟩

/-- Prefix every entry of a diff with one segment. -/
def prefixD (s : Seg) (d : DiffS) : DiffS :=
  ⟨d.changed.map (fun e => ⟨s :: e.segs, e.old_value, e.new_value, e.synth⟩),
   d.added.map (fun e => ⟨s :: e.segs, e.value⟩),
   d.removed.map (fun e => ⟨s :: e.segs, e.value⟩)⟩

/-- Segment-level added tail entries. -/
def addedTailS (i : Nat) (vs : List Val) : List AddedS :=
  match vs with
  | [] => []
  | v :: rest => ⟨[Seg.idx i], v⟩ :: addedTailS (i + 1) rest

/-- Segment-level removed tail entries. -/
def removedTailS (i : Nat) (vs : List Val) : List RemovedS :=
  match vs with
  | [] => []
  | v :: rest => ⟨[Seg.idx i], v⟩ :: removedTailS (i + 1) rest

mutual

/-- Segment-level `_diff_values` (empty `ignore_keys`). -/
def diffVS (b a : Val) : DiffS :=
  match b, a with
  | .dict x, .dict y => diffDictsS x y
  | .list xs, .list ys => diffListsS xs ys
  | b, a => if Val.beq b a then .empty else ⟨[⟨[], b, a, false⟩], [], []⟩
termination_by (sizeOf b + sizeOf a, 0, 0)
decreasing_by
  · simp_wf
    exact Prod.Lex.left _ _ (by omega)
  · simp_wf
    exact Prod.Lex.left _ _ (by omega)

/-- Segment-level `_diff_dicts`. -/
def diffDictsS (before after : List (String × Val)) : DiffS :=
  DiffS.app
    ⟨[],
     (addedKeysOf (setKeys before) (setKeys after)).map
       (fun k => ⟨[Seg.key k], (dictGet after k).getD .none⟩),
     (removedKeysOf (setKeys before) (setKeys after)).map
       (fun k => ⟨[Seg.key k], (dictGet before k).getD .none⟩)⟩
    (diffSharedS before after (sharedKeysOf (setKeys before) (setKeys after)))
termination_by (sizeOf before + sizeOf after, 1, 0)
decreasing_by
  · simp_wf
    exact Prod.Lex.right _ (Prod.Lex.left _ _ (by omega))

/-- Segment-level shared-key loop. -/
def diffSharedS (before after : List (String × Val)) (keys : List String) : DiffS :=
  match keys with
  | [] => .empty
  | k :: rest =>
      (match hb : dictGet before k, ha : dictGet after k with
       | some bv, some av => prefixD (Seg.key k) (diffVS bv av)
       | _, _ => .empty).app
        (diffSharedS before after rest)
termination_by (sizeOf before + sizeOf after, 0, keys.length)
decreasing_by
  · simp_wf
    have h1 := sizeOf_dictGet _ _ _ hb
    have h2 := sizeOf_dictGet _ _ _ ha
    exact Prod.Lex.left _ _ (by omega)
  · simp_wf
    exact Prod.Lex.right _ (Prod.Lex.right _ (by omega))

/-- Segment-level `_diff_lists`. -/
def diffListsS (bs as : List Val) : DiffS :=
  ⟨(diffListsAuxS bs as 0).changed ++
     (if bs.length ≠ as.length
      then [⟨[], .int bs.length, .int as.length, true⟩] else []),
   (diffListsAuxS bs as 0).added ++
     addedTailS (min bs.length as.length) (as.drop (min bs.length as.length)),
   (diffListsAuxS bs as 0).removed ++
     removedTailS (min bs.length as.length) (bs.drop (min bs.length as.length))⟩
termination_by (sizeOf bs + sizeOf as, 1, 0)
decreasing_by
  · simp_wf
    exact Prod.Lex.right _ (Prod.Lex.left _ _ (by omega))

/-- Segment-level shared-prefix loop. -/
def diffListsAuxS (bs as : List Val) (i : Nat) : DiffS :=
  match bs, as with
  | b :: bs', a :: as' =>
      (prefixD (Seg.idx i) (diffVS b a)).app (diffListsAuxS bs' as' (i + 1))
  | _, _ => .empty
termination_by (sizeOf bs + sizeOf as, 0, 0)
decreasing_by
  · simp_wf
    exact Prod.Lex.left _ _ (by omega)
  · simp_wf
    exact Prod.Lex.left _ _ (by omega)

end

/-! ### Segment-level patch application -/

/-- Segment-level removal phase pass (caller reverses). -/
def applyRemovedS (s : Val) (es : List RemovedS) : Val :=
  es.foldl (fun t e => delSegs t e.segs) s

/-- Segment-level addition phase. -/
def applyAddedS (s : Val) (es : List AddedS) : Val :=
  es.foldl (fun t e => setSegs t e.segs e.value) s

/-- Segment-level changed phase, skipping synthetic entries. -/
def applyChangedS (s : Val) (es : List ChangedS) : Val :=
  es.foldl (fun t e => if e.synth then t else setSegs t e.segs e.new_value) s

/-- Segment-level `apply_diff`. -/
def applyDiffS (s : Val) (d : DiffS) : Val :=
  applyChangedS (applyAddedS (applyRemovedS s d.removed.reverse) d.added) d.changed

/-! ### Relating the string-path diff to the segment-level diff -/

/-- Render a segment-level changed entry at a path prefix. -/
def liftC (p : List Seg) (e : ChangedS) : ChangedE :=
  ⟨if e.synth then lenPath (renderSegs (p ++ e.segs)) else renderSegs (p ++ e.segs),
   e.old_value, e.new_value⟩

/-- Render a segment-level added entry at a path prefix. -/
def liftA (p : List Seg) (e : AddedS) : AddedE :=
  ⟨renderSegs (p ++ e.segs), e.value⟩

/-- Render a segment-level removed entry at a path prefix. -/
def liftR (p : List Seg) (e : RemovedS) : RemovedE :=
  ⟨renderSegs (p ++ e.segs), e.value⟩

/-- Render a whole segment-level diff at a path prefix. -/
def liftD (p : List Seg) (d : DiffS) : StateDiff :=
  ⟨d.changed.map (liftC p), d.added.map (liftA p), d.removed.map (liftR p)⟩

theorem renderSegs_append_one (p : List Seg) (s : Seg) :
    renderSegs (p ++ [s]) = renderSeg (renderSegs p) s := by
  unfold renderSegs
  rw [List.foldl_append]
  rfl

theorem liftD_app (p : List Seg) (d e : DiffS) :
    liftD p (d.app e) = (liftD p d).app (liftD p e) := by
  simp [liftD, DiffS.app, StateDiff.app]

theorem renderSegs_cons_append (p : List Seg) (s : Seg) (segs : List Seg) :
    renderSegs (p ++ s :: segs) = renderSegs ((p ++ [s]) ++ segs) := by
  rw [List.append_assoc]
  rfl

theorem liftD_prefixD (p : List Seg) (s : Seg) (d : DiffS) :
    liftD p (prefixD s d) = liftD (p ++ [s]) d := by
  unfold liftD prefixD
  simp only [List.map_map]
  have hc : ∀ e : ChangedS, liftC p ⟨s :: e.segs, e.old_value, e.new_value, e.synth⟩
      = liftC (p ++ [s]) e := by
    intro e
    simp [liftC, renderSegs_cons_append]
  have ha : ∀ e : AddedS, liftA p ⟨s :: e.segs, e.value⟩ = liftA (p ++ [s]) e := by
    intro e
    simp [liftA, renderSegs_cons_append]
  have hr : ∀ e : RemovedS, liftR p ⟨s :: e.segs, e.value⟩ = liftR (p ++ [s]) e := by
    intro e
    simp [liftR, renderSegs_cons_append]
  simp only [Function.comp_def]
  rw [List.map_congr_left (fun e _ => hc e), List.map_congr_left (fun e _ => ha e),
    List.map_congr_left (fun e _ => hr e)]

theorem liftD_empty (p : List Seg) : liftD p DiffS.empty = StateDiff.empty := by
  simp [liftD, DiffS.empty, StateDiff.empty]

theorem addedTailE_eq_lift (p : List Seg) (i : Nat) (vs : List Val) :
    addedTailE (renderSegs p) i vs = (addedTailS i vs).map (liftA p) := by
  induction vs generalizing i with
  | nil => simp [addedTailE, addedTailS]
  | cons v rest ih =>
      simp only [addedTailE, addedTailS, List.map_cons, ih]
      refine congrArg₂ _ ?_ rfl
      simp [liftA, renderSegs_append_one, renderSeg]

theorem removedTailE_eq_lift (p : List Seg) (i : Nat) (vs : List Val) :
    removedTailE (renderSegs p) i vs = (removedTailS i vs).map (liftR p) := by
  induction vs generalizing i with
  | nil => simp [removedTailE, removedTailS]
  | cons v rest ih =>
      simp only [removedTailE, removedTailS, List.map_cons, ih]
      refine congrArg₂ _ ?_ rfl
      simp [liftR, renderSegs_append_one, renderSeg]

theorem filter_not_mem_nil (l : List String) :
    l.filter (fun k => decide (k ∉ ([] : List String))) = l := by
  induction l with
  | nil => rfl
  | cons x xs ih => simp

theorem filteredKeys_nil_ignore (kvs : List (String × Val)) (path : String) :
    filteredKeys kvs path [] = setKeys kvs := by
  unfold filteredKeys
  split <;> simp [filter_not_mem_nil]

mutual

theorem diffValues_corr (b a : Val) (p : List Seg) :
    diffValues b a (renderSegs p) [] = liftD p (diffVS b a) := by
  cases b <;> cases a <;>
    first
      | (unfold diffValues diffVS
         exact diffDicts_corr _ _ p)
      | (unfold diffValues diffVS
         exact diffLists_corr _ _ p)
      | (unfold diffValues diffVS
         split <;> rename_i hbeq <;> simp only [liftD, liftC, List.map_cons,
           List.map_nil, List.append_nil, StateDiff.empty, DiffS.empty] <;>
           simp [hbeq])
termination_by (sizeOf b + sizeOf a, 0, 0)
decreasing_by
  · simp_wf
    exact Prod.Lex.left _ _ (by omega)
  · simp_wf
    exact Prod.Lex.left _ _ (by omega)

theorem diffDicts_corr (before after : List (String × Val)) (p : List Seg) :
    diffDicts before after (renderSegs p) [] = liftD p (diffDictsS before after) := by
  unfold diffDicts diffDictsS
  rw [filteredKeys_nil_ignore before, filteredKeys_nil_ignore after]
  rw [diffShared_corr before after _ p]
  rw [liftD_app]
  refine congrArg₂ StateDiff.app ?_ rfl
  simp only [liftD, List.map_map, List.map_nil, StateDiff.mk.injEq]
  refine ⟨trivial, ?_, ?_⟩
  · apply List.map_congr_left
    intro k hk
    simp [liftA, Function.comp, renderSegs_append_one, renderSeg]
  · apply List.map_congr_left
    intro k hk
    simp [liftR, Function.comp, renderSegs_append_one, renderSeg]
termination_by (sizeOf before + sizeOf after, 1, 0)
decreasing_by
  · simp_wf
    exact Prod.Lex.right _ (Prod.Lex.left _ _ (by omega))

theorem diffShared_corr (before after : List (String × Val)) (keys : List String)
    (p : List Seg) :
    diffShared before after keys (renderSegs p) [] = liftD p (diffSharedS before after keys) := by
  match keys with
  | [] =>
      unfold diffShared diffSharedS
      simp [liftD_empty]
  | k :: rest =>
      unfold diffShared diffSharedS
      rw [liftD_app]
      refine congrArg₂ StateDiff.app ?_ (diffShared_corr before after rest p)
      cases hb : dictGet before k <;> cases ha : dictGet after k <;>
        simp only [liftD_empty]
      rw [show joinPath (renderSegs p) k = renderSegs (p ++ [Seg.key k]) from
        (renderSegs_append_one p (Seg.key k)).symm]
      rw [diffValues_corr _ _ (p ++ [Seg.key k])]
      rw [liftD_prefixD]
termination_by (sizeOf before + sizeOf after, 0, keys.length)
decreasing_by
  all_goals simp_wf
  all_goals
    first
      | (exact Prod.Lex.right _ (Prod.Lex.right _ (by omega)))
      | (have h1 := sizeOf_dictGet _ _ _ hb
         have h2 := sizeOf_dictGet _ _ _ ha
         exact Prod.Lex.left _ _ (by omega))

theorem diffLists_corr (bs as : List Val) (p : List Seg) :
    diffLists bs as (renderSegs p) [] = liftD p (diffListsS bs as) := by
  unfold diffLists diffListsS
  rw [diffListsAux_corr bs as 0 p]
  simp only [liftD, List.map_append, addedTailE_eq_lift, removedTailE_eq_lift,
    StateDiff.mk.injEq]
  refine ⟨?_, trivial, trivial⟩
  refine congrArg₂ _ rfl ?_
  split <;> simp [liftC, lenPath]
termination_by (sizeOf bs + sizeOf as, 1, 0)
decreasing_by
  · simp_wf
    exact Prod.Lex.right _ (Prod.Lex.left _ _ (by omega))

theorem diffListsAux_corr (bs as : List Val) (i : Nat) (p : List Seg) :
    diffListsAux bs as i (renderSegs p) [] = liftD p (diffListsAuxS bs as i) := by
  match bs, as with
  | b :: bs', a :: as' =>
      unfold diffListsAux diffListsAuxS
      rw [liftD_app]
      refine congrArg₂ StateDiff.app ?_ (diffListsAux_corr bs' as' (i + 1) p)
      rw [show idxPath (renderSegs p) i = renderSegs (p ++ [Seg.idx i]) from
        (renderSegs_append_one p (Seg.idx i)).symm]
      rw [diffValues_corr _ _ (p ++ [Seg.idx i])]
      rw [liftD_prefixD]
  | [], _ =>
      unfold diffListsAux diffListsAuxS
      simp [liftD_empty]
  | _ :: _, [] =>
      unfold diffListsAux diffListsAuxS
      simp [liftD_empty]
termination_by (sizeOf bs + sizeOf as, 0, 0)
decreasing_by
  · simp_wf
    exact Prod.Lex.left _ _ (by omega)
  · simp_wf
    exact Prod.Lex.left _ _ (by omega)

end

/-- Top-level diff correspondence: `compute_diff` with empty ignore set is
the rendered segment-level diff. -/
theorem compute_diff_corr (before after : List (String × Val)) :
    compute_diff before after [] = liftD [] (diffDictsS before after) := by
  unfold compute_diff
  have : "" = renderSegs [] := rfl
  rw [this, diffDicts_corr]

/-! ### Relating the string-path patch application to the segment level -/

/-- All key segments of a path are usable keys. -/
def goodSegsB (segs : List Seg) : Bool := segs.all goodSeg

/-- A segment-level diff whose rendered form round-trips through
`_parse_path` and whose genuine changed entries never collide with the
synthetic `.length` suffix test. -/
def goodDiffS (d : DiffS) : Bool :=
  d.added.all (fun e => goodSegsB e.segs) &&
  d.removed.all (fun e => goodSegsB e.segs) &&
  d.changed.all (fun e => goodSegsB e.segs && (e.synth || decide (e.segs ≠ [])))

theorem parsePath_renderSegs_of_goodB (segs : List Seg) (h : goodSegsB segs = true) :
    parsePath (renderSegs segs) = segs :=
  parsePath_renderSegs segs (by simpa [goodSegsB, List.all_eq_true] using h)

theorem applyRemoved_corr (s : Val) (es : List RemovedS)
    (h : ∀ e ∈ es, goodSegsB e.segs = true) :
    applyRemoved s (es.map (liftR [])) = applyRemovedS s es := by
  unfold applyRemoved applyRemovedS
  rw [List.foldl_map]
  apply List.foldl_ext
  intro a e he
  unfold delAtPath
  simp only [liftR, List.nil_append]
  rw [parsePath_renderSegs_of_goodB e.segs (h e he)]

theorem applyAdded_corr (s : Val) (es : List AddedS)
    (h : ∀ e ∈ es, goodSegsB e.segs = true) :
    applyAdded s (es.map (liftA [])) = applyAddedS s es := by
  unfold applyAdded applyAddedS
  rw [List.foldl_map]
  apply List.foldl_ext
  intro a e he
  unfold setAtPath
  simp only [liftA, List.nil_append]
  rw [parsePath_renderSegs_of_goodB e.segs (h e he)]

theorem applyChanged_corr (s : Val) (es : List ChangedS)
    (h : ∀ e ∈ es, goodSegsB e.segs = true ∧ (e.synth = true ∨ e.segs ≠ [])) :
    applyChanged s (es.map (liftC [])) = applyChangedS s es := by
  unfold applyChanged applyChangedS
  rw [List.foldl_map]
  apply List.foldl_ext
  intro a e he
  obtain ⟨hg, hs⟩ := h e he
  by_cases hsy : e.synth = true
  · simp [liftC, hsy, strEndsWith_lenPath]
  · have hf : e.synth = false := by simpa using hsy
    have hne : e.segs ≠ [] := by
      rcases hs with hs | hs
      · exact absurd hs hsy
      · exact hs
    have hfalse := strEndsWith_renderSegs_false e.segs
      (by simpa [goodSegsB, List.all_eq_true] using hg) hne
    simp [liftC, hf, hfalse, setAtPath, parsePath_renderSegs_of_goodB e.segs hg]

/-- The string-level `apply_diff` of a rendered good diff is the
segment-level application. -/
theorem apply_diff_corr (t : List (String × Val)) (d : DiffS)
    (h : goodDiffS d = true) :
    apply_diff t (liftD [] d) = asDict (applyDiffS (Val.dict t) d) := by
  unfold apply_diff applyDiffS
  simp only [goodDiffS, Bool.and_eq_true, List.all_eq_true] at h
  obtain ⟨⟨hadd, hrem⟩, hchg⟩ := h
  simp only [liftD]
  rw [← List.map_reverse]
  rw [applyRemoved_corr _ _ (fun e he => hrem e (List.mem_reverse.mp he))]
  rw [applyAdded_corr _ _ hadd]
  rw [applyChanged_corr _ _ (fun e he => by
    have := hchg e he
    simp only [Bool.and_eq_true, Bool.or_eq_true, decide_eq_true_eq] at this
    exact ⟨this.1, this.2⟩)]

/-! ### Well-formed trees for the round-trip

`goodTree` captures the trees on which the dotted-path encoding is
injective: every mapping key is a usable key (nonempty, no `.` or `[`,
not `"length"`) and mappings bind each key once, recursively through
mappings and lists. -/

mutual

/-- Serialized tree with usable, duplicate-free mapping keys. -/
def goodTree : Val → Bool
  | .dict kvs => (keysOf kvs).all goodKey && (keysOf kvs).Nodup && goodTreeKV kvs
  | .list xs => goodTreeL xs
  | _ => true

def goodTreeL : List Val → Bool
  | [] => true
  | x :: xs => goodTree x && goodTreeL xs

def goodTreeKV : List (String × Val) → Bool
  | [] => true
  | (_, v) :: rest => goodTree v && goodTreeKV rest

end

theorem goodTreeL_iff (xs : List Val) :
    goodTreeL xs = true ↔ ∀ x ∈ xs, goodTree x = true := by
  induction xs with
  | nil => simp [goodTreeL]
  | cons x xs ih => simp [goodTreeL, ih]

theorem goodTreeKV_iff (kvs : List (String × Val)) :
    goodTreeKV kvs = true ↔ ∀ p ∈ kvs, goodTree p.2 = true := by
  induction kvs with
  | nil => simp [goodTreeKV]
  | cons p rest ih =>
      obtain ⟨k, v⟩ := p
      simp [goodTreeKV, ih]

theorem goodTree_dict_parts (kvs : List (String × Val))
    (h : goodTree (Val.dict kvs) = true) :
    (∀ k ∈ keysOf kvs, goodKey k = true) ∧ (keysOf kvs).Nodup ∧
      ∀ p ∈ kvs, goodTree p.2 = true := by
  unfold goodTree at h
  simp only [Bool.and_eq_true, List.all_eq_true, decide_eq_true_eq] at h
  exact ⟨h.1.1, h.1.2, (goodTreeKV_iff kvs).mp h.2⟩

theorem goodTree_of_dictGet (kvs : List (String × Val)) (k : String) (v : Val)
    (hget : dictGet kvs k = some v) (h : ∀ p ∈ kvs, goodTree p.2 = true) :
    goodTree v = true := by
  induction kvs with
  | nil => simp [dictGet] at hget
  | cons p rest ih =>
      obtain ⟨k', v'⟩ := p
      unfold dictGet at hget
      by_cases hk : k' = k
      · rw [if_pos hk] at hget
        have hv : v' = v := by injection hget
        exact hv ▸ h (k', v') (by simp)
      · rw [if_neg hk] at hget
        exact ih hget (fun q hq => h q (by simp [hq]))

theorem mem_keysOf_of_dictGet (kvs : List (String × Val)) (k : String) (v : Val)
    (hget : dictGet kvs k = some v) : k ∈ keysOf kvs := by
  rw [← dictGet_isSome_iff]
  simp [hget]

mutual

theorem peq_refl : ∀ (v : Val), goodTree v = true → Val.peq v v = true
  | .dict kvs, h => by
      obtain ⟨-, hnd, hvals⟩ := goodTree_dict_parts kvs h
      unfold Val.peq Val.peqKV
      simp only [Bool.and_eq_true, List.all_eq_true]
      refine ⟨fun p hp => ?_, ?_⟩
      · rw [dictHas_iff]
        exact List.mem_map_of_mem _ hp
      · exact peqLookup_refl kvs kvs hnd hvals (fun q hq => hq)
  | .list xs, h => by
      unfold Val.peq
      exact peqL_refl xs ((goodTreeL_iff xs).mp (by simpa [goodTree] using h))
  | .none, _ => by
      unfold Val.peq
      exact (Val.beq_iff_eq _ _).mpr rfl
  | .bool b, _ => by
      unfold Val.peq
      exact (Val.beq_iff_eq _ _).mpr rfl
  | .int n, _ => by
      unfold Val.peq
      exact (Val.beq_iff_eq _ _).mpr rfl
  | .float f m, _ => by
      unfold Val.peq
      exact (Val.beq_iff_eq _ _).mpr rfl
  | .str s, _ => by
      unfold Val.peq
      exact (Val.beq_iff_eq _ _).mpr rfl
  | .bytes n, _ => by
      unfold Val.peq
      exact (Val.beq_iff_eq _ _).mpr rfl
  | .tup xs, _ => by
      unfold Val.peq
      exact (Val.beq_iff_eq _ _).mpr rfl
  | .setv xs, _ => by
      unfold Val.peq
      exact (Val.beq_iff_eq _ _).mpr rfl
termination_by v _ => (2 * sizeOf v, 0)
decreasing_by
  · simp_wf
    exact Prod.Lex.left _ _ (by omega)
  · simp_wf
    exact Prod.Lex.left _ _ (by omega)

theorem peqL_refl : ∀ (xs : List Val), (∀ x ∈ xs, goodTree x = true) →
    Val.peqL xs xs = true
  | [], _ => by
      unfold Val.peqL
      rfl
  | x :: rest, h => by
      unfold Val.peqL
      simp only [Bool.and_eq_true]
      exact ⟨peq_refl x (h x (by simp)), peqL_refl rest (fun y hy => h y (by simp [hy]))⟩
termination_by xs _ => (2 * sizeOf xs, 0)
decreasing_by
  · simp_wf
    exact Prod.Lex.left _ _ (by omega)
  · simp_wf
    exact Prod.Lex.left _ _ (by omega)

theorem peqLookup_refl : ∀ (x y : List (String × Val)),
    (keysOf x).Nodup → (∀ p ∈ x, goodTree p.2 = true) → (∀ q ∈ y, q ∈ x) →
    Val.peqLookup x y = true
  | x, [], _, _, _ => by
      unfold Val.peqLookup
      rfl
  | x, (k, w) :: rest, hnd, hvals, hsub => by
      unfold Val.peqLookup
      simp only [Bool.and_eq_true]
      constructor
      · have hget : dictGet x k = some w :=
          dictGet_of_mem_nodup x k w (hsub (k, w) (by simp)) hnd
        rw [hget]
        exact peq_refl w (hvals (k, w) (hsub (k, w) (by simp)))
      · exact peqLookup_refl x rest hnd hvals (fun q hq => hsub q (by simp [hq]))
termination_by x y _ _ _ => (2 * sizeOf x, 1 + sizeOf y)
decreasing_by
  · simp_wf
    have := sizeOf_dictGet _ _ _ hget
    exact Prod.Lex.left _ _ (by omega)
  · simp_wf
    exact Prod.Lex.right _ (by omega)

end

/-! ### List index-operation lemmas -/

theorem modify_zero_cons (f : Val → Val) (x : Val) (xs : List Val) :
    List.modify f 0 (x :: xs) = f x :: xs := by
  simp [List.modify]

theorem modify_succ_cons (f : Val → Val) (j : Nat) (x : Val) (xs : List Val) :
    List.modify f (j + 1) (x :: xs) = x :: List.modify f j xs := by
  simp [List.modify]

theorem modify_nil (f : Val → Val) (i : Nat) : List.modify f i [] = [] := by
  cases i <;> simp [List.modify]

theorem length_modify (f : Val → Val) (i : Nat) (l : List Val) :
    (List.modify f i l).length = l.length := by
  induction l generalizing i with
  | nil => simp [modify_nil]
  | cons x xs ih =>
      cases i with
      | zero => simp [modify_zero_cons]
      | succ j => simp [modify_succ_cons, ih]

theorem modify_modify_same (f g : Val → Val) (i : Nat) (l : List Val) :
    List.modify g i (List.modify f i l) = List.modify (fun x => g (f x)) i l := by
  induction l generalizing i with
  | nil => simp [modify_nil]
  | cons x xs ih =>
      cases i with
      | zero => simp [modify_zero_cons]
      | succ j => simp [modify_succ_cons, ih]

theorem modify_comm (f g : Val → Val) (i j : Nat) (l : List Val) (h : i ≠ j) :
    List.modify g j (List.modify f i l) = List.modify f i (List.modify g j l) := by
  induction l generalizing i j with
  | nil => simp [modify_nil]
  | cons x xs ih =>
      cases i with
      | zero =>
          cases j with
          | zero => exact absurd rfl h
          | succ j' => simp [modify_zero_cons, modify_succ_cons]
      | succ i' =>
          cases j with
          | zero => simp [modify_zero_cons, modify_succ_cons]
          | succ j' =>
              simp only [modify_succ_cons]
              rw [ih i' j' (by omega)]

theorem modify_id (i : Nat) (l : List Val) :
    List.modify (fun x => x) i l = l := by
  induction l generalizing i with
  | nil => simp [modify_nil]
  | cons x xs ih =>
      cases i with
      | zero => simp [modify_zero_cons]
      | succ j => simp [modify_succ_cons, ih]

theorem modify_append_left (f : Val → Val) (i : Nat) (xs ys : List Val)
    (h : i < xs.length) :
    List.modify f i (xs ++ ys) = List.modify f i xs ++ ys := by
  induction xs generalizing i with
  | nil => simp at h
  | cons x rest ih =>
      cases i with
      | zero => simp [modify_zero_cons]
      | succ j =>
          simp only [List.cons_append, modify_succ_cons]
          rw [ih j (by simpa using h)]

theorem padWith_of_lt (xs : List Val) (n : Nat) (fill : Val) (h : n < xs.length) :
    padWith xs n fill = xs := by
  unfold padWith
  have : n + 1 - xs.length = 0 := by omega
  simp [this]

theorem eraseIdx_concat_self (xs : List Val) (y : Val) :
    (xs ++ [y]).eraseIdx xs.length = xs := by
  induction xs with
  | nil => rfl
  | cons x rest ih => simpa [List.eraseIdx] using ih

theorem set_concat_self (xs : List Val) (y v : Val) :
    (xs ++ [y]).set xs.length v = xs ++ [v] := by
  induction xs with
  | nil => rfl
  | cons x rest ih => simpa [List.set] using ih

theorem padWith_self_length (xs : List Val) (fill : Val) :
    padWith xs xs.length fill = xs ++ [fill] := by
  unfold padWith
  have : xs.length + 1 - xs.length = 1 := by omega
  simp [this]

/-! ### Iterated per-key updates -/

theorem dictUpd_id (t : List (String × Val)) (k : String) :
    dictUpd t k (fun c => c) = t := by
  induction t with
  | nil => simp [dictUpd]
  | cons p rest ih =>
      obtain ⟨k', v'⟩ := p
      by_cases hk : k' = k <;> simp [dictUpd, hk, ih]

/-- Apply a per-key transformation at each key of `ks`, left to right. -/
def updKeysL (F : String → Val → Val) (t : List (String × Val)) (ks : List String) :
    List (String × Val) :=
  ks.foldl (fun acc k => dictUpd acc k (F k)) t

/-- Delete each key of `ks`, left to right. -/
def delKeys (t : List (String × Val)) (ks : List String) : List (String × Val) :=
  ks.foldl (fun acc k => dictDel acc k) t

theorem updKeysL_nil (F : String → Val → Val) (t : List (String × Val)) :
    updKeysL F t [] = t := rfl

theorem updKeysL_cons (F : String → Val → Val) (t : List (String × Val))
    (k : String) (ks : List String) :
    updKeysL F t (k :: ks) = updKeysL F (dictUpd t k (F k)) ks := rfl

theorem keysOf_updKeysL (F : String → Val → Val) (t : List (String × Val))
    (ks : List String) : keysOf (updKeysL F t ks) = keysOf t := by
  induction ks generalizing t with
  | nil => rfl
  | cons k ks ih => rw [updKeysL_cons, ih, keysOf_dictUpd]

theorem dictUpd_updKeysL_not_mem (F : String → Val → Val) (t : List (String × Val))
    (ks : List String) (k : String) (g : Val → Val) (h : k ∉ ks) :
    dictUpd (updKeysL F t ks) k g = updKeysL F (dictUpd t k g) ks := by
  induction ks generalizing t with
  | nil => rfl
  | cons k' ks ih =>
      rw [updKeysL_cons, updKeysL_cons]
      rw [ih _ (fun hm => h (by simp [hm]))]
      rw [dictUpd_comm _ _ _ _ _ (by intro he; exact h (by simp [he]))]

theorem updKeysL_concat (F : String → Val → Val) (t : List (String × Val))
    (ks : List String) (k : String) :
    updKeysL F t (ks ++ [k]) = dictUpd (updKeysL F t ks) k (F k) := by
  unfold updKeysL
  rw [List.foldl_append]
  rfl

theorem updKeysL_reverse (F : String → Val → Val) (t : List (String × Val))
    (ks : List String) (hnd : ks.Nodup) :
    updKeysL F t ks.reverse = updKeysL F t ks := by
  induction ks generalizing t with
  | nil => rfl
  | cons k ks ih =>
      have hk : k ∉ ks := by
        simp [List.nodup_cons] at hnd
        exact hnd.1
      rw [List.reverse_cons, updKeysL_concat, ih _ (by simp [List.nodup_cons] at hnd; exact hnd.2)]
      rw [dictUpd_updKeysL_not_mem F t ks k (F k) hk]
      rfl

theorem updKeysL_fuse (F G : String → Val → Val) (t : List (String × Val))
    (ks : List String) (hnd : ks.Nodup) :
    updKeysL G (updKeysL F t ks) ks = updKeysL (fun k c => G k (F k c)) t ks := by
  induction ks generalizing t with
  | nil => rfl
  | cons k ks ih =>
      simp only [List.nodup_cons] at hnd
      rw [updKeysL_cons F, updKeysL_cons G, updKeysL_cons]
      rw [dictUpd_updKeysL_not_mem F _ ks k (G k) hnd.1]
      rw [dictUpd_dictUpd_same]
      exact ih _ hnd.2

theorem dictDel_updKeysL_not_mem (F : String → Val → Val) (t : List (String × Val))
    (ks : List String) (r : String) (h : r ∉ ks) :
    dictDel (updKeysL F t ks) r = updKeysL F (dictDel t r) ks := by
  induction ks generalizing t with
  | nil => rfl
  | cons k ks ih =>
      rw [updKeysL_cons, updKeysL_cons]
      rw [ih _ (fun hm => h (by simp [hm]))]
      rw [dictUpd_dictDel_comm _ _ _ _ (by intro he; exact h (by simp [he]))]

theorem delKeys_updKeysL (F : String → Val → Val) (t : List (String × Val))
    (ks rs : List String) (h : ∀ r ∈ rs, r ∉ ks) :
    delKeys (updKeysL F t ks) rs = updKeysL F (delKeys t rs) ks := by
  induction rs generalizing t with
  | nil => rfl
  | cons r rs ih =>
      show delKeys (dictDel (updKeysL F t ks) r) rs = _
      rw [dictDel_updKeysL_not_mem F t ks r (h r (by simp))]
      exact ih _ (fun r' hr' => h r' (by simp [hr']))

theorem updKeysL_append_right (F : String → Val → Val) (t u : List (String × Val))
    (ks : List String) (h : ∀ k ∈ ks, k ∈ keysOf t) :
    updKeysL F (t ++ u) ks = updKeysL F t ks ++ u := by
  induction ks generalizing t with
  | nil => rfl
  | cons k ks ih =>
      rw [updKeysL_cons, updKeysL_cons]
      rw [dictUpd_append t u k (F k) (h k (by simp))]
      exact ih _ (fun k' hk' => by
        rw [keysOf_dictUpd]
        exact h k' (by simp [hk']))

theorem dictGet_updKeysL_not_mem' (F : String → Val → Val) (t : List (String × Val))
    (ks : List String) (k : String) (hk : k ∉ ks) :
    dictGet (updKeysL F t ks) k = dictGet t k := by
  induction ks generalizing t with
  | nil => rfl
  | cons k' ks ih =>
      rw [updKeysL_cons]
      rw [ih _ (fun hm => hk (by simp [hm]))]
      rw [dictGet_dictUpd_other _ _ _ _ (fun he => hk (by simp [he]))]

theorem dictGet_updKeysL_mem (F : String → Val → Val) (t : List (String × Val))
    (ks : List String) (k : String) (hnd : ks.Nodup) (hk : k ∈ ks) :
    dictGet (updKeysL F t ks) k = (dictGet t k).map (F k) := by
  induction ks generalizing t with
  | nil => simp at hk
  | cons k' ks ih =>
      simp only [List.nodup_cons] at hnd
      rw [updKeysL_cons]
      by_cases he : k = k'
      · subst he
        rw [dictGet_updKeysL_not_mem' F _ ks k hnd.1]
        rw [dictGet_dictUpd_self]
      · have : k ∈ ks := by
          rcases List.mem_cons.mp hk with h | h
          · exact absurd h he
          · exact h
        rw [ih _ hnd.2 this, dictGet_dictUpd_other _ _ _ _ he]

theorem keysOf_delKeys_mem (t : List (String × Val)) (rs : List String) (k : String)
    (hnd : (keysOf t).Nodup) :
    k ∈ keysOf (delKeys t rs) ↔ (k ∈ keysOf t ∧ k ∉ rs) := by
  induction rs generalizing t with
  | nil => simp [delKeys]
  | cons r rs ih =>
      show k ∈ keysOf (delKeys (dictDel t r) rs) ↔ _
      rw [ih _ (by rw [keysOf_dictDel]; exact hnd.erase r)]
      rw [keysOf_dictDel]
      rw [hnd.mem_erase_iff]
      constructor
      · rintro ⟨⟨h1, h2⟩, h3⟩
        exact ⟨h2, by simp [h1, h3]⟩
      · rintro ⟨h1, h2⟩
        simp only [List.mem_cons, not_or] at h2
        exact ⟨⟨h2.1, h1⟩, h2.2⟩

theorem dictGet_delKeys_not_mem (t : List (String × Val)) (rs : List String)
    (k : String) (hk : k ∉ rs) : dictGet (delKeys t rs) k = dictGet t k := by
  induction rs generalizing t with
  | nil => rfl
  | cons r rs ih =>
      show dictGet (delKeys (dictDel t r) rs) k = _
      rw [ih _ (fun hm => hk (by simp [hm]))]
      exact dictGet_dictDel_other t r k (fun he => hk (by simp [he]))

/-! ### Localizing one key's (or one index's) batch of patch operations -/

theorem delBlock_dict (k : String) (es : List RemovedS) :
    ∀ (t : List (String × Val)),
    (∀ e ∈ es, ∃ tl, e.segs = Seg.key k :: tl ∧ tl ≠ []) → k ∈ keysOf t →
    applyRemovedS (Val.dict t) es
      = Val.dict (dictUpd t k (fun c =>
          applyRemovedS c (es.map (fun e => ⟨e.segs.tail, e.value⟩)))) := by
  induction es with
  | nil =>
      intro t _ _
      simp only [List.map_nil, applyRemovedS, List.foldl_nil]
      rw [dictUpd_id]
  | cons e es ih =>
      intro t hsh hk
      obtain ⟨tl, htl, htlne⟩ := hsh e (by simp)
      obtain ⟨s₂, rest, rfl⟩ : ∃ s₂ rest, tl = s₂ :: rest := by
        cases tl with
        | nil => exact absurd rfl htlne
        | cons s₂ rest => exact ⟨s₂, rest, rfl⟩
      have hstep : delSegs (Val.dict t) e.segs
          = Val.dict (dictUpd t k (fun c => delSegs c (s₂ :: rest))) := by
        rw [htl]
        show (if dictHas t k = true then
                Val.dict (dictUpd t k fun c => delSegs c (s₂ :: rest))
              else Val.dict t) = _
        rw [if_pos (by rw [dictHas_iff]; exact hk)]
      have h1 : applyRemovedS (Val.dict t) (e :: es)
          = applyRemovedS (delSegs (Val.dict t) e.segs) es := rfl
      rw [h1, hstep,
          ih _ (fun e' he' => hsh e' (by simp [he'])) (by rw [keysOf_dictUpd]; exact hk),
          dictUpd_dictUpd_same]
      have h2 : ∀ c : Val,
          applyRemovedS c ((e :: es).map (fun e => (⟨e.segs.tail, e.value⟩ : RemovedS)))
            = applyRemovedS (delSegs c (s₂ :: rest))
                (es.map (fun e => (⟨e.segs.tail, e.value⟩ : RemovedS))) := by
        intro c
        simp only [List.map_cons]
        show applyRemovedS (delSegs c (⟨e.segs.tail, e.value⟩ : RemovedS).segs) _ = _
        simp only [htl, List.tail_cons]
      simp only [h2]

theorem setBlock_dict (k : String) (es : List AddedS) :
    ∀ (t : List (String × Val)),
    (∀ e ∈ es, ∃ tl, e.segs = Seg.key k :: tl) → k ∈ keysOf t →
    applyAddedS (Val.dict t) es
      = Val.dict (dictUpd t k (fun c =>
          applyAddedS c (es.map (fun e => ⟨e.segs.tail, e.value⟩)))) := by
  induction es with
  | nil =>
      intro t _ _
      simp only [List.map_nil, applyAddedS, List.foldl_nil]
      rw [dictUpd_id]
  | cons e es ih =>
      intro t hsh hk
      obtain ⟨tl, htl⟩ := hsh e (by simp)
      have hstep : setSegs (Val.dict t) e.segs e.value
          = Val.dict (dictUpd t k (fun c => setSegs c tl e.value)) := by
        rw [htl]
        cases tl with
        | nil =>
            show Val.dict (dictSet t k e.value)
              = Val.dict (dictUpd t k (fun c => setSegs c [] e.value))
            have hfun : (fun c : Val => setSegs c [] e.value) = fun _ => e.value := by
              funext c
              cases c <;> rfl
            rw [hfun, dictSet_eq_dictUpd t k e.value hk]
        | cons s₂ rest =>
            show (if dictHas t k = true then
                    Val.dict (dictUpd t k fun c => setSegs c (s₂ :: rest) e.value)
                  else Val.dict (t ++ [(k, setSegs (.dict []) (s₂ :: rest) e.value)])) = _
            rw [if_pos (by rw [dictHas_iff]; exact hk)]
      have h1 : applyAddedS (Val.dict t) (e :: es)
          = applyAddedS (setSegs (Val.dict t) e.segs e.value) es := rfl
      rw [h1, hstep,
          ih _ (fun e' he' => hsh e' (by simp [he'])) (by rw [keysOf_dictUpd]; exact hk),
          dictUpd_dictUpd_same]
      have h2 : ∀ c : Val,
          applyAddedS c ((e :: es).map (fun e => (⟨e.segs.tail, e.value⟩ : AddedS)))
            = applyAddedS (setSegs c tl e.value)
                (es.map (fun e => (⟨e.segs.tail, e.value⟩ : AddedS))) := by
        intro c
        simp only [List.map_cons]
        show applyAddedS
            (setSegs c (⟨e.segs.tail, e.value⟩ : AddedS).segs
              (⟨e.segs.tail, e.value⟩ : AddedS).value) _ = _
        simp only [htl, List.tail_cons]
      simp only [h2]

theorem chgBlock_dict (k : String) (es : List ChangedS) :
    ∀ (t : List (String × Val)),
    (∀ e ∈ es, ∃ tl, e.segs = Seg.key k :: tl) → k ∈ keysOf t →
    applyChangedS (Val.dict t) es
      = Val.dict (dictUpd t k (fun c =>
          applyChangedS c (es.map (fun e => ⟨e.segs.tail, e.old_value, e.new_value, e.synth⟩)))) := by
  induction es with
  | nil =>
      intro t _ _
      simp only [List.map_nil, applyChangedS, List.foldl_nil]
      rw [dictUpd_id]
  | cons e es ih =>
      intro t hsh hk
      obtain ⟨tl, htl⟩ := hsh e (by simp)
      have hstep : (if e.synth = true then Val.dict t else setSegs (Val.dict t) e.segs e.new_value)
          = Val.dict (dictUpd t k (fun c =>
              if e.synth = true then c else setSegs c tl e.new_value)) := by
        by_cases hsy : e.synth = true
        · rw [if_pos hsy]
          have hfun : (fun c : Val => if e.synth = true then c else setSegs c tl e.new_value)
              = fun c => c := by
            funext c
            rw [if_pos hsy]
          rw [hfun, dictUpd_id]
        · rw [if_neg hsy]
          have hfun : (fun c : Val => if e.synth = true then c else setSegs c tl e.new_value)
              = fun c => setSegs c tl e.new_value := by
            funext c
            rw [if_neg hsy]
          rw [hfun, htl]
          cases tl with
          | nil =>
              show Val.dict (dictSet t k e.new_value)
                = Val.dict (dictUpd t k (fun c => setSegs c [] e.new_value))
              have hfun2 : (fun c : Val => setSegs c [] e.new_value) = fun _ => e.new_value := by
                funext c
                cases c <;> rfl
              rw [hfun2, dictSet_eq_dictUpd t k e.new_value hk]
          | cons s₂ rest =>
              show (if dictHas t k = true then
                      Val.dict (dictUpd t k fun c => setSegs c (s₂ :: rest) e.new_value)
                    else Val.dict (t ++ [(k, setSegs (.dict []) (s₂ :: rest) e.new_value)])) = _
              rw [if_pos (by rw [dictHas_iff]; exact hk)]
      have h1 : applyChangedS (Val.dict t) (e :: es)
          = applyChangedS
              (if e.synth = true then Val.dict t else setSegs (Val.dict t) e.segs e.new_value)
              es := rfl
      rw [h1, hstep,
          ih _ (fun e' he' => hsh e' (by simp [he'])) (by rw [keysOf_dictUpd]; exact hk),
          dictUpd_dictUpd_same]
      have h2 : ∀ c : Val,
          applyChangedS c
              ((e :: es).map (fun e =>
                (⟨e.segs.tail, e.old_value, e.new_value, e.synth⟩ : ChangedS)))
            = applyChangedS (if e.synth = true then c else setSegs c tl e.new_value)
                (es.map (fun e =>
                  (⟨e.segs.tail, e.old_value, e.new_value, e.synth⟩ : ChangedS))) := by
        intro c
        simp only [List.map_cons]
        show applyChangedS
            (if (⟨e.segs.tail, e.old_value, e.new_value, e.synth⟩ : ChangedS).synth = true then c
             else setSegs c (⟨e.segs.tail, e.old_value, e.new_value, e.synth⟩ : ChangedS).segs
                    (⟨e.segs.tail, e.old_value, e.new_value, e.synth⟩ : ChangedS).new_value)
            _ = _
        simp only [htl, List.tail_cons]
      simp only [h2]

theorem modify_const_set (v : Val) (i : Nat) (l : List Val) :
    List.modify (fun _ => v) i l = l.set i v := by
  induction l generalizing i with
  | nil => simp [modify_nil]
  | cons x xs ih =>
      cases i with
      | zero => simp [modify_zero_cons]
      | succ j => simp [modify_succ_cons, List.set, ih]

theorem delBlock_list (i : Nat) (es : List RemovedS) :
    ∀ (xs : List Val),
    (∀ e ∈ es, ∃ tl, e.segs = Seg.idx i :: tl ∧ tl ≠ []) → i < xs.length →
    applyRemovedS (Val.list xs) es
      = Val.list (List.modify (fun c =>
          applyRemovedS c (es.map (fun e => ⟨e.segs.tail, e.value⟩))) i xs) := by
  induction es with
  | nil =>
      intro xs _ _
      simp only [List.map_nil, applyRemovedS, List.foldl_nil]
      rw [modify_id]
  | cons e es ih =>
      intro xs hsh hi
      obtain ⟨tl, htl, htlne⟩ := hsh e (by simp)
      obtain ⟨s₂, rest, rfl⟩ : ∃ s₂ rest, tl = s₂ :: rest := by
        cases tl with
        | nil => exact absurd rfl htlne
        | cons s₂ rest => exact ⟨s₂, rest, rfl⟩
      have hstep : delSegs (Val.list xs) e.segs
          = Val.list (List.modify (fun c => delSegs c (s₂ :: rest)) i xs) := by
        rw [htl]
        show (if i < xs.length then
                Val.list (List.modify (fun c => delSegs c (s₂ :: rest)) i xs)
              else Val.list xs) = _
        rw [if_pos hi]
      have h1 : applyRemovedS (Val.list xs) (e :: es)
          = applyRemovedS (delSegs (Val.list xs) e.segs) es := rfl
      rw [h1, hstep,
          ih _ (fun e' he' => hsh e' (by simp [he'])) (by rw [length_modify]; exact hi),
          modify_modify_same]
      have h2 : ∀ c : Val,
          applyRemovedS c ((e :: es).map (fun e => (⟨e.segs.tail, e.value⟩ : RemovedS)))
            = applyRemovedS (delSegs c (s₂ :: rest))
                (es.map (fun e => (⟨e.segs.tail, e.value⟩ : RemovedS))) := by
        intro c
        simp only [List.map_cons]
        show applyRemovedS (delSegs c (⟨e.segs.tail, e.value⟩ : RemovedS).segs) _ = _
        simp only [htl, List.tail_cons]
      simp only [h2]

theorem setBlock_list (i : Nat) (es : List AddedS) :
    ∀ (xs : List Val),
    (∀ e ∈ es, ∃ tl, e.segs = Seg.idx i :: tl) → i < xs.length →
    applyAddedS (Val.list xs) es
      = Val.list (List.modify (fun c =>
          applyAddedS c (es.map (fun e => ⟨e.segs.tail, e.value⟩))) i xs) := by
  induction es with
  | nil =>
      intro xs _ _
      simp only [List.map_nil, applyAddedS, List.foldl_nil]
      rw [modify_id]
  | cons e es ih =>
      intro xs hsh hi
      obtain ⟨tl, htl⟩ := hsh e (by simp)
      have hstep : setSegs (Val.list xs) e.segs e.value
          = Val.list (List.modify (fun c => setSegs c tl e.value) i xs) := by
        rw [htl]
        cases tl with
        | nil =>
            show Val.list ((padWith xs i .none).set i e.value) = _
            rw [padWith_of_lt xs i _ hi]
            have hfun : (fun c : Val => setSegs c [] e.value) = fun _ => e.value := by
              funext c
              cases c <;> rfl
            rw [hfun, modify_const_set]
        | cons s₂ rest =>
            show Val.list (List.modify (fun c => setSegs c (s₂ :: rest) e.value) i
                   (padWith xs i (.dict []))) = _
            rw [padWith_of_lt xs i _ hi]
      have h1 : applyAddedS (Val.list xs) (e :: es)
          = applyAddedS (setSegs (Val.list xs) e.segs e.value) es := rfl
      rw [h1, hstep,
          ih _ (fun e' he' => hsh e' (by simp [he'])) (by rw [length_modify]; exact hi),
          modify_modify_same]
      have h2 : ∀ c : Val,
          applyAddedS c ((e :: es).map (fun e => (⟨e.segs.tail, e.value⟩ : AddedS)))
            = applyAddedS (setSegs c tl e.value)
                (es.map (fun e => (⟨e.segs.tail, e.value⟩ : AddedS))) := by
        intro c
        simp only [List.map_cons]
        show applyAddedS
            (setSegs c (⟨e.segs.tail, e.value⟩ : AddedS).segs
              (⟨e.segs.tail, e.value⟩ : AddedS).value) _ = _
        simp only [htl, List.tail_cons]
      simp only [h2]

theorem chgBlock_list (i : Nat) (es : List ChangedS) :
    ∀ (xs : List Val),
    (∀ e ∈ es, ∃ tl, e.segs = Seg.idx i :: tl) → i < xs.length →
    applyChangedS (Val.list xs) es
      = Val.list (List.modify (fun c =>
          applyChangedS c (es.map (fun e =>
            ⟨e.segs.tail, e.old_value, e.new_value, e.synth⟩))) i xs) := by
  induction es with
  | nil =>
      intro xs _ _
      simp only [List.map_nil, applyChangedS, List.foldl_nil]
      rw [modify_id]
  | cons e es ih =>
      intro xs hsh hi
      obtain ⟨tl, htl⟩ := hsh e (by simp)
      have hstep : (if e.synth = true then Val.list xs
            else setSegs (Val.list xs) e.segs e.new_value)
          = Val.list (List.modify (fun c =>
              if e.synth = true then c else setSegs c tl e.new_value) i xs) := by
        by_cases hsy : e.synth = true
        · rw [if_pos hsy]
          have hfun : (fun c : Val => if e.synth = true then c else setSegs c tl e.new_value)
              = fun c => c := by
            funext c
            rw [if_pos hsy]
          rw [hfun, modify_id]
        · rw [if_neg hsy]
          have hfun : (fun c : Val => if e.synth = true then c else setSegs c tl e.new_value)
              = fun c => setSegs c tl e.new_value := by
            funext c
            rw [if_neg hsy]
          rw [hfun, htl]
          cases tl with
          | nil =>
              show Val.list ((padWith xs i .none).set i e.new_value) = _
              rw [padWith_of_lt xs i _ hi]
              have hfun2 : (fun c : Val => setSegs c [] e.new_value) = fun _ => e.new_value := by
                funext c
                cases c <;> rfl
              rw [hfun2, modify_const_set]
          | cons s₂ rest =>
              show Val.list (List.modify (fun c => setSegs c (s₂ :: rest) e.new_value) i
                     (padWith xs i (.dict []))) = _
              rw [padWith_of_lt xs i _ hi]
      have h1 : applyChangedS (Val.list xs) (e :: es)
          = applyChangedS
              (if e.synth = true then Val.list xs else setSegs (Val.list xs) e.segs e.new_value)
              es := rfl
      rw [h1, hstep,
          ih _ (fun e' he' => hsh e' (by simp [he'])) (by rw [length_modify]; exact hi),
          modify_modify_same]
      have h2 : ∀ c : Val,
          applyChangedS c
              ((e :: es).map (fun e =>
                (⟨e.segs.tail, e.old_value, e.new_value, e.synth⟩ : ChangedS)))
            = applyChangedS (if e.synth = true then c else setSegs c tl e.new_value)
                (es.map (fun e =>
                  (⟨e.segs.tail, e.old_value, e.new_value, e.synth⟩ : ChangedS))) := by
        intro c
        simp only [List.map_cons]
        show applyChangedS
            (if (⟨e.segs.tail, e.old_value, e.new_value, e.synth⟩ : ChangedS).synth = true then c
             else setSegs c (⟨e.segs.tail, e.old_value, e.new_value, e.synth⟩ : ChangedS).segs
                    (⟨e.segs.tail, e.old_value, e.new_value, e.synth⟩ : ChangedS).new_value)
            _ = _
        simp only [htl, List.tail_cons]
      simp only [h2]

/-! ### Phase/decomposition utilities for the round-trip proof -/

theorem applyRemovedS_append (s : Val) (es fs : List RemovedS) :
    applyRemovedS s (es ++ fs) = applyRemovedS (applyRemovedS s es) fs := by
  unfold applyRemovedS
  rw [List.foldl_append]

theorem applyAddedS_append (s : Val) (es fs : List AddedS) :
    applyAddedS s (es ++ fs) = applyAddedS (applyAddedS s es) fs := by
  unfold applyAddedS
  rw [List.foldl_append]

theorem applyChangedS_append (s : Val) (es fs : List ChangedS) :
    applyChangedS s (es ++ fs) = applyChangedS (applyChangedS s es) fs := by
  unfold applyChangedS
  rw [List.foldl_append]

theorem applyChangedS_synth (s : Val) (es : List ChangedS)
    (h : ∀ e ∈ es, e.synth = true) : applyChangedS s es = s := by
  induction es generalizing s with
  | nil => rfl
  | cons e es ih =>
      show applyChangedS (if e.synth = true then s else setSegs s e.segs e.new_value) es = s
      rw [if_pos (h e (by simp))]
      exact ih s (fun e' he' => h e' (by simp [he']))

theorem diffSharedS_nil (x y : List (String × Val)) :
    diffSharedS x y [] = DiffS.empty := by
  unfold diffSharedS
  rfl

theorem diffSharedS_cons_some (x y : List (String × Val)) (k : String)
    (ks : List String) (bv av : Val) (hx : dictGet x k = some bv)
    (hy : dictGet y k = some av) :
    diffSharedS x y (k :: ks)
      = (prefixD (Seg.key k) (diffVS bv av)).app (diffSharedS x y ks) := by
  conv_lhs => unfold diffSharedS
  cases hb : dictGet x k with
  | none =>
      rw [hx] at hb
      exact absurd hb (by simp)
  | some bv' =>
      cases ha : dictGet y k with
      | none =>
          rw [hy] at ha
          exact absurd ha (by simp)
      | some av' =>
          rw [hx] at hb
          rw [hy] at ha
          obtain rfl : bv = bv' := by injection hb
          obtain rfl : av = av' := by injection ha
          rfl

theorem diffSharedS_changed_ne_nil (x y : List (String × Val)) (ks : List String) :
    ∀ e ∈ (diffSharedS x y ks).changed, e.segs ≠ [] := by
  induction ks with
  | nil =>
      rw [diffSharedS_nil]
      intro e he
      simp [DiffS.empty] at he
  | cons k ks ih =>
      intro e he
      unfold diffSharedS at he
      cases hb : dictGet x k <;> cases ha : dictGet y k <;>
        rw [hb, ha] at he <;>
        simp only [DiffS.app, DiffS.empty, List.nil_append, prefixD, List.mem_append,
          List.mem_map] at he
      case some.some =>
        rcases he with ⟨e', _, rfl⟩ | he
        · simp
        · exact ih e he
      all_goals exact ih e he

theorem diffSharedS_removed_shape (x y : List (String × Val)) (ks : List String) :
    ∀ e ∈ (diffSharedS x y ks).removed, ∃ k ∈ ks, ∃ tl, e.segs = Seg.key k :: tl := by
  induction ks with
  | nil =>
      rw [diffSharedS_nil]
      intro e he
      simp [DiffS.empty] at he
  | cons k ks ih =>
      intro e he
      unfold diffSharedS at he
      cases hb : dictGet x k <;> cases ha : dictGet y k <;>
        rw [hb, ha] at he <;>
        simp only [DiffS.app, DiffS.empty, List.nil_append, prefixD, List.mem_append,
          List.mem_map] at he
      case some.some =>
        rcases he with ⟨e', _, rfl⟩ | he
        · exact ⟨k, by simp, e'.segs, rfl⟩
        · obtain ⟨k', hk', tl, htl⟩ := ih e he
          exact ⟨k', by simp [hk'], tl, htl⟩
      all_goals
        obtain ⟨k', hk', tl, htl⟩ := ih e he
      all_goals exact ⟨k', by simp [hk'], tl, htl⟩

/-! ### Key-set membership facts -/

theorem mem_sortStr (l : List String) (k : String) : k ∈ sortStr l ↔ k ∈ l := by
  unfold sortStr
  exact List.mem_mergeSort

theorem nodup_sortStr (l : List String) (h : l.Nodup) : (sortStr l).Nodup :=
  ((List.mergeSort_perm l _).nodup_iff).mpr h

theorem setKeys_eq (t : List (String × Val)) (hnd : (keysOf t).Nodup) :
    setKeys t = keysOf t := by
  unfold setKeys
  exact List.dedup_eq_self.mpr hnd

theorem mem_sharedKeysOf (bk ak : List String) (k : String) :
    k ∈ sharedKeysOf bk ak ↔ k ∈ bk ∧ k ∈ ak := by
  unfold sharedKeysOf
  rw [mem_sortStr]
  simp

theorem mem_addedKeysOf (bk ak : List String) (k : String) :
    k ∈ addedKeysOf bk ak ↔ k ∈ ak ∧ k ∉ bk := by
  unfold addedKeysOf
  rw [mem_sortStr]
  simp

theorem mem_removedKeysOf (bk ak : List String) (k : String) :
    k ∈ removedKeysOf bk ak ↔ k ∈ bk ∧ k ∉ ak := by
  unfold removedKeysOf
  rw [mem_sortStr]
  simp

theorem nodup_sharedKeysOf (bk ak : List String) (h : bk.Nodup) :
    (sharedKeysOf bk ak).Nodup :=
  nodup_sortStr _ (h.filter _)

theorem nodup_addedKeysOf (bk ak : List String) (h : ak.Nodup) :
    (addedKeysOf bk ak).Nodup :=
  nodup_sortStr _ (h.filter _)

theorem nodup_removedKeysOf (bk ak : List String) (h : bk.Nodup) :
    (removedKeysOf bk ak).Nodup :=
  nodup_sortStr _ (h.filter _)

/-! ### Iterated key insertion (the top-level `added` phase) -/

/-- Insert value `w k` at each key of `ks`, left to right. -/
def addKeys (w : String → Val) (t : List (String × Val)) (ks : List String) :
    List (String × Val) :=
  ks.foldl (fun acc k => dictSet acc k (w k)) t

theorem addKeys_cons (w : String → Val) (t : List (String × Val)) (k : String)
    (ks : List String) : addKeys w t (k :: ks) = addKeys w (dictSet t k (w k)) ks := rfl

theorem dictGet_addKeys_not_mem (w : String → Val) (t : List (String × Val))
    (ks : List String) (k : String) (hk : k ∉ ks) :
    dictGet (addKeys w t ks) k = dictGet t k := by
  induction ks generalizing t with
  | nil => rfl
  | cons k' ks ih =>
      rw [addKeys_cons, ih _ (fun hm => hk (by simp [hm]))]
      exact dictGet_dictSet_other _ _ _ _ (fun he => hk (by simp [he]))

theorem dictGet_addKeys_mem (w : String → Val) (t : List (String × Val))
    (ks : List String) (k : String) (hnd : ks.Nodup) (hk : k ∈ ks) :
    dictGet (addKeys w t ks) k = some (w k) := by
  induction ks generalizing t with
  | nil => simp at hk
  | cons k' ks ih =>
      simp only [List.nodup_cons] at hnd
      rw [addKeys_cons]
      by_cases he : k = k'
      · subst he
        rw [dictGet_addKeys_not_mem w _ ks k hnd.1]
        exact dictGet_dictSet_self t k (w k)
      · refine ih _ hnd.2 ?_
        rcases List.mem_cons.mp hk with h | h
        · exact absurd h he
        · exact h

theorem mem_keysOf_dictSet (t : List (String × Val)) (k k' : String) (v : Val) :
    k' ∈ keysOf (dictSet t k v) ↔ k' ∈ keysOf t ∨ k' = k := by
  by_cases hm : k ∈ keysOf t
  · rw [keysOf_dictSet_of_mem t k v hm]
    constructor
    · exact Or.inl
    · rintro (h | rfl)
      · exact h
      · exact hm
  · rw [dictSet_of_not_mem t k v hm]
    unfold keysOf
    simp [keysOf]

theorem mem_keysOf_addKeys (w : String → Val) (t : List (String × Val))
    (ks : List String) (k : String) :
    k ∈ keysOf (addKeys w t ks) ↔ k ∈ keysOf t ∨ k ∈ ks := by
  induction ks generalizing t with
  | nil => simp [addKeys]
  | cons k' ks ih =>
      rw [addKeys_cons, ih, mem_keysOf_dictSet]
      constructor
      · rintro ((h | rfl) | h)
        · exact Or.inl h
        · exact Or.inr (by simp)
        · exact Or.inr (by simp [h])
      · rintro (h | h)
        · exact Or.inl (Or.inl h)
        · rcases List.mem_cons.mp h with rfl | h
          · exact Or.inl (Or.inr rfl)
          · exact Or.inr h

/-! ### Shape facts about the segment-level diff entries -/

theorem diffListsAuxS_nil_left (as : List Val) (i : Nat) :
    diffListsAuxS [] as i = DiffS.empty := by
  unfold diffListsAuxS
  rfl

theorem diffListsAuxS_nil_right (b : Val) (bs : List Val) (i : Nat) :
    diffListsAuxS (b :: bs) [] i = DiffS.empty := by
  unfold diffListsAuxS
  rfl

theorem diffListsAuxS_cons (b a : Val) (bs as : List Val) (i : Nat) :
    diffListsAuxS (b :: bs) (a :: as) i
      = (prefixD (Seg.idx i) (diffVS b a)).app (diffListsAuxS bs as (i + 1)) := by
  conv_lhs => unfold diffListsAuxS

theorem diffSharedS_added_shape (x y : List (String × Val)) (ks : List String) :
    ∀ e ∈ (diffSharedS x y ks).added, ∃ k ∈ ks, ∃ tl, e.segs = Seg.key k :: tl := by
  induction ks with
  | nil =>
      rw [diffSharedS_nil]
      intro e he
      simp [DiffS.empty] at he
  | cons k ks ih =>
      intro e he
      unfold diffSharedS at he
      cases hb : dictGet x k <;> cases ha : dictGet y k <;>
        rw [hb, ha] at he <;>
        simp only [DiffS.app, DiffS.empty, List.nil_append, prefixD, List.mem_append,
          List.mem_map] at he
      case some.some =>
        rcases he with ⟨e', _, rfl⟩ | he
        · exact ⟨k, by simp, e'.segs, rfl⟩
        · obtain ⟨k', hk', tl, htl⟩ := ih e he
          exact ⟨k', by simp [hk'], tl, htl⟩
      all_goals
        obtain ⟨k', hk', tl, htl⟩ := ih e he
      all_goals exact ⟨k', by simp [hk'], tl, htl⟩

theorem diffSharedS_changed_shape (x y : List (String × Val)) (ks : List String) :
    ∀ e ∈ (diffSharedS x y ks).changed, ∃ k ∈ ks, ∃ tl, e.segs = Seg.key k :: tl := by
  induction ks with
  | nil =>
      rw [diffSharedS_nil]
      intro e he
      simp [DiffS.empty] at he
  | cons k ks ih =>
      intro e he
      unfold diffSharedS at he
      cases hb : dictGet x k <;> cases ha : dictGet y k <;>
        rw [hb, ha] at he <;>
        simp only [DiffS.app, DiffS.empty, List.nil_append, prefixD, List.mem_append,
          List.mem_map] at he
      case some.some =>
        rcases he with ⟨e', _, rfl⟩ | he
        · exact ⟨k, by simp, e'.segs, rfl⟩
        · obtain ⟨k', hk', tl, htl⟩ := ih e he
          exact ⟨k', by simp [hk'], tl, htl⟩
      all_goals
        obtain ⟨k', hk', tl, htl⟩ := ih e he
      all_goals exact ⟨k', by simp [hk'], tl, htl⟩

theorem removedTailS_segs (i : Nat) (vs : List Val) :
    ∀ e ∈ removedTailS i vs, ∃ j, e.segs = [Seg.idx j] := by
  induction vs generalizing i with
  | nil =>
      intro e he
      simp [removedTailS] at he
  | cons v vs ih =>
      intro e he
      unfold removedTailS at he
      rcases List.mem_cons.mp he with rfl | he
      · exact ⟨i, rfl⟩
      · exact ih (i + 1) e he

theorem addedTailS_segs (i : Nat) (vs : List Val) :
    ∀ e ∈ addedTailS i vs, ∃ j, e.segs = [Seg.idx j] := by
  induction vs generalizing i with
  | nil =>
      intro e he
      simp [addedTailS] at he
  | cons v vs ih =>
      intro e he
      unfold addedTailS at he
      rcases List.mem_cons.mp he with rfl | he
      · exact ⟨i, rfl⟩
      · exact ih (i + 1) e he

theorem diffListsAuxS_removed_ne_nil (bs : List Val) :
    ∀ (as : List Val) (i : Nat), ∀ e ∈ (diffListsAuxS bs as i).removed, e.segs ≠ [] := by
  induction bs with
  | nil =>
      intro as i e he
      rw [diffListsAuxS_nil_left] at he
      simp [DiffS.empty] at he
  | cons b bs ih =>
      intro as i e he
      cases as with
      | nil =>
          rw [diffListsAuxS_nil_right] at he
          simp [DiffS.empty] at he
      | cons a as =>
          rw [diffListsAuxS_cons] at he
          simp only [DiffS.app, prefixD, List.mem_append, List.mem_map] at he
          rcases he with ⟨e', _, rfl⟩ | he
          · simp
          · exact ih as (i + 1) e he

theorem diffListsAuxS_added_ne_nil (bs : List Val) :
    ∀ (as : List Val) (i : Nat), ∀ e ∈ (diffListsAuxS bs as i).added, e.segs ≠ [] := by
  induction bs with
  | nil =>
      intro as i e he
      rw [diffListsAuxS_nil_left] at he
      simp [DiffS.empty] at he
  | cons b bs ih =>
      intro as i e he
      cases as with
      | nil =>
          rw [diffListsAuxS_nil_right] at he
          simp [DiffS.empty] at he
      | cons a as =>
          rw [diffListsAuxS_cons] at he
          simp only [DiffS.app, prefixD, List.mem_append, List.mem_map] at he
          rcases he with ⟨e', _, rfl⟩ | he
          · simp
          · exact ih as (i + 1) e he

theorem diffVS_removed_ne_nil (b a : Val) :
    ∀ e ∈ (diffVS b a).removed, e.segs ≠ [] := by
  cases b <;> cases a <;> intro e he <;>
    first
      | (rename_i x y
         unfold diffVS diffDictsS at he
         simp only [DiffS.app, List.mem_append, List.mem_map] at he
         rcases he with ⟨k, hk, rfl⟩ | he
         · simp
         · obtain ⟨k', _, tl, htl⟩ := diffSharedS_removed_shape x y _ e he
           simp [htl])
      | (rename_i xs ys
         unfold diffVS diffListsS at he
         simp only [List.mem_append] at he
         rcases he with he | he
         · exact diffListsAuxS_removed_ne_nil xs ys 0 e he
         · obtain ⟨j, hj⟩ := removedTailS_segs _ _ e he
           simp [hj])
      | (unfold diffVS at he
         split at he <;> simp [DiffS.empty] at he)

theorem diffVS_added_ne_nil (b a : Val) :
    ∀ e ∈ (diffVS b a).added, e.segs ≠ [] := by
  cases b <;> cases a <;> intro e he <;>
    first
      | (rename_i x y
         unfold diffVS diffDictsS at he
         simp only [DiffS.app, List.mem_append, List.mem_map] at he
         rcases he with ⟨k, hk, rfl⟩ | he
         · simp
         · obtain ⟨k', _, tl, htl⟩ := diffSharedS_added_shape x y _ e he
           simp [htl])
      | (rename_i xs ys
         unfold diffVS diffListsS at he
         simp only [List.mem_append] at he
         rcases he with he | he
         · exact diffListsAuxS_added_ne_nil xs ys 0 e he
         · obtain ⟨j, hj⟩ := addedTailS_segs _ _ e he
           simp [hj])
      | (unfold diffVS at he
         split at he <;> simp [DiffS.empty] at he)

/-! ### The shared-key phases act keywise on a mapping -/

theorem map_tail_cons_rem (s : Seg) (es : List RemovedS) :
    (es.map (fun e => (⟨s :: e.segs, e.value⟩ : RemovedS))).map
      (fun e => (⟨e.segs.tail, e.value⟩ : RemovedS)) = es := by
  induction es with
  | nil => rfl
  | cons e es ih => simp [ih]

theorem map_tail_cons_add (s : Seg) (es : List AddedS) :
    (es.map (fun e => (⟨s :: e.segs, e.value⟩ : AddedS))).map
      (fun e => (⟨e.segs.tail, e.value⟩ : AddedS)) = es := by
  induction es with
  | nil => rfl
  | cons e es ih => simp [ih]

theorem map_tail_cons_chg (s : Seg) (es : List ChangedS) :
    (es.map (fun e => (⟨s :: e.segs, e.old_value, e.new_value, e.synth⟩ : ChangedS))).map
      (fun e => (⟨e.segs.tail, e.old_value, e.new_value, e.synth⟩ : ChangedS)) = es := by
  induction es with
  | nil => rfl
  | cons e es ih => simp [ih]

theorem sharedRem_dict (x y : List (String × Val)) (ks : List String) :
    ∀ (t : List (String × Val)),
    (∀ k ∈ ks, (dictGet x k).isSome ∧ (dictGet y k).isSome) →
    (∀ k ∈ ks, k ∈ keysOf t) →
    applyRemovedS (Val.dict t) (diffSharedS x y ks).removed.reverse
      = Val.dict (updKeysL (fun k c => applyRemovedS c
          (diffVS ((dictGet x k).getD Val.none)
            ((dictGet y k).getD Val.none)).removed.reverse) t ks.reverse) := by
  induction ks with
  | nil =>
      intro t _ _
      rw [diffSharedS_nil]
      rfl
  | cons k ks ih =>
      intro t hsome hmem
      obtain ⟨bv, hbv⟩ := Option.isSome_iff_exists.mp (hsome k (by simp)).1
      obtain ⟨av, hav⟩ := Option.isSome_iff_exists.mp (hsome k (by simp)).2
      rw [diffSharedS_cons_some x y k ks bv av hbv hav]
      show applyRemovedS (Val.dict t)
        ((diffVS bv av).removed.map (fun e => (⟨Seg.key k :: e.segs, e.value⟩ : RemovedS))
          ++ (diffSharedS x y ks).removed).reverse = _
      rw [List.reverse_append, applyRemovedS_append]
      rw [ih t (fun k' hk' => hsome k' (by simp [hk'])) (fun k' hk' => hmem k' (by simp [hk']))]
      rw [delBlock_dict k _ _
        (by
          intro e he
          rw [List.mem_reverse, List.mem_map] at he
          obtain ⟨e', he', rfl⟩ := he
          exact ⟨e'.segs, rfl, diffVS_removed_ne_nil bv av e' he'⟩)
        (by
          rw [keysOf_updKeysL]
          exact hmem k (by simp))]
      rw [← List.map_reverse, map_tail_cons_rem]
      rw [List.reverse_cons, updKeysL_concat]
      simp only [hbv, hav, Option.getD_some]

theorem sharedAdd_dict (x y : List (String × Val)) (ks : List String) :
    ∀ (t : List (String × Val)),
    (∀ k ∈ ks, (dictGet x k).isSome ∧ (dictGet y k).isSome) →
    (∀ k ∈ ks, k ∈ keysOf t) →
    applyAddedS (Val.dict t) (diffSharedS x y ks).added
      = Val.dict (updKeysL (fun k c => applyAddedS c
          (diffVS ((dictGet x k).getD Val.none)
            ((dictGet y k).getD Val.none)).added) t ks) := by
  induction ks with
  | nil =>
      intro t _ _
      rw [diffSharedS_nil]
      rfl
  | cons k ks ih =>
      intro t hsome hmem
      obtain ⟨bv, hbv⟩ := Option.isSome_iff_exists.mp (hsome k (by simp)).1
      obtain ⟨av, hav⟩ := Option.isSome_iff_exists.mp (hsome k (by simp)).2
      rw [diffSharedS_cons_some x y k ks bv av hbv hav]
      show applyAddedS (Val.dict t)
        ((diffVS bv av).added.map (fun e => (⟨Seg.key k :: e.segs, e.value⟩ : AddedS))
          ++ (diffSharedS x y ks).added) = _
      rw [applyAddedS_append]
      rw [setBlock_dict k _ _
        (by
          intro e he
          rw [List.mem_map] at he
          obtain ⟨e', he', rfl⟩ := he
          exact ⟨e'.segs, rfl⟩)
        (hmem k (by simp))]
      rw [map_tail_cons_add]
      rw [ih _ (fun k' hk' => hsome k' (by simp [hk']))
        (fun k' hk' => by
          rw [keysOf_dictUpd]
          exact hmem k' (by simp [hk']))]
      rw [updKeysL_cons]
      simp only [hbv, hav, Option.getD_some]

theorem sharedChg_dict (x y : List (String × Val)) (ks : List String) :
    ∀ (t : List (String × Val)),
    (∀ k ∈ ks, (dictGet x k).isSome ∧ (dictGet y k).isSome) →
    (∀ k ∈ ks, k ∈ keysOf t) →
    applyChangedS (Val.dict t) (diffSharedS x y ks).changed
      = Val.dict (updKeysL (fun k c => applyChangedS c
          (diffVS ((dictGet x k).getD Val.none)
            ((dictGet y k).getD Val.none)).changed) t ks) := by
  induction ks with
  | nil =>
      intro t _ _
      rw [diffSharedS_nil]
      rfl
  | cons k ks ih =>
      intro t hsome hmem
      obtain ⟨bv, hbv⟩ := Option.isSome_iff_exists.mp (hsome k (by simp)).1
      obtain ⟨av, hav⟩ := Option.isSome_iff_exists.mp (hsome k (by simp)).2
      rw [diffSharedS_cons_some x y k ks bv av hbv hav]
      show applyChangedS (Val.dict t)
        ((diffVS bv av).changed.map
          (fun e => (⟨Seg.key k :: e.segs, e.old_value, e.new_value, e.synth⟩ : ChangedS))
          ++ (diffSharedS x y ks).changed) = _
      rw [applyChangedS_append]
      rw [chgBlock_dict k _ _
        (by
          intro e he
          rw [List.mem_map] at he
          obtain ⟨e', he', rfl⟩ := he
          exact ⟨e'.segs, rfl⟩)
        (hmem k (by simp))]
      rw [map_tail_cons_chg]
      rw [ih _ (fun k' hk' => hsome k' (by simp [hk']))
        (fun k' hk' => by
          rw [keysOf_dictUpd]
          exact hmem k' (by simp [hk']))]
      rw [updKeysL_cons]
      simp only [hbv, hav, Option.getD_some]

/-! ### The top-level removed/added phases on a mapping -/

theorem topDel_dict (ks : List String) (w : String → Val) :
    ∀ (t : List (String × Val)),
    applyRemovedS (Val.dict t) (ks.map (fun k => (⟨[Seg.key k], w k⟩ : RemovedS)))
      = Val.dict (delKeys t ks) := by
  induction ks with
  | nil =>
      intro t
      rfl
  | cons k ks ih =>
      intro t
      show applyRemovedS (delSegs (Val.dict t) [Seg.key k])
        (ks.map (fun k => (⟨[Seg.key k], w k⟩ : RemovedS))) = _
      show applyRemovedS (Val.dict (dictDel t k))
        (ks.map (fun k => (⟨[Seg.key k], w k⟩ : RemovedS))) = _
      rw [ih]
      rfl

theorem topAdd_dict (ks : List String) (w : String → Val) :
    ∀ (t : List (String × Val)),
    applyAddedS (Val.dict t) (ks.map (fun k => (⟨[Seg.key k], w k⟩ : AddedS)))
      = Val.dict (addKeys w t ks) := by
  induction ks with
  | nil =>
      intro t
      rfl
  | cons k ks ih =>
      intro t
      show applyAddedS (setSegs (Val.dict t) [Seg.key k] (w k))
        (ks.map (fun k => (⟨[Seg.key k], w k⟩ : AddedS))) = _
      show applyAddedS (Val.dict (dictSet t k (w k)))
        (ks.map (fun k => (⟨[Seg.key k], w k⟩ : AddedS))) = _
      rw [ih]
      rfl

/-! ### Building `peq` witnesses for mappings -/

theorem peqLookup_of_forall (X y : List (String × Val))
    (h : ∀ p ∈ y, ∃ v, dictGet X p.1 = some v ∧ Val.peq v p.2 = true) :
    Val.peqLookup X y = true := by
  induction y with
  | nil =>
      unfold Val.peqLookup
      rfl
  | cons p rest ih =>
      obtain ⟨kq, wq⟩ := p
      obtain ⟨v, hv, hpeq⟩ := h (kq, wq) (by simp)
      unfold Val.peqLookup
      rw [Bool.and_eq_true]
      refine ⟨?_, ih (fun q hq => h q (by simp [hq]))⟩
      cases hg : dictGet X kq with
      | none =>
          rw [hv] at hg
          exact absurd hg (by simp)
      | some v' =>
          rw [hv] at hg
          obtain rfl : v = v' := by injection hg
          exact hpeq

theorem peqKV_of (X y : List (String × Val))
    (h1 : ∀ p ∈ X, p.1 ∈ keysOf y)
    (h2 : ∀ p ∈ y, ∃ v, dictGet X p.1 = some v ∧ Val.peq v p.2 = true) :
    Val.peqKV X y = true := by
  unfold Val.peqKV
  rw [Bool.and_eq_true]
  constructor
  · rw [List.all_eq_true]
    intro p hp
    rw [dictHas_iff]
    exact h1 p hp
  · exact peqLookup_of_forall X y h2

theorem peq_dict_dict (X y : List (String × Val)) :
    Val.peq (Val.dict X) (Val.dict y) = Val.peqKV X y := by
  unfold Val.peq
  rfl

theorem peq_list_list (xs ys : List Val) :
    Val.peq (Val.list xs) (Val.list ys) = Val.peqL xs ys := by
  unfold Val.peq
  rfl

/-! ### The mapping case of the round-trip -/

theorem peqKV_roundtrip_aux (x y : List (String × Val))
    (hgx : goodTree (Val.dict x) = true) (hgy : goodTree (Val.dict y) = true)
    (H : ∀ (kq : String) (bv wq : Val), dictGet x kq = some bv →
      dictGet y kq = some wq → Val.peq (applyDiffS bv (diffVS bv wq)) wq = true) :
    Val.peq (applyDiffS (Val.dict x) (diffDictsS x y)) (Val.dict y) = true := by
  obtain ⟨hgkx, hndx, hvalx⟩ := goodTree_dict_parts x hgx
  obtain ⟨hgky, hndy, hvaly⟩ := goodTree_dict_parts y hgy
  have hsx : setKeys x = keysOf x := setKeys_eq x hndx
  have hsy : setKeys y = keysOf y := setKeys_eq y hndy
  have hmem_sh : ∀ k, k ∈ sharedKeysOf (keysOf x) (keysOf y)
      ↔ (k ∈ keysOf x ∧ k ∈ keysOf y) := fun k => mem_sharedKeysOf _ _ k
  have hmem_add : ∀ k, k ∈ addedKeysOf (keysOf x) (keysOf y)
      ↔ (k ∈ keysOf y ∧ k ∉ keysOf x) := fun k => mem_addedKeysOf _ _ k
  have hmem_rem : ∀ k, k ∈ removedKeysOf (keysOf x) (keysOf y)
      ↔ (k ∈ keysOf x ∧ k ∉ keysOf y) := fun k => mem_removedKeysOf _ _ k
  have hnd_sh : (sharedKeysOf (keysOf x) (keysOf y)).Nodup :=
    nodup_sharedKeysOf _ _ hndx
  have hnd_add : (addedKeysOf (keysOf x) (keysOf y)).Nodup :=
    nodup_addedKeysOf _ _ hndy
  have hsome : ∀ k ∈ sharedKeysOf (keysOf x) (keysOf y),
      (dictGet x k).isSome = true ∧ (dictGet y k).isSome = true := by
    intro k hk
    rw [(hmem_sh k)] at hk
    exact ⟨(dictGet_isSome_iff x k).mpr hk.1, (dictGet_isSome_iff y k).mpr hk.2⟩
  have hmemx : ∀ k ∈ sharedKeysOf (keysOf x) (keysOf y), k ∈ keysOf x := by
    intro k hk
    exact ((hmem_sh k).mp hk).1
  have hd : diffDictsS x y = DiffS.app
      ⟨[],
       (addedKeysOf (setKeys x) (setKeys y)).map
         (fun k => ⟨[Seg.key k], (dictGet y k).getD .none⟩),
       (removedKeysOf (setKeys x) (setKeys y)).map
         (fun k => ⟨[Seg.key k], (dictGet x k).getD .none⟩)⟩
      (diffSharedS x y (sharedKeysOf (setKeys x) (setKeys y))) := by
    unfold diffDictsS
    rfl
  rw [hd, hsx, hsy]
  unfold applyDiffS
  simp only [DiffS.app, List.nil_append]
  rw [List.reverse_append, applyRemovedS_append, applyAddedS_append]
  rw [sharedRem_dict x y _ x hsome hmemx]
  rw [updKeysL_reverse _ _ _ hnd_sh]
  rw [← List.map_reverse]
  rw [topDel_dict]
  rw [topAdd_dict]
  have hmem3 : ∀ k ∈ sharedKeysOf (keysOf x) (keysOf y),
      k ∈ keysOf (addKeys (fun k => (dictGet y k).getD .none)
        (delKeys (updKeysL (fun k c => applyRemovedS c
          (diffVS ((dictGet x k).getD Val.none)
            ((dictGet y k).getD Val.none)).removed.reverse) x
          (sharedKeysOf (keysOf x) (keysOf y)))
          (removedKeysOf (keysOf x) (keysOf y)).reverse)
        (addedKeysOf (keysOf x) (keysOf y))) := by
    intro k hk
    obtain ⟨hk1, hk2⟩ := (hmem_sh k).mp hk
    rw [mem_keysOf_addKeys]
    left
    rw [keysOf_delKeys_mem _ _ _ (by rw [keysOf_updKeysL]; exact hndx)]
    rw [keysOf_updKeysL]
    refine ⟨hk1, ?_⟩
    intro hmem
    rw [List.mem_reverse, hmem_rem k] at hmem
    exact hmem.2 hk2
  rw [sharedAdd_dict x y _ _ hsome hmem3]
  have hmem4 : ∀ k ∈ sharedKeysOf (keysOf x) (keysOf y),
      k ∈ keysOf (updKeysL (fun k c => applyAddedS c
        (diffVS ((dictGet x k).getD Val.none)
          ((dictGet y k).getD Val.none)).added)
        (addKeys (fun k => (dictGet y k).getD .none)
          (delKeys (updKeysL (fun k c => applyRemovedS c
            (diffVS ((dictGet x k).getD Val.none)
              ((dictGet y k).getD Val.none)).removed.reverse) x
            (sharedKeysOf (keysOf x) (keysOf y)))
            (removedKeysOf (keysOf x) (keysOf y)).reverse)
          (addedKeysOf (keysOf x) (keysOf y)))
        (sharedKeysOf (keysOf x) (keysOf y))) := by
    intro k hk
    rw [keysOf_updKeysL]
    exact hmem3 k hk
  rw [sharedChg_dict x y _ _ hsome hmem4]
  rw [peq_dict_dict]
  apply peqKV_of
  · intro p hp
    have hpk : p.1 ∈ keysOf (updKeysL (fun k c => applyChangedS c
        (diffVS ((dictGet x k).getD Val.none)
          ((dictGet y k).getD Val.none)).changed) _
        (sharedKeysOf (keysOf x) (keysOf y))) := List.mem_map_of_mem _ hp
    rw [keysOf_updKeysL, keysOf_updKeysL, mem_keysOf_addKeys] at hpk
    rcases hpk with hpk | hpk
    · rw [keysOf_delKeys_mem _ _ _ (by rw [keysOf_updKeysL]; exact hndx),
        keysOf_updKeysL] at hpk
      obtain ⟨hp1, hp2⟩ := hpk
      by_contra hny
      exact hp2 (by
        rw [List.mem_reverse, hmem_rem]
        exact ⟨hp1, hny⟩)
    · exact ((hmem_add _).mp hpk).1
  · intro p hp
    obtain ⟨kq, wq⟩ := p
    have hwq : dictGet y kq = some wq := dictGet_of_mem_nodup y kq wq hp hndy
    have hky : kq ∈ keysOf y := mem_keysOf_of_dictGet y kq wq hwq
    by_cases hx : kq ∈ keysOf x
    · have hsh : kq ∈ sharedKeysOf (keysOf x) (keysOf y) := (hmem_sh kq).mpr ⟨hx, hky⟩
      obtain ⟨bv, hbv⟩ := Option.isSome_iff_exists.mp ((dictGet_isSome_iff x kq).mpr hx)
      refine ⟨applyChangedS (applyAddedS (applyRemovedS bv
        (diffVS bv wq).removed.reverse) (diffVS bv wq).added) (diffVS bv wq).changed,
        ?_, ?_⟩
      · rw [dictGet_updKeysL_mem _ _ _ _ hnd_sh hsh]
        rw [dictGet_updKeysL_mem _ _ _ _ hnd_sh hsh]
        rw [dictGet_addKeys_not_mem _ _ _ _ (by
          intro hmem
          exact ((hmem_add kq).mp hmem).2 hx)]
        rw [dictGet_delKeys_not_mem _ _ _ (by
          intro hmem
          rw [List.mem_reverse, hmem_rem] at hmem
          exact hmem.2 hky)]
        rw [dictGet_updKeysL_mem _ _ _ _ hnd_sh hsh]
        rw [hbv]
        simp only [Option.map_some, Option.some.injEq, hwq, Option.getD_some]
        rfl
      · show Val.peq (applyDiffS bv (diffVS bv wq)) wq = true
        exact H kq bv wq hbv hwq
    · have hadd : kq ∈ addedKeysOf (keysOf x) (keysOf y) := (hmem_add kq).mpr ⟨hky, hx⟩
      have hnsh : kq ∉ sharedKeysOf (keysOf x) (keysOf y) := by
        intro hmem
        exact hx ((hmem_sh kq).mp hmem).1
      refine ⟨wq, ?_, ?_⟩
      · rw [dictGet_updKeysL_not_mem' _ _ _ _ hnsh]
        rw [dictGet_updKeysL_not_mem' _ _ _ _ hnsh]
        rw [dictGet_addKeys_mem _ _ _ _ hnd_add hadd]
        rw [hwq]
        rfl
      · exact peq_refl wq (hvaly (kq, wq) hp)

/-! ### The list phases act positionally -/

theorem modify_append_cons (f : Val → Val) (c : Val) :
    ∀ (xs l : List Val), List.modify f xs.length (xs ++ c :: l) = xs ++ f c :: l := by
  intro xs
  induction xs with
  | nil =>
      intro l
      simp [modify_zero_cons]
  | cons x rest ih =>
      intro l
      show List.modify f (rest.length + 1) (x :: (rest ++ c :: l)) = _
      rw [modify_succ_cons, ih]
      rfl

/-- Per-position removal phase of the nested diffs. -/
def mapDiffRem : List Val → List Val → List Val → List Val
  | b :: bs, a :: as, c :: cs =>
      applyRemovedS c (diffVS b a).removed.reverse :: mapDiffRem bs as cs
  | _, _, cs => cs

/-- Per-position addition phase of the nested diffs. -/
def mapDiffAdd : List Val → List Val → List Val → List Val
  | b :: bs, a :: as, c :: cs =>
      applyAddedS c (diffVS b a).added :: mapDiffAdd bs as cs
  | _, _, cs => cs

/-- Per-position changed phase of the nested diffs. -/
def mapDiffChg : List Val → List Val → List Val → List Val
  | b :: bs, a :: as, c :: cs =>
      applyChangedS c (diffVS b a).changed :: mapDiffChg bs as cs
  | _, _, cs => cs

/-- Per-position full nested patch. -/
def mapDiffRT : List Val → List Val → List Val → List Val
  | b :: bs, a :: as, c :: cs => applyDiffS c (diffVS b a) :: mapDiffRT bs as cs
  | _, _, cs => cs

theorem length_mapDiffRem : ∀ (bs as cs : List Val),
    (mapDiffRem bs as cs).length = cs.length := by
  intro bs
  induction bs with
  | nil => intro as cs; rfl
  | cons b bs ih =>
      intro as cs
      cases as with
      | nil => rfl
      | cons a as =>
          cases cs with
          | nil => rfl
          | cons c cs =>
              show (applyRemovedS c (diffVS b a).removed.reverse :: mapDiffRem bs as cs).length = _
              simp [ih]

theorem length_mapDiffAdd : ∀ (bs as cs : List Val),
    (mapDiffAdd bs as cs).length = cs.length := by
  intro bs
  induction bs with
  | nil => intro as cs; rfl
  | cons b bs ih =>
      intro as cs
      cases as with
      | nil => rfl
      | cons a as =>
          cases cs with
          | nil => rfl
          | cons c cs =>
              show (applyAddedS c (diffVS b a).added :: mapDiffAdd bs as cs).length = _
              simp [ih]

theorem auxRem_list : ∀ (bs : List Val) (as pre t : List Val),
    min bs.length as.length ≤ t.length →
    applyRemovedS (Val.list (pre ++ t)) (diffListsAuxS bs as pre.length).removed.reverse
      = Val.list (pre ++ mapDiffRem bs as t) := by
  intro bs
  induction bs with
  | nil =>
      intro as pre t _
      rw [diffListsAuxS_nil_left]
      rfl
  | cons b bs ih =>
      intro as pre t hmin
      cases as with
      | nil =>
          rw [diffListsAuxS_nil_right]
          rfl
      | cons a as =>
          obtain ⟨c, cs, rfl⟩ : ∃ c cs, t = c :: cs := by
            cases t with
            | nil =>
                simp only [List.length_cons, List.length_nil] at hmin
                omega
            | cons c cs => exact ⟨c, cs, rfl⟩
          rw [diffListsAuxS_cons]
          show applyRemovedS (Val.list (pre ++ c :: cs))
            (((diffVS b a).removed.map
                (fun e => (⟨Seg.idx pre.length :: e.segs, e.value⟩ : RemovedS))
              ++ (diffListsAuxS bs as (pre.length + 1)).removed).reverse) = _
          rw [List.reverse_append, applyRemovedS_append]
          have hstep1 : applyRemovedS (Val.list (pre ++ c :: cs))
              (diffListsAuxS bs as (pre.length + 1)).removed.reverse
              = Val.list ((pre ++ [c]) ++ mapDiffRem bs as cs) := by
            have := ih as (pre ++ [c]) cs (by
              simp only [List.length_cons] at hmin
              omega)
            rw [show (pre ++ [c]).length = pre.length + 1 by simp] at this
            rw [← this]
            simp
          rw [hstep1]
          rw [delBlock_list pre.length _ _
            (by
              intro e he
              rw [List.mem_reverse, List.mem_map] at he
              obtain ⟨e', he', rfl⟩ := he
              exact ⟨e'.segs, rfl, diffVS_removed_ne_nil b a e' he'⟩)
            (by simp)]
          rw [← List.map_reverse, map_tail_cons_rem]
          rw [show (pre ++ [c]) ++ mapDiffRem bs as cs = pre ++ c :: mapDiffRem bs as cs
            by simp]
          rw [modify_append_cons]
          rfl

theorem auxAdd_list : ∀ (bs : List Val) (as pre t : List Val),
    min bs.length as.length ≤ t.length →
    applyAddedS (Val.list (pre ++ t)) (diffListsAuxS bs as pre.length).added
      = Val.list (pre ++ mapDiffAdd bs as t) := by
  intro bs
  induction bs with
  | nil =>
      intro as pre t _
      rw [diffListsAuxS_nil_left]
      rfl
  | cons b bs ih =>
      intro as pre t hmin
      cases as with
      | nil =>
          rw [diffListsAuxS_nil_right]
          rfl
      | cons a as =>
          obtain ⟨c, cs, rfl⟩ : ∃ c cs, t = c :: cs := by
            cases t with
            | nil =>
                simp only [List.length_cons, List.length_nil] at hmin
                omega
            | cons c cs => exact ⟨c, cs, rfl⟩
          rw [diffListsAuxS_cons]
          show applyAddedS (Val.list (pre ++ c :: cs))
            ((diffVS b a).added.map
                (fun e => (⟨Seg.idx pre.length :: e.segs, e.value⟩ : AddedS))
              ++ (diffListsAuxS bs as (pre.length + 1)).added) = _
          rw [applyAddedS_append]
          rw [setBlock_list pre.length _ _
            (by
              intro e he
              rw [List.mem_map] at he
              obtain ⟨e', he', rfl⟩ := he
              exact ⟨e'.segs, rfl⟩)
            (by simp)]
          rw [map_tail_cons_add, modify_append_cons]
          have := ih as (pre ++ [applyAddedS c (diffVS b a).added]) cs (by
            simp only [List.length_cons] at hmin
            omega)
          rw [show (pre ++ [applyAddedS c (diffVS b a).added]).length = pre.length + 1
            by simp] at this
          rw [show pre ++ applyAddedS c (diffVS b a).added :: cs
              = (pre ++ [applyAddedS c (diffVS b a).added]) ++ cs by simp]
          rw [this]
          simp only [List.append_assoc, List.singleton_append]
          rfl

theorem auxChg_list : ∀ (bs : List Val) (as pre t : List Val),
    min bs.length as.length ≤ t.length →
    applyChangedS (Val.list (pre ++ t)) (diffListsAuxS bs as pre.length).changed
      = Val.list (pre ++ mapDiffChg bs as t) := by
  intro bs
  induction bs with
  | nil =>
      intro as pre t _
      rw [diffListsAuxS_nil_left]
      rfl
  | cons b bs ih =>
      intro as pre t hmin
      cases as with
      | nil =>
          rw [diffListsAuxS_nil_right]
          rfl
      | cons a as =>
          obtain ⟨c, cs, rfl⟩ : ∃ c cs, t = c :: cs := by
            cases t with
            | nil =>
                simp only [List.length_cons, List.length_nil] at hmin
                omega
            | cons c cs => exact ⟨c, cs, rfl⟩
          rw [diffListsAuxS_cons]
          show applyChangedS (Val.list (pre ++ c :: cs))
            ((diffVS b a).changed.map
                (fun e =>
                  (⟨Seg.idx pre.length :: e.segs, e.old_value, e.new_value, e.synth⟩ : ChangedS))
              ++ (diffListsAuxS bs as (pre.length + 1)).changed) = _
          rw [applyChangedS_append]
          rw [chgBlock_list pre.length _ _
            (by
              intro e he
              rw [List.mem_map] at he
              obtain ⟨e', he', rfl⟩ := he
              exact ⟨e'.segs, rfl⟩)
            (by simp)]
          rw [map_tail_cons_chg, modify_append_cons]
          have := ih as (pre ++ [applyChangedS c (diffVS b a).changed]) cs (by
            simp only [List.length_cons] at hmin
            omega)
          rw [show (pre ++ [applyChangedS c (diffVS b a).changed]).length = pre.length + 1
            by simp] at this
          rw [show pre ++ applyChangedS c (diffVS b a).changed :: cs
              = (pre ++ [applyChangedS c (diffVS b a).changed]) ++ cs by simp]
          rw [this]
          simp only [List.append_assoc, List.singleton_append]
          rfl

theorem tailPop_list : ∀ (extra xs : List Val),
    applyRemovedS (Val.list (xs ++ extra)) (removedTailS xs.length extra).reverse
      = Val.list xs := by
  intro extra
  induction extra with
  | nil =>
      intro xs
      show applyRemovedS (Val.list (xs ++ [])) [].reverse = _
      simp [applyRemovedS]
  | cons v extra ih =>
      intro xs
      show applyRemovedS (Val.list (xs ++ v :: extra))
        ((⟨[Seg.idx xs.length], v⟩ :: removedTailS (xs.length + 1) extra) :
          List RemovedS).reverse = _
      rw [List.reverse_cons, applyRemovedS_append]
      have h1 : applyRemovedS (Val.list (xs ++ v :: extra))
          (removedTailS (xs.length + 1) extra).reverse = Val.list (xs ++ [v]) := by
        have := ih (xs ++ [v])
        rw [show (xs ++ [v]).length = xs.length + 1 by simp] at this
        rw [← this]
        simp
      rw [h1]
      show delSegs (Val.list (xs ++ [v])) [Seg.idx xs.length] = _
      show (if xs.length < (xs ++ [v]).length
            then Val.list ((xs ++ [v]).eraseIdx xs.length) else Val.list (xs ++ [v])) = _
      rw [if_pos (by simp)]
      rw [eraseIdx_concat_self]

theorem tailAppend_list : ∀ (extra t : List Val),
    applyAddedS (Val.list t) (addedTailS t.length extra) = Val.list (t ++ extra) := by
  intro extra
  induction extra with
  | nil =>
      intro t
      show Val.list t = _
      simp
  | cons v extra ih =>
      intro t
      show applyAddedS (setSegs (Val.list t) [Seg.idx t.length] v)
        (addedTailS (t.length + 1) extra) = _
      show applyAddedS (Val.list ((padWith t t.length Val.none).set t.length v))
        (addedTailS (t.length + 1) extra) = _
      rw [padWith_self_length, set_concat_self]
      have := ih (t ++ [v])
      rw [show (t ++ [v]).length = t.length + 1 by simp] at this
      rw [this]
      simp

theorem mapDiffChg_append : ∀ (bs as cs rest : List Val),
    min bs.length as.length ≤ cs.length →
    mapDiffChg bs as (cs ++ rest) = mapDiffChg bs as cs ++ rest := by
  intro bs
  induction bs with
  | nil => intro as cs rest _; rfl
  | cons b bs ih =>
      intro as cs rest hmin
      cases as with
      | nil => rfl
      | cons a as =>
          cases cs with
          | nil =>
              simp only [List.length_cons, List.length_nil] at hmin
              omega
          | cons c cs =>
              show applyChangedS c (diffVS b a).changed :: mapDiffChg bs as (cs ++ rest) = _
              rw [ih as cs rest (by simp only [List.length_cons] at hmin; omega)]
              rfl

theorem mapDiff_fuse : ∀ (bs as cs : List Val),
    mapDiffChg bs as (mapDiffAdd bs as (mapDiffRem bs as cs)) = mapDiffRT bs as cs := by
  intro bs
  induction bs with
  | nil => intro as cs; rfl
  | cons b bs ih =>
      intro as cs
      cases as with
      | nil => rfl
      | cons a as =>
          cases cs with
          | nil => rfl
          | cons c cs =>
              show applyChangedS (applyAddedS (applyRemovedS c (diffVS b a).removed.reverse)
                  (diffVS b a).added) (diffVS b a).changed :: mapDiffChg bs as
                    (mapDiffAdd bs as (mapDiffRem bs as cs))
                = applyDiffS c (diffVS b a) :: mapDiffRT bs as cs
              rw [ih]
              rfl

theorem peqL_cons (x y : Val) (xs ys : List Val) :
    Val.peqL (x :: xs) (y :: ys) = (Val.peq x y && Val.peqL xs ys) := by
  conv_lhs => unfold Val.peqL

theorem peqL_nil : Val.peqL [] [] = true := by
  unfold Val.peqL
  rfl

theorem peqL_mapDiffRT : ∀ (bs as : List Val),
    (∀ a ∈ as, goodTree a = true) →
    (∀ b ∈ bs, ∀ a ∈ as, Val.peq (applyDiffS b (diffVS b a)) a = true) →
    Val.peqL (mapDiffRT bs as (bs.take (min bs.length as.length))
      ++ as.drop (min bs.length as.length)) as = true := by
  intro bs
  induction bs with
  | nil =>
      intro as hg _
      simp only [List.length_nil, Nat.zero_min, List.take_nil, List.drop_zero]
      show Val.peqL as as = true
      exact peqL_refl as hg
  | cons b bs ih =>
      intro as hg H
      cases as with
      | nil =>
          simp only [List.length_nil, Nat.min_zero, List.take_zero, List.drop_nil,
            List.append_nil]
          exact peqL_nil
      | cons a as =>
          have hm : min (b :: bs).length (a :: as).length = min bs.length as.length + 1 := by
            simp only [List.length_cons]
            omega
          rw [hm, List.take_succ_cons, List.drop_succ_cons]
          show Val.peqL (applyDiffS b (diffVS b a)
            :: (mapDiffRT bs as (bs.take (min bs.length as.length))
                ++ as.drop (min bs.length as.length))) (a :: as) = true
          rw [peqL_cons, Bool.and_eq_true]
          exact ⟨H b (by simp) a (by simp),
            ih as (fun a' ha' => hg a' (by simp [ha']))
              (fun b' hb' a' ha' => H b' (by simp [hb']) a' (by simp [ha']))⟩

/-! ### The list case of the round-trip -/

theorem peqL_roundtrip_aux (xs ys : List Val)
    (hgx : goodTree (Val.list xs) = true) (hgy : goodTree (Val.list ys) = true)
    (H : ∀ b ∈ xs, ∀ a ∈ ys, Val.peq (applyDiffS b (diffVS b a)) a = true) :
    Val.peq (applyDiffS (Val.list xs) (diffListsS xs ys)) (Val.list ys) = true := by
  have hgys : ∀ a ∈ ys, goodTree a = true :=
    (goodTreeL_iff ys).mp (by simpa [goodTree] using hgy)
  have hmle : min xs.length ys.length ≤ xs.length := Nat.min_le_left _ _
  have htm : (xs.take (min xs.length ys.length)).length = min xs.length ys.length := by
    simp [List.length_take]
  have hL : diffListsS xs ys =
      ⟨(diffListsAuxS xs ys 0).changed ++
         (if xs.length ≠ ys.length
          then [⟨[], .int xs.length, .int ys.length, true⟩] else []),
       (diffListsAuxS xs ys 0).added ++
         addedTailS (min xs.length ys.length)
           (ys.drop (min xs.length ys.length)),
       (diffListsAuxS xs ys 0).removed ++
         removedTailS (min xs.length ys.length)
           (xs.drop (min xs.length ys.length))⟩ := by
    unfold diffListsS
    rfl
  rw [hL]
  unfold applyDiffS
  simp only
  rw [List.reverse_append, applyRemovedS_append, applyAddedS_append, applyChangedS_append]
  have h1 : applyRemovedS (Val.list xs)
      (removedTailS (min xs.length ys.length)
        (xs.drop (min xs.length ys.length))).reverse
      = Val.list (xs.take (min xs.length ys.length)) := by
    have := tailPop_list (xs.drop (min xs.length ys.length))
      (xs.take (min xs.length ys.length))
    rw [htm, List.take_append_drop] at this
    exact this
  rw [h1]
  have h2 : applyRemovedS (Val.list (xs.take (min xs.length ys.length)))
      (diffListsAuxS xs ys 0).removed.reverse
      = Val.list (mapDiffRem xs ys (xs.take (min xs.length ys.length))) := by
    have := auxRem_list xs ys [] (xs.take (min xs.length ys.length))
      (by rw [htm])
    simpa using this
  rw [h2]
  have h3 : applyAddedS (Val.list (mapDiffRem xs ys (xs.take (min xs.length ys.length))))
      (diffListsAuxS xs ys 0).added
      = Val.list (mapDiffAdd xs ys
          (mapDiffRem xs ys (xs.take (min xs.length ys.length)))) := by
    have := auxAdd_list xs ys [] (mapDiffRem xs ys (xs.take (min xs.length ys.length)))
      (by rw [length_mapDiffRem, htm])
    simpa using this
  rw [h3]
  have hlen2 : (mapDiffAdd xs ys
      (mapDiffRem xs ys (xs.take (min xs.length ys.length)))).length
      = min xs.length ys.length := by
    rw [length_mapDiffAdd, length_mapDiffRem, htm]
  have h4 : applyAddedS
      (Val.list (mapDiffAdd xs ys (mapDiffRem xs ys (xs.take (min xs.length ys.length)))))
      (addedTailS (min xs.length ys.length) (ys.drop (min xs.length ys.length)))
      = Val.list (mapDiffAdd xs ys (mapDiffRem xs ys (xs.take (min xs.length ys.length)))
          ++ ys.drop (min xs.length ys.length)) := by
    have := tailAppend_list (ys.drop (min xs.length ys.length))
      (mapDiffAdd xs ys (mapDiffRem xs ys (xs.take (min xs.length ys.length))))
    rw [hlen2] at this
    exact this
  rw [h4]
  have h5 : applyChangedS
      (Val.list (mapDiffAdd xs ys (mapDiffRem xs ys (xs.take (min xs.length ys.length)))
        ++ ys.drop (min xs.length ys.length)))
      (diffListsAuxS xs ys 0).changed
      = Val.list (mapDiffChg xs ys
          (mapDiffAdd xs ys (mapDiffRem xs ys (xs.take (min xs.length ys.length)))
            ++ ys.drop (min xs.length ys.length))) := by
    have := auxChg_list xs ys []
      (mapDiffAdd xs ys (mapDiffRem xs ys (xs.take (min xs.length ys.length)))
        ++ ys.drop (min xs.length ys.length))
      (by rw [List.length_append, hlen2]; omega)
    simpa using this
  rw [h5]
  rw [mapDiffChg_append _ _ _ _ (by rw [hlen2])]
  rw [mapDiff_fuse]
  rw [applyChangedS_synth _ _ (by
    intro e he
    split at he
    · rcases List.mem_cons.mp he with rfl | he
      · rfl
      · simp at he
    · simp at he)]
  rw [peq_list_list]
  exact peqL_mapDiffRT xs ys hgys H

/-! ### The round-trip, assembled -/

theorem roundtrip_scalar (b a : Val)
    (h : diffVS b a
      = if Val.beq b a then DiffS.empty else ⟨[⟨[], b, a, false⟩], [], []⟩)
    (hset : setSegs b [] a = a)
    (hga : goodTree a = true) :
    Val.peq (applyDiffS b (diffVS b a)) a = true := by
  rw [h]
  by_cases hbeq : Val.beq b a = true
  · rw [if_pos hbeq]
    have hba : b = a := (Val.beq_iff_eq b a).mp hbeq
    subst hba
    show Val.peq b b = true
    exact peq_refl b hga
  · rw [if_neg hbeq]
    show Val.peq (if false = true then b else setSegs b [] a) a = true
    rw [if_neg (by simp)]
    rw [hset]
    exact peq_refl a hga

theorem roundtrip_bounded : ∀ (n : Nat) (b a : Val), sizeOf b + sizeOf a < n →
    goodTree b = true → goodTree a = true →
    Val.peq (applyDiffS b (diffVS b a)) a = true := by
  intro n
  induction n with
  | zero =>
      intro b a h
      omega
  | succ n ih =>
      intro b a hsz hgb hga
      cases b <;> cases a <;>
        first
          | (rename_i x y
             have hVS : diffVS (Val.dict x) (Val.dict y) = diffDictsS x y := by
               unfold diffVS
               rfl
             rw [hVS]
             refine peqKV_roundtrip_aux x y hgb hga ?_
             intro kq bv wq hbv hwq
             have hbx : sizeOf bv < sizeOf x := sizeOf_dictGet x kq bv hbv
             have hwy : sizeOf wq < sizeOf y := sizeOf_dictGet y kq wq hwq
             have hsx : sizeOf (Val.dict x) = 1 + sizeOf x := by simp
             have hsy : sizeOf (Val.dict y) = 1 + sizeOf y := by simp
             refine ih bv wq (by omega) ?_ ?_
             · exact goodTree_of_dictGet x kq bv hbv (goodTree_dict_parts x hgb).2.2
             · exact goodTree_of_dictGet y kq wq hwq (goodTree_dict_parts y hga).2.2)
          | (rename_i xs ys
             have hVS : diffVS (Val.list xs) (Val.list ys) = diffListsS xs ys := by
               unfold diffVS
               rfl
             rw [hVS]
             refine peqL_roundtrip_aux xs ys hgb hga ?_
             intro b' hb' a' ha'
             have h1 : sizeOf b' < sizeOf xs := List.sizeOf_lt_of_mem hb'
             have h2 : sizeOf a' < sizeOf ys := List.sizeOf_lt_of_mem ha'
             have hsx : sizeOf (Val.list xs) = 1 + sizeOf xs := by simp
             have hsy : sizeOf (Val.list ys) = 1 + sizeOf ys := by simp
             refine ih b' a' (by omega) ?_ ?_
             · exact (goodTreeL_iff xs).mp (by simpa [goodTree] using hgb) b' hb'
             · exact (goodTreeL_iff ys).mp (by simpa [goodTree] using hga) a' ha')
          | (exact roundtrip_scalar _ _ (by unfold diffVS; rfl) rfl hga)

theorem roundtripV (b a : Val) (hgb : goodTree b = true) (hga : goodTree a = true) :
    Val.peq (applyDiffS b (diffVS b a)) a = true :=
  roundtrip_bounded (sizeOf b + sizeOf a + 1) b a (by omega) hgb hga

/-! ### All diff paths over well-formed trees use well-formed segments -/

/-- Every entry of the diff carries only usable segments. -/
def goodSegsD (d : DiffS) : Bool :=
  d.added.all (fun e => goodSegsB e.segs) &&
  d.removed.all (fun e => goodSegsB e.segs) &&
  d.changed.all (fun e => goodSegsB e.segs)

theorem goodSegsD_app (d e : DiffS) :
    goodSegsD (d.app e) = true ↔ (goodSegsD d = true ∧ goodSegsD e = true) := by
  simp only [goodSegsD, DiffS.app, List.all_append, Bool.and_eq_true]
  tauto

theorem goodSegsB_cons (s : Seg) (l : List Seg) :
    goodSegsB (s :: l) = (goodSeg s && goodSegsB l) := by
  simp [goodSegsB]

theorem goodSegsD_prefixD (s : Seg) (d : DiffS) (hs : goodSeg s = true)
    (hd : goodSegsD d = true) : goodSegsD (prefixD s d) = true := by
  simp only [goodSegsD, prefixD, List.all_map, Bool.and_eq_true, List.all_eq_true] at hd ⊢
  obtain ⟨⟨h1, h2⟩, h3⟩ := hd
  refine ⟨⟨?_, ?_⟩, ?_⟩ <;>
    intro e he <;>
    simp only [Function.comp_apply, goodSegsB_cons, hs, Bool.true_and]
  · exact h1 e he
  · exact h2 e he
  · exact h3 e he

theorem goodSegsD_empty : goodSegsD DiffS.empty = true := rfl

theorem goodSegsD_shared (x y : List (String × Val)) (ks : List String)
    (hgood : ∀ k ∈ ks, goodKey k = true)
    (H : ∀ k ∈ ks, ∀ bv av, dictGet x k = some bv → dictGet y k = some av →
      goodSegsD (diffVS bv av) = true) :
    goodSegsD (diffSharedS x y ks) = true := by
  induction ks with
  | nil =>
      rw [diffSharedS_nil]
      exact goodSegsD_empty
  | cons k ks ih =>
      have hrest : goodSegsD (diffSharedS x y ks) = true :=
        ih (fun k' hk' => hgood k' (by simp [hk']))
          (fun k' hk' => H k' (by simp [hk']))
      cases hb : dictGet x k with
      | none =>
          have hcons : diffSharedS x y (k :: ks) = DiffS.app DiffS.empty (diffSharedS x y ks) := by
            conv_lhs => unfold diffSharedS
            cases hb' : dictGet x k with
            | none => cases ha' : dictGet y k <;> rfl
            | some bv' => simp [hb] at hb'
          rw [hcons]
          rw [goodSegsD_app]
          exact ⟨goodSegsD_empty, hrest⟩
      | some bv =>
          cases ha : dictGet y k with
          | none =>
              have hcons : diffSharedS x y (k :: ks)
                  = DiffS.app DiffS.empty (diffSharedS x y ks) := by
                conv_lhs => unfold diffSharedS
                cases hb' : dictGet x k with
                | none => simp [hb] at hb'
                | some bv' =>
                    cases ha' : dictGet y k with
                    | none => rfl
                    | some av' => simp [ha] at ha'
              rw [hcons, goodSegsD_app]
              exact ⟨goodSegsD_empty, hrest⟩
          | some av =>
              rw [diffSharedS_cons_some x y k ks bv av hb ha]
              rw [goodSegsD_app]
              refine ⟨goodSegsD_prefixD _ _ ?_ (H k (by simp) bv av hb ha), hrest⟩
              show goodKey k = true
              exact hgood k (by simp)

theorem goodSegsD_aux (bs : List Val) :
    ∀ (as : List Val) (i : Nat),
    (∀ b ∈ bs, ∀ a ∈ as, goodSegsD (diffVS b a) = true) →
    goodSegsD (diffListsAuxS bs as i) = true := by
  induction bs with
  | nil =>
      intro as i _
      rw [diffListsAuxS_nil_left]
      exact goodSegsD_empty
  | cons b bs ih =>
      intro as i H
      cases as with
      | nil =>
          rw [diffListsAuxS_nil_right]
          exact goodSegsD_empty
      | cons a as =>
          rw [diffListsAuxS_cons, goodSegsD_app]
          refine ⟨goodSegsD_prefixD _ _ rfl (H b (by simp) a (by simp)), ?_⟩
          exact ih as (i + 1) (fun b' hb' a' ha' => H b' (by simp [hb']) a' (by simp [ha']))

theorem goodSegsB_tail_entries_rem (i : Nat) (vs : List Val) :
    ∀ e ∈ removedTailS i vs, goodSegsB e.segs = true := by
  intro e he
  obtain ⟨j, hj⟩ := removedTailS_segs i vs e he
  simp [hj, goodSegsB, goodSeg]

theorem goodSegsB_tail_entries_add (i : Nat) (vs : List Val) :
    ∀ e ∈ addedTailS i vs, goodSegsB e.segs = true := by
  intro e he
  obtain ⟨j, hj⟩ := addedTailS_segs i vs e he
  simp [hj, goodSegsB, goodSeg]

theorem goodSegsD_top (ka kr : List String) (wa wr : String → Val)
    (hka : ∀ k ∈ ka, goodKey k = true) (hkr : ∀ k ∈ kr, goodKey k = true) :
    goodSegsD ⟨[], ka.map (fun k => ⟨[Seg.key k], wa k⟩),
      kr.map (fun k => ⟨[Seg.key k], wr k⟩)⟩ = true := by
  simp only [goodSegsD, Bool.and_eq_true, List.all_eq_true]
  refine ⟨⟨?_, ?_⟩, ?_⟩
  · intro e he
    rw [List.mem_map] at he
    obtain ⟨k, hk, rfl⟩ := he
    simp [goodSegsB, goodSeg, hka k hk]
  · intro e he
    rw [List.mem_map] at he
    obtain ⟨k, hk, rfl⟩ := he
    simp [goodSegsB, goodSeg, hkr k hk]
  · intro e he
    simp at he

theorem diffVS_scalar_form (b a : Val)
    (h : diffVS b a
      = if Val.beq b a then DiffS.empty else ⟨[⟨[], b, a, false⟩], [], []⟩) :
    goodSegsD (diffVS b a) = true := by
  rw [h]
  split
  · rfl
  · rfl

theorem goodSegsD_bounded : ∀ (n : Nat) (b a : Val), sizeOf b + sizeOf a < n →
    goodTree b = true → goodTree a = true → goodSegsD (diffVS b a) = true := by
  intro n
  induction n with
  | zero =>
      intro b a h
      omega
  | succ n ih =>
      intro b a hsz hgb hga
      cases b <;> cases a <;>
        first
          | (rename_i x y
             have hVS : diffVS (Val.dict x) (Val.dict y) = diffDictsS x y := by
               unfold diffVS
               rfl
             rw [hVS]
             obtain ⟨hgkx, hndx, hvalx⟩ := goodTree_dict_parts x hgb
             obtain ⟨hgky, hndy, hvaly⟩ := goodTree_dict_parts y hga
             have hshared : goodSegsD (diffSharedS x y
                 (sharedKeysOf (setKeys x) (setKeys y))) = true := by
               refine goodSegsD_shared x y _ ?_ ?_
               · intro k hk
                 rw [setKeys_eq x hndx, setKeys_eq y hndy, mem_sharedKeysOf] at hk
                 exact hgkx k hk.1
               · intro k _ bv av hbv hav
                 have hbx : sizeOf bv < sizeOf x := sizeOf_dictGet x k bv hbv
                 have hwy : sizeOf av < sizeOf y := sizeOf_dictGet y k av hav
                 have hsx : sizeOf (Val.dict x) = 1 + sizeOf x := by simp
                 have hsy : sizeOf (Val.dict y) = 1 + sizeOf y := by simp
                 exact ih bv av (by omega)
                   (goodTree_of_dictGet x k bv hbv hvalx)
                   (goodTree_of_dictGet y k av hav hvaly)
             have hd2 : diffDictsS x y = DiffS.app
                 ⟨[],
                  (addedKeysOf (setKeys x) (setKeys y)).map
                    (fun k => ⟨[Seg.key k], (dictGet y k).getD .none⟩),
                  (removedKeysOf (setKeys x) (setKeys y)).map
                    (fun k => ⟨[Seg.key k], (dictGet x k).getD .none⟩)⟩
                 (diffSharedS x y (sharedKeysOf (setKeys x) (setKeys y))) := by
               unfold diffDictsS
               rfl
             rw [hd2, goodSegsD_app]
             refine ⟨goodSegsD_top _ _ _ _ ?_ ?_, hshared⟩
             · intro k hk
               rw [setKeys_eq x hndx, setKeys_eq y hndy, mem_addedKeysOf] at hk
               exact hgky k hk.1
             · intro k hk
               rw [setKeys_eq x hndx, setKeys_eq y hndy, mem_removedKeysOf] at hk
               exact hgkx k hk.1)
          | (rename_i xs ys
             have hVS : diffVS (Val.list xs) (Val.list ys) = diffListsS xs ys := by
               unfold diffVS
               rfl
             rw [hVS]
             have haux : goodSegsD (diffListsAuxS xs ys 0) = true := by
               refine goodSegsD_aux xs ys 0 ?_
               intro b' hb' a' ha'
               have h1 : sizeOf b' < sizeOf xs := List.sizeOf_lt_of_mem hb'
               have h2 : sizeOf a' < sizeOf ys := List.sizeOf_lt_of_mem ha'
               have hsx : sizeOf (Val.list xs) = 1 + sizeOf xs := by simp
               have hsy : sizeOf (Val.list ys) = 1 + sizeOf ys := by simp
               exact ih b' a' (by omega)
                 ((goodTreeL_iff xs).mp (by simpa [goodTree] using hgb) b' hb')
                 ((goodTreeL_iff ys).mp (by simpa [goodTree] using hga) a' ha')
             have hL2 : diffListsS xs ys =
                 ⟨(diffListsAuxS xs ys 0).changed ++
                    (if xs.length ≠ ys.length
                     then [⟨[], .int xs.length, .int ys.length, true⟩] else []),
                  (diffListsAuxS xs ys 0).added ++
                    addedTailS (min xs.length ys.length)
                      (ys.drop (min xs.length ys.length)),
                  (diffListsAuxS xs ys 0).removed ++
                    removedTailS (min xs.length ys.length)
                      (xs.drop (min xs.length ys.length))⟩ := by
               unfold diffListsS
               rfl
             rw [hL2]
             simp only [goodSegsD, Bool.and_eq_true, List.all_append, List.all_eq_true] at haux ⊢
             obtain ⟨⟨ha1, ha2⟩, ha3⟩ := haux
             refine ⟨⟨⟨ha1, goodSegsB_tail_entries_add _ _⟩,
                      ⟨ha2, goodSegsB_tail_entries_rem _ _⟩⟩, ⟨ha3, ?_⟩⟩
             intro e he
             split at he
             · rcases List.mem_cons.mp he with rfl | he
               · rfl
               · simp at he
             · simp at he)
          | (exact diffVS_scalar_form _ _ (by unfold diffVS; rfl))

theorem goodDiffS_diffDictsS (x y : List (String × Val))
    (hgx : goodTree (Val.dict x) = true) (hgy : goodTree (Val.dict y) = true) :
    goodDiffS (diffDictsS x y) = true := by
  have hsegs : goodSegsD (diffDictsS x y) = true := by
    have h := goodSegsD_bounded (sizeOf (Val.dict x) + sizeOf (Val.dict y) + 1)
      (Val.dict x) (Val.dict y) (by omega) hgx hgy
    rw [show diffVS (Val.dict x) (Val.dict y) = diffDictsS x y from by
      unfold diffVS
      rfl] at h
    exact h
  have hd2 : diffDictsS x y = DiffS.app
      ⟨[],
       (addedKeysOf (setKeys x) (setKeys y)).map
         (fun k => ⟨[Seg.key k], (dictGet y k).getD .none⟩),
       (removedKeysOf (setKeys x) (setKeys y)).map
         (fun k => ⟨[Seg.key k], (dictGet x k).getD .none⟩)⟩
      (diffSharedS x y (sharedKeysOf (setKeys x) (setKeys y))) := by
    unfold diffDictsS
    rfl
  have hchg : ∀ e ∈ (diffDictsS x y).changed, e.segs ≠ [] := by
    intro e he
    rw [hd2] at he
    simp only [DiffS.app, List.nil_append] at he
    exact diffSharedS_changed_ne_nil x y _ e he
  unfold goodDiffS
  simp only [goodSegsD, Bool.and_eq_true, List.all_eq_true] at hsegs
  obtain ⟨⟨ha, hr⟩, hc⟩ := hsegs
  simp only [Bool.and_eq_true, List.all_eq_true]
  refine ⟨⟨ha, hr⟩, ?_⟩
  intro e he
  refine ⟨hc e he, ?_⟩
  rw [Bool.or_eq_true]
  right
  simpa using hchg e he

/-! ### The string-level round-trip up to Python `==` -/

theorem delSegs_dict_isDict (kvs : List (String × Val)) :
    ∀ (segs : List Seg), ∃ X, delSegs (Val.dict kvs) segs = Val.dict X := by
  intro segs
  match segs with
  | [] => exact ⟨kvs, rfl⟩
  | [Seg.key k] => exact ⟨dictDel kvs k, rfl⟩
  | [Seg.idx n] => exact ⟨kvs, rfl⟩
  | Seg.key k :: s₂ :: rest =>
      by_cases h : dictHas kvs k = true
      · refine ⟨dictUpd kvs k (fun c => delSegs c (s₂ :: rest)), ?_⟩
        show (if dictHas kvs k = true
              then Val.dict (dictUpd kvs k (fun c => delSegs c (s₂ :: rest)))
              else Val.dict kvs) = _
        rw [if_pos h]
      · refine ⟨kvs, ?_⟩
        show (if dictHas kvs k = true
              then Val.dict (dictUpd kvs k (fun c => delSegs c (s₂ :: rest)))
              else Val.dict kvs) = _
        rw [if_neg h]
  | Seg.idx n :: s₂ :: rest => exact ⟨kvs, rfl⟩

theorem setSegs_dict_isDict (kvs : List (String × Val)) (v : Val) :
    ∀ (segs : List Seg), segs ≠ [] → ∃ X, setSegs (Val.dict kvs) segs v = Val.dict X := by
  intro segs hne
  match segs with
  | [] => exact absurd rfl hne
  | [Seg.key k] => exact ⟨dictSet kvs k v, rfl⟩
  | [Seg.idx n] => exact ⟨kvs, rfl⟩
  | Seg.key k :: s₂ :: rest =>
      by_cases h : dictHas kvs k = true
      · refine ⟨dictUpd kvs k (fun c => setSegs c (s₂ :: rest) v), ?_⟩
        show (if dictHas kvs k = true
              then Val.dict (dictUpd kvs k (fun c => setSegs c (s₂ :: rest) v))
              else Val.dict (kvs ++ [(k, setSegs (.dict []) (s₂ :: rest) v)])) = _
        rw [if_pos h]
      · refine ⟨kvs ++ [(k, setSegs (.dict []) (s₂ :: rest) v)], ?_⟩
        show (if dictHas kvs k = true
              then Val.dict (dictUpd kvs k (fun c => setSegs c (s₂ :: rest) v))
              else Val.dict (kvs ++ [(k, setSegs (.dict []) (s₂ :: rest) v)])) = _
        rw [if_neg h]
  | Seg.idx n :: s₂ :: rest => exact ⟨kvs, rfl⟩

theorem applyRemovedS_dict_isDict (es : List RemovedS) :
    ∀ (kvs : List (String × Val)), ∃ X, applyRemovedS (Val.dict kvs) es = Val.dict X := by
  induction es with
  | nil => intro kvs; exact ⟨kvs, rfl⟩
  | cons e es ih =>
      intro kvs
      obtain ⟨X1, h1⟩ := delSegs_dict_isDict kvs e.segs
      obtain ⟨X2, h2⟩ := ih X1
      refine ⟨X2, ?_⟩
      show applyRemovedS (delSegs (Val.dict kvs) e.segs) es = _
      rw [h1, h2]

theorem applyAddedS_dict_isDict (es : List AddedS) (hne : ∀ e ∈ es, e.segs ≠ []) :
    ∀ (kvs : List (String × Val)), ∃ X, applyAddedS (Val.dict kvs) es = Val.dict X := by
  induction es with
  | nil => intro kvs; exact ⟨kvs, rfl⟩
  | cons e es ih =>
      intro kvs
      obtain ⟨X1, h1⟩ := setSegs_dict_isDict kvs e.value e.segs (hne e (by simp))
      obtain ⟨X2, h2⟩ := ih (fun e' he' => hne e' (by simp [he'])) X1
      refine ⟨X2, ?_⟩
      show applyAddedS (setSegs (Val.dict kvs) e.segs e.value) es = _
      rw [h1, h2]

theorem applyChangedS_dict_isDict (es : List ChangedS)
    (hne : ∀ e ∈ es, e.synth = true ∨ e.segs ≠ []) :
    ∀ (kvs : List (String × Val)), ∃ X, applyChangedS (Val.dict kvs) es = Val.dict X := by
  induction es with
  | nil => intro kvs; exact ⟨kvs, rfl⟩
  | cons e es ih =>
      intro kvs
      have hstep : ∃ X1, (if e.synth = true then Val.dict kvs
          else setSegs (Val.dict kvs) e.segs e.new_value) = Val.dict X1 := by
        by_cases hsy : e.synth = true
        · rw [if_pos hsy]
          exact ⟨kvs, rfl⟩
        · rw [if_neg hsy]
          refine setSegs_dict_isDict kvs e.new_value e.segs ?_
          rcases hne e (by simp) with h | h
          · exact absurd h hsy
          · exact h
      obtain ⟨X1, h1⟩ := hstep
      obtain ⟨X2, h2⟩ := ih (fun e' he' => hne e' (by simp [he'])) X1
      refine ⟨X2, ?_⟩
      show applyChangedS (if e.synth = true then Val.dict kvs
        else setSegs (Val.dict kvs) e.segs e.new_value) es = _
      rw [h1, h2]

theorem apply_compute_diff_roundtrip (t u : List (String × Val))
    (hgt : goodTree (Val.dict t) = true) (hgu : goodTree (Val.dict u) = true) :
    Val.peq (Val.dict (apply_diff t (compute_diff t u []))) (Val.dict u) = true := by
  rw [compute_diff_corr]
  rw [apply_diff_corr t (diffDictsS t u) (goodDiffS_diffDictsS t u hgt hgu)]
  have hVSeq : diffVS (Val.dict t) (Val.dict u) = diffDictsS t u := by
    unfold diffVS
    rfl
  have hne_add : ∀ e ∈ (diffDictsS t u).added, e.segs ≠ [] := by
    intro e he
    have h := diffVS_added_ne_nil (Val.dict t) (Val.dict u) e
    rw [hVSeq] at h
    exact h he
  have hchg : ∀ e ∈ (diffDictsS t u).changed, e.synth = true ∨ e.segs ≠ [] := by
    intro e he
    have hd2 : diffDictsS t u = DiffS.app
        ⟨[],
         (addedKeysOf (setKeys t) (setKeys u)).map
           (fun k => ⟨[Seg.key k], (dictGet u k).getD .none⟩),
         (removedKeysOf (setKeys t) (setKeys u)).map
           (fun k => ⟨[Seg.key k], (dictGet t k).getD .none⟩)⟩
        (diffSharedS t u (sharedKeysOf (setKeys t) (setKeys u))) := by
      unfold diffDictsS
      rfl
    rw [hd2] at he
    simp only [DiffS.app, List.nil_append] at he
    exact Or.inr (diffSharedS_changed_ne_nil t u _ e he)
  obtain ⟨X1, h1⟩ := applyRemovedS_dict_isDict ((diffDictsS t u).removed.reverse) t
  obtain ⟨X2, h2⟩ := applyAddedS_dict_isDict (diffDictsS t u).added hne_add X1
  obtain ⟨X3, h3⟩ := applyChangedS_dict_isDict (diffDictsS t u).changed hchg X2
  have hX : applyDiffS (Val.dict t) (diffDictsS t u) = Val.dict X3 := by
    unfold applyDiffS
    rw [h1, h2, h3]
  rw [hX]
  show Val.peq (Val.dict X3) (Val.dict u) = true
  have hrt := roundtripV (Val.dict t) (Val.dict u) hgt hgu
  rw [hVSeq, hX] at hrt
  exact hrt

/-- On the mappings `{"a": {"length": 1}}` and `{"a": {"length": 2}}`,
`compute_diff` reports one genuine changed entry at the dotted path
`"a.length"`. -/
theorem compute_diff_length_example :
    compute_diff [("a", Val.dict [("length", Val.int 1)])]
      [("a", Val.dict [("length", Val.int 2)])] []
      = ⟨[⟨"a.length", Val.int 1, Val.int 2⟩], [], []⟩ := by
  rw [compute_diff_corr]
  have hd2 : diffDictsS [("a", Val.dict [("length", Val.int 1)])]
      [("a", Val.dict [("length", Val.int 2)])]
      = DiffS.app
        ⟨[],
         (addedKeysOf (setKeys [("a", Val.dict [("length", Val.int 1)])])
           (setKeys [("a", Val.dict [("length", Val.int 2)])])).map
           (fun k => ⟨[Seg.key k],
             (dictGet [("a", Val.dict [("length", Val.int 2)])] k).getD .none⟩),
         (removedKeysOf (setKeys [("a", Val.dict [("length", Val.int 1)])])
           (setKeys [("a", Val.dict [("length", Val.int 2)])])).map
           (fun k => ⟨[Seg.key k],
             (dictGet [("a", Val.dict [("length", Val.int 1)])] k).getD .none⟩)⟩
        (diffSharedS [("a", Val.dict [("length", Val.int 1)])]
          [("a", Val.dict [("length", Val.int 2)])]
          (sharedKeysOf (setKeys [("a", Val.dict [("length", Val.int 1)])])
            (setKeys [("a", Val.dict [("length", Val.int 2)])]))) := by
    unfold diffDictsS
    rfl
  rw [hd2]
  have hks : sharedKeysOf (setKeys [("a", Val.dict [("length", Val.int 1)])])
      (setKeys [("a", Val.dict [("length", Val.int 2)])]) = ["a"] := by
    simp [sharedKeysOf, setKeys, keysOf, sortStr, List.dedup]
  have hka : addedKeysOf (setKeys [("a", Val.dict [("length", Val.int 1)])])
      (setKeys [("a", Val.dict [("length", Val.int 2)])]) = [] := by
    simp [addedKeysOf, setKeys, keysOf, sortStr, List.dedup]
  have hkr : removedKeysOf (setKeys [("a", Val.dict [("length", Val.int 1)])])
      (setKeys [("a", Val.dict [("length", Val.int 2)])]) = [] := by
    simp [removedKeysOf, setKeys, keysOf, sortStr, List.dedup]
  rw [hks, hka, hkr]
  rw [diffSharedS_cons_some [("a", Val.dict [("length", Val.int 1)])]
    [("a", Val.dict [("length", Val.int 2)])] "a" [] (Val.dict [("length", Val.int 1)])
    (Val.dict [("length", Val.int 2)]) rfl rfl]
  rw [diffSharedS_nil]
  have hinner : diffVS (Val.dict [("length", Val.int 1)])
      (Val.dict [("length", Val.int 2)])
      = diffDictsS [("length", Val.int 1)] [("length", Val.int 2)] := by
    unfold diffVS
    rfl
  rw [hinner]
  have hd3 : diffDictsS [("length", Val.int 1)] [("length", Val.int 2)]
      = DiffS.app
        ⟨[],
         (addedKeysOf (setKeys [("length", Val.int 1)])
           (setKeys [("length", Val.int 2)])).map
           (fun k => ⟨[Seg.key k], (dictGet [("length", Val.int 2)] k).getD .none⟩),
         (removedKeysOf (setKeys [("length", Val.int 1)])
           (setKeys [("length", Val.int 2)])).map
           (fun k => ⟨[Seg.key k], (dictGet [("length", Val.int 1)] k).getD .none⟩)⟩
        (diffSharedS [("length", Val.int 1)] [("length", Val.int 2)]
          (sharedKeysOf (setKeys [("length", Val.int 1)])
            (setKeys [("length", Val.int 2)]))) := by
    unfold diffDictsS
    rfl
  rw [hd3]
  have hks2 : sharedKeysOf (setKeys [("length", Val.int 1)])
      (setKeys [("length", Val.int 2)]) = ["length"] := by
    simp [sharedKeysOf, setKeys, keysOf, sortStr, List.dedup]
  have hka2 : addedKeysOf (setKeys [("length", Val.int 1)])
      (setKeys [("length", Val.int 2)]) = [] := by
    simp [addedKeysOf, setKeys, keysOf, sortStr, List.dedup]
  have hkr2 : removedKeysOf (setKeys [("length", Val.int 1)])
      (setKeys [("length", Val.int 2)]) = [] := by
    simp [removedKeysOf, setKeys, keysOf, sortStr, List.dedup]
  rw [hks2, hka2, hkr2]
  rw [diffSharedS_cons_some [("length", Val.int 1)] [("length", Val.int 2)]
    "length" [] (Val.int 1) (Val.int 2) rfl rfl]
  rw [diffSharedS_nil]
  have hscal : diffVS (Val.int 1) (Val.int 2)
      = ⟨[⟨[], Val.int 1, Val.int 2, false⟩], [], []⟩ := by
    unfold diffVS
    rfl
  rw [hscal]
  simp only [DiffS.app, DiffS.empty, prefixD, List.map_nil, List.map_cons,
    List.nil_append, List.append_nil, liftD, liftC, liftA, liftR]
  decide

/-! ## Claim C1 -/

/-- C1 (counterexample): the round-trip `apply_diff(t, compute_diff(t, u)) ≡ u`
fails for some serialized trees.  With `t = {"a": {"length": 1}}` and
`u = {"a": {"length": 2}}`, `compute_diff` reports the genuine change at path
`"a.length"`, but `apply_diff` skips every changed path ending in `".length"`
(it assumes such entries are synthetic list-length markers), so applying the
diff returns `t` unchanged — which differs from `u` both as a raw value and
up to Python `==`. -/
theorem C1_roundtrip_counterexample :
    apply_diff [("a", Val.dict [("length", Val.int 1)])]
        (compute_diff [("a", Val.dict [("length", Val.int 1)])]
          [("a", Val.dict [("length", Val.int 2)])] [])
      = [("a", Val.dict [("length", Val.int 1)])]
    ∧ [("a", Val.dict [("length", Val.int 1)])]
        ≠ [("a", Val.dict [("length", Val.int 2)])]
    ∧ Val.peq (Val.dict [("a", Val.dict [("length", Val.int 1)])])
        (Val.dict [("a", Val.dict [("length", Val.int 2)])]) = false := by
  have hdiff := compute_diff_length_example
  refine ⟨?_, by decide, ?_⟩
  · rw [hdiff]
    decide
  · rw [peq_dict_dict]
    unfold Val.peqKV Val.peqLookup
    have hsub : Val.peq (Val.dict [("length", Val.int 1)])
        (Val.dict [("length", Val.int 2)]) = false := by
      rw [peq_dict_dict]
      unfold Val.peqKV Val.peqLookup
      have h2 : Val.peq (Val.int 1) (Val.int 2) = false := by
        unfold Val.peq
        rfl
      simp [dictGet, dictHas, h2]
    simp [dictGet, dictHas, hsub]

/-- C1 (amended): for well-formed serialized trees — mappings whose keys are
nonempty, contain neither `.` nor `[`, are distinct within each mapping, and
never use the reserved word `length` — applying `compute_diff(t, u)` to `t`
with `apply_diff` reproduces `u` up to Python `==` (mapping key order may
differ because added keys are appended). -/
theorem C1_roundtrip_amended (t u : List (String × Val))
    (hgt : goodTree (Val.dict t) = true) (hgu : goodTree (Val.dict u) = true) :
    Val.peq (Val.dict (apply_diff t (compute_diff t u []))) (Val.dict u) = true :=
  apply_compute_diff_roundtrip t u hgt hgu

/-- Witness for C1 (amended): a concrete instance with one removed, one kept
and one added key, each hypothesis discharged by computation. -/
theorem C1_roundtrip_amended_witness :
    goodTree (Val.dict [("a", Val.int 1), ("b", Val.int 2)]) = true
    ∧ goodTree (Val.dict [("b", Val.int 3), ("c", Val.int 4)]) = true
    ∧ Val.peq (Val.dict (apply_diff [("a", Val.int 1), ("b", Val.int 2)]
        (compute_diff [("a", Val.int 1), ("b", Val.int 2)]
          [("b", Val.int 3), ("c", Val.int 4)] [])))
        (Val.dict [("b", Val.int 3), ("c", Val.int 4)]) = true :=
  ⟨by decide, by decide,
   C1_roundtrip_amended [("a", Val.int 1), ("b", Val.int 2)]
     [("b", Val.int 3), ("c", Val.int 4)] (by decide) (by decide)⟩

/-! ## Storage model (`storage/sqlite_sync.py`, `storage/sqlite.py`)

Rows are modelled with the fields the reconstruction and recording
code reads; JSON (de)serialization is identity on our `Val` trees. -/

inductive StepStatus where
  | running
  | completed
  | failed
  deriving DecidableEq

structure ExecutionR where
  execution_id : String
  graph_name : String
  initial_state : List (String × Val)
  step_count : Nat
  metadata : List (String × Val)
  deriving DecidableEq

structure StepRow where
  execution_id : String
  node_name : String
  step_index : Nat
  status : StepStatus
  state_before : Option (List (String × Val))
  state_after : Option (List (String × Val))
  state_diff : StateDiff
  is_checkpoint : Bool
  error : Option String
  deriving DecidableEq

structure Storage where
  executions : List ExecutionR
  steps : List StepRow
  deriving DecidableEq

inductive StorageError where
  | uniqueViolation
  deriving DecidableEq

/-- `SyncSQLiteStorage.save_execution`: `INSERT OR REPLACE` deletes any
row with the same primary key and inserts the new one. -/
def saveExecutionSync (st : Storage) (e : ExecutionR) : Storage :=
  { st with executions :=
      (st.executions.filter (fun r => r.execution_id ≠ e.execution_id)) ++ [e] }

/-- `SQLiteStorage.save_execution` (async): a plain `INSERT`, which raises
an integrity error when the `execution_id` primary key already exists. -/
def saveExecutionAsync (st : Storage) (e : ExecutionR) :
    Except StorageError Storage :=
  if st.executions.any (fun r => r.execution_id == e.execution_id)
  then .error .uniqueViolation
  else .ok { st with executions := st.executions ++ [e] }

/-- `save_step` (both backends): a plain `INSERT` keyed by the freshly
generated `step_id` UUID, so it always appends. -/
def saveStep (st : Storage) (s : StepRow) : Storage :=
  { st with steps := st.steps ++ [s] }

/-- `get_execution`: `SELECT * FROM executions WHERE execution_id = ?`. -/
def getExecution (st : Storage) (eid : String) : Option ExecutionR :=
  st.executions.find? (fun r => r.execution_id == eid)

/-- `ORDER BY step_index ASC`. -/
def stepsAsc (rows : List StepRow) : List StepRow :=
  rows.mergeSort (fun r s => decide (r.step_index ≤ s.step_index))

/-- `ORDER BY step_index DESC`. -/
def stepsDesc (rows : List StepRow) : List StepRow :=
  rows.mergeSort (fun r s => decide (s.step_index ≤ r.step_index))

/-- The checkpoint lookup of `get_state_at_step`:
`WHERE execution_id = ? AND step_index <= ? AND is_checkpoint = 1
 ORDER BY step_index DESC LIMIT 1`. -/
def checkpointQuery (st : Storage) (eid : String) (i : Nat) : Option StepRow :=
  (stepsDesc (st.steps.filter (fun r =>
    r.execution_id == eid && decide (r.step_index ≤ i) && r.is_checkpoint))).head?

/-- The replay range query of `get_state_at_step`:
`WHERE execution_id = ? AND step_index >= ? AND step_index <= ?
 ORDER BY step_index ASC`. -/
def rangeQuery (st : Storage) (eid : String) (lo hi : Nat) : List StepRow :=
  stepsAsc (st.steps.filter (fun r =>
    r.execution_id == eid && decide (lo ≤ r.step_index) && decide (r.step_index ≤ hi)))

/-- The replay loop of `get_state_at_step`: a checkpoint row with a stored
full state short-circuits, any other row applies its diff. -/
def replayFold (state : List (String × Val)) (rows : List StepRow) :
    List (String × Val) :=
  rows.foldl (fun acc row =>
    match row.is_checkpoint, row.state_after with
    | true, some s => s
    | _, _ => apply_diff acc row.state_diff) state

/-- `get_state_at_step` (identical logic in the sync and async backends):
nearest checkpoint at or before `step_index` (its missing stored state
defaulting to `{}` through `state_after or {}`), else the execution's
initial state; then the replay fold over the remaining rows.  `None` is
returned only when neither a checkpoint nor the execution row exists;
the requested index is never compared against `step_count`. -/
def get_state_at_step (st : Storage) (eid : String) (i : Nat) :
    Option (List (String × Val)) :=
  match checkpointQuery st eid i with
  | some cp =>
      some (if cp.step_index + 1 ≤ i
            then replayFold (cp.state_after.getD []) (rangeQuery st eid (cp.step_index + 1) i)
            else cp.state_after.getD [])
  | none =>
      match getExecution st eid with
      | none => none
      | some ex => some (replayFold ex.initial_state (rangeQuery st eid 0 i))

/-! ## Collector model (`core/collector.py`) -/

structure CollectorConfig where
  checkpoint_interval : Nat
  ignore_keys : List String
  deriving DecidableEq

structure Collector where
  config : CollectorConfig
  step_counters : List (String × Nat)
  deriving DecidableEq

/-- Python `self._step_counters.get(execution_id, 0)`. -/
def countersGet (cs : List (String × Nat)) (k : String) : Nat :=
  match cs with
  | [] => 0
  | (k', n) :: rest => if k' = k then n else countersGet rest k

/-- Python `self._step_counters[execution_id] = n`. -/
def countersSet (cs : List (String × Nat)) (k : String) (n : Nat) :
    List (String × Nat) :=
  match cs with
  | [] => [(k, n)]
  | (k', n') :: rest =>
      if k' = k then (k', n) :: rest else (k', n') :: countersSet rest k n

/-- `serialize_state` applied to a state mapping. -/
def serializeDict (t : List (String × Val)) : List (String × Val) :=
  asDict (serialize_state (Val.dict t))

/-- `DebugCollector.start_execution` against the async SQLite backend:
serializes the initial state, builds the `Execution` record with
`step_count = 0`, zeroes the step counter for the id, and persists it
with a plain `INSERT` (failing on a duplicate id). -/
def start_executionAsync (c : Collector) (st : Storage) (eid gname : String)
    (initial_state : List (String × Val)) (metadata : Option (List (String × Val))) :
    Except StorageError (Collector × Storage × ExecutionR) :=
  let ex : ExecutionR :=
    ⟨eid, gname, serializeDict initial_state, 0, metadata.getD []⟩
  match saveExecutionAsync st ex with
  | .error e => .error e
  | .ok st' => .ok (⟨c.config, countersSet c.step_counters eid 0⟩, st', ex)

/-- `DebugCollector.start_execution` against the sync SQLite backend used
by `enable_debugging`: same record, but persisted with
`INSERT OR REPLACE`, which silently replaces an existing row. -/
def start_executionSync (c : Collector) (st : Storage) (eid gname : String)
    (initial_state : List (String × Val)) (metadata : Option (List (String × Val))) :
    Collector × Storage × ExecutionR :=
  let ex : ExecutionR :=
    ⟨eid, gname, serializeDict initial_state, 0, metadata.getD []⟩
  (⟨c.config, countersSet c.step_counters eid 0⟩, saveExecutionSync st ex, ex)

/-- `DebugCollector.record_step`: serializes both captures, computes the
diff, takes the step index from the per-id counter (defaulting to 0),
increments the counter, marks checkpoints, sets the status from the
Python truthiness of `error` (`FAILED if error else COMPLETED`, so an
absent or empty-string error both give `completed`), stores the full
states only on checkpoints, and persists the row. -/
def record_step (c : Collector) (st : Storage) (eid node : String)
    (state_before state_after : List (String × Val))
    (error : Option String) : Collector × Storage × StepRow :=
  let before_serialized := serializeDict state_before
  let after_serialized := serializeDict state_after
  let diff := compute_diff before_serialized after_serialized c.config.ignore_keys
  let step_index := countersGet c.step_counters eid
  let counters := countersSet c.step_counters eid (step_index + 1)
  let is_checkpoint :=
    (step_index % c.config.checkpoint_interval == 0) || (step_index == 0)
  let step : StepRow :=
    ⟨eid, node, step_index,
     (match error with
      | some e => if e = "" then .completed else .failed
      | none => .completed),
     (if is_checkpoint then some before_serialized else none),
     (if is_checkpoint then some after_serialized else none),
     diff, is_checkpoint, error⟩
  (⟨c.config, counters⟩, saveStep st step, step)

/-- `update_execution` (both backends): `UPDATE executions SET ... WHERE
execution_id = ?` (the model keeps only the fields the verified claims
read, so the update rewrites the whole record in place). -/
def updateExecution (st : Storage) (e : ExecutionR) : Storage :=
  { st with executions :=
      st.executions.map (fun r => if r.execution_id = e.execution_id then e else r) }

/-- `DebugCollector.end_execution` against the sync backend: looks the
execution up, sets `step_count` from the per-id counter and updates the
row; an unknown id is only logged. -/
def end_executionSync (c : Collector) (st : Storage) (eid : String) : Storage :=
  match getExecution st eid with
  | none => st
  | some ex => updateExecution st { ex with step_count := countersGet c.step_counters eid }

/-! ## LangGraph adapter model (`adapters/langgraph.py`) -/

/-- `_compute_state_after`: a `None` result leaves the captured state
unchanged; a dict result is shallow-merged over a dict state; anything
else replaces the state. -/
def compute_state_after (state_before node_result : Val) : Val :=
  if node_result = Val.none then state_before
  else
    match state_before, node_result with
    | .dict mb, .dict mr => .dict (mr.foldl (fun acc p => dictSet acc p.1 p.2) mb)
    | _, _ => node_result

/-! ### Evaluating the SQL queries on a well-indexed row list -/

theorem filter_and_steps (L : List StepRow) (p q : StepRow → Bool) :
    L.filter (fun r => p r && q r) = (L.filter p).filter q := by
  induction L with
  | nil => rfl
  | cons r L ih =>
      by_cases hp : p r = true
      · by_cases hq : q r = true
        · simp [List.filter_cons, hp, hq, ih]
        · simp [List.filter_cons, hp, hq, ih]
      · simp [List.filter_cons, hp, ih]

theorem filter_le_eq_take (i : Nat) :
    ∀ (L : List StepRow) (off : Nat),
    (∀ (j : Nat) (hj : j < L.length), (L.get ⟨j, hj⟩).step_index = j + off) →
    L.filter (fun r => decide (r.step_index ≤ i)) = L.take (i + 1 - off) := by
  intro L
  induction L with
  | nil => intro off _; simp
  | cons r L ih =>
      intro off hidx
      have h0 : r.step_index = off := by
        have := hidx 0 (by simp)
        simpa using this
      have htail : ∀ (j : Nat) (hj : j < L.length), (L.get ⟨j, hj⟩).step_index = j + (off + 1) := by
        intro j hj
        have := hidx (j + 1) (by simp; omega)
        simpa [Nat.add_assoc, Nat.add_comm 1 off] using this
      by_cases hoi : off ≤ i
      · have : (i + 1 - off) = (i + 1 - (off + 1)) + 1 := by omega
        rw [this]
        simp only [List.filter_cons, List.take_succ_cons, h0, decide_eq_true_eq]
        rw [if_pos (by simpa [h0] using hoi)]
        rw [ih (off + 1) htail]
      · have hz : i + 1 - off = 0 := by omega
        rw [hz]
        simp only [List.filter_cons, List.take_zero]
        rw [if_neg (by simp [h0]; omega)]
        rw [ih (off + 1) htail]
        simp [show i + 1 - (off + 1) = 0 by omega]

theorem filter_ge_eq_drop (lo : Nat) :
    ∀ (L : List StepRow) (off : Nat),
    (∀ (j : Nat) (hj : j < L.length), (L.get ⟨j, hj⟩).step_index = j + off) →
    L.filter (fun r => decide (lo ≤ r.step_index)) = L.drop (lo - off) := by
  intro L
  induction L with
  | nil => intro off _; simp
  | cons r L ih =>
      intro off hidx
      have h0 : r.step_index = off := by
        have := hidx 0 (by simp)
        simpa using this
      have htail : ∀ (j : Nat) (hj : j < L.length), (L.get ⟨j, hj⟩).step_index = j + (off + 1) := by
        intro j hj
        have := hidx (j + 1) (by simp; omega)
        simpa [Nat.add_assoc, Nat.add_comm 1 off] using this
      by_cases hlo : lo ≤ off
      · have hz : lo - off = 0 := by omega
        rw [hz]
        simp only [List.filter_cons, List.drop_zero]
        rw [if_pos (by simp [h0]; omega)]
        rw [ih (off + 1) htail]
        simp [show lo - (off + 1) = 0 by omega]
      · have : lo - off = (lo - (off + 1)) + 1 := by omega
        rw [this]
        simp only [List.filter_cons, List.drop_succ_cons]
        rw [if_neg (by simp [h0]; omega)]
        rw [ih (off + 1) htail]

theorem pairwise_lt_of_idx (L : List StepRow)
    (hidx : ∀ (j : Nat) (hj : j < L.length), (L.get ⟨j, hj⟩).step_index = j) :
    L.Pairwise (fun r s => r.step_index < s.step_index) := by
  rw [List.pairwise_iff_getElem]
  intro a b ha hb hab
  have h1 : L[a].step_index = a := hidx a ha
  have h2 : L[b].step_index = b := hidx b hb
  rw [h1, h2]
  exact hab

theorem stepsAsc_eq_self (rows : List StepRow)
    (h : rows.Pairwise (fun r s => r.step_index < s.step_index)) :
    stepsAsc rows = rows := by
  unfold stepsAsc
  apply List.mergeSort_of_sorted
  refine h.imp ?_
  intro r s hrs
  simpa using Nat.le_of_lt hrs

theorem stepsDesc_head_max (rows : List StepRow) (cp : StepRow)
    (h : (stepsDesc rows).head? = some cp) :
    cp ∈ rows ∧ ∀ r ∈ rows, r.step_index ≤ cp.step_index := by
  have hperm : List.Perm (stepsDesc rows) rows := List.mergeSort_perm rows _
  have hsorted : (stepsDesc rows).Pairwise
      (fun r s => decide (s.step_index ≤ r.step_index) = true) := by
    unfold stepsDesc
    exact @List.sorted_mergeSort StepRow (fun r s => decide (s.step_index ≤ r.step_index))
      (fun a b c hab hbc => by simp at hab hbc ⊢; omega)
      (fun a b => by simp; omega) rows
  obtain ⟨tail, htail⟩ : ∃ tail, stepsDesc rows = cp :: tail := by
    cases hd : stepsDesc rows with
    | nil => rw [hd] at h; simp at h
    | cons a tail =>
        rw [hd] at h
        simp only [List.head?_cons, Option.some.injEq] at h
        subst h
        exact ⟨tail, rfl⟩
  constructor
  · exact hperm.mem_iff.mp (by rw [htail]; simp)
  · intro r hr
    have hrS : r ∈ stepsDesc rows := hperm.mem_iff.mpr hr
    rw [htail] at hrS hsorted
    rcases List.mem_cons.mp hrS with rfl | hrtail
    · exact Nat.le_refl _
    · have := (List.pairwise_cons.mp hsorted).1 r hrtail
      simpa using this

/-- Spec-side reference computation: fold the persisted step diffs onto
the initial state in ascending order. -/
def naiveStateAt (initial : List (String × Val)) (diffs : List StateDiff) :
    List (String × Val) :=
  diffs.foldl apply_diff initial

theorem replayFold_no_cp (rows : List StepRow)
    (h : ∀ r ∈ rows, r.is_checkpoint = false) :
    ∀ s, replayFold s rows = naiveStateAt s (rows.map (fun r => r.state_diff)) := by
  induction rows with
  | nil => intro s; rfl
  | cons r rows ih =>
      intro s
      show replayFold (match r.is_checkpoint, r.state_after with
        | true, some s' => s'
        | _, _ => apply_diff s r.state_diff) rows = _
      rw [h r (by simp)]
      show replayFold (apply_diff s r.state_diff) rows = _
      rw [ih (fun r' hr' => h r' (by simp [hr'])) _]
      rfl

theorem naiveStateAt_append (initial : List (String × Val)) (d1 d2 : List StateDiff) :
    naiveStateAt initial (d1 ++ d2) = naiveStateAt (naiveStateAt initial d1) d2 := by
  unfold naiveStateAt
  rw [List.foldl_append]

theorem checkpointQuery_singleton (st : Storage) (eid : String) (i : Nat)
    (row : StepRow)
    (h : st.steps.filter (fun r =>
      r.execution_id == eid && decide (r.step_index ≤ i) && r.is_checkpoint) = [row]) :
    checkpointQuery st eid i = some row := by
  unfold checkpointQuery stepsDesc
  rw [h, List.mergeSort_singleton]
  rfl

theorem rangeQuery_of_filter_nil (st : Storage) (eid : String) (lo hi : Nat)
    (h : st.steps.filter (fun r =>
      r.execution_id == eid && decide (lo ≤ r.step_index) && decide (r.step_index ≤ hi))
      = []) :
    rangeQuery st eid lo hi = [] := by
  unfold rangeQuery stepsAsc
  rw [h, List.mergeSort_nil]

theorem get_state_at_step_eq_fold (st : Storage) (eid : String) (ex : ExecutionR)
    (L : List StepRow) (i : Nat)
    (hex : getExecution st eid = some ex)
    (hL : st.steps.filter (fun r => r.execution_id == eid) = L)
    (hidx : ∀ (j : Nat) (hj : j < L.length), (L.get ⟨j, hj⟩).step_index = j)
    (hcp : ∀ row ∈ L, row.is_checkpoint = true →
      row.state_after = some (naiveStateAt ex.initial_state
        ((L.take (row.step_index + 1)).map (fun r => r.state_diff))))
    (hi : i < L.length) :
    get_state_at_step st eid i
      = some (naiveStateAt ex.initial_state
          ((L.take (i + 1)).map (fun r => r.state_diff))) := by
  have hfilter_le : st.steps.filter (fun r =>
      r.execution_id == eid && decide (r.step_index ≤ i) && r.is_checkpoint)
      = (L.take (i + 1)).filter (fun r => r.is_checkpoint) := by
    rw [filter_and_steps, filter_and_steps, hL]
    rw [filter_le_eq_take i L 0 (by simpa using hidx)]
    simp
  have hpwL : L.Pairwise (fun r s => r.step_index < s.step_index) :=
    pairwise_lt_of_idx L hidx
  unfold get_state_at_step checkpointQuery
  rw [hfilter_le]
  cases hh : (stepsDesc ((L.take (i + 1)).filter (fun r => r.is_checkpoint))).head? with
  | none =>
      have hnil : (L.take (i + 1)).filter (fun r => r.is_checkpoint) = [] := by
        have h0 : stepsDesc ((L.take (i + 1)).filter (fun r => r.is_checkpoint)) = [] :=
          List.head?_eq_none_iff.mp hh
        have hperm : List.Perm
            (stepsDesc ((L.take (i + 1)).filter (fun r => r.is_checkpoint)))
            ((L.take (i + 1)).filter (fun r => r.is_checkpoint)) :=
          List.mergeSort_perm _ _
        rw [h0] at hperm
        exact List.eq_nil_of_length_eq_zero (by simpa using hperm.length_eq.symm)
      have hnocp : ∀ r ∈ L.take (i + 1), r.is_checkpoint = false := by
        intro r hr
        by_contra hcpr
        have : r ∈ (L.take (i + 1)).filter (fun r => r.is_checkpoint) :=
          List.mem_filter.mpr ⟨hr, by simpa using hcpr⟩
        rw [hnil] at this
        simp at this
      rw [hex]
      have hrange : rangeQuery st eid 0 i = L.take (i + 1) := by
        unfold rangeQuery
        rw [filter_and_steps, filter_and_steps, hL]
        have hz : L.filter (fun r => decide (0 ≤ r.step_index)) = L := by
          apply List.filter_eq_self.mpr
          intro r _
          simp
        rw [hz, filter_le_eq_take i L 0 (by simpa using hidx)]
        simp only [Nat.sub_zero]
        exact stepsAsc_eq_self _ (hpwL.sublist (List.take_sublist _ _))
      show some (replayFold ex.initial_state (rangeQuery st eid 0 i)) = _
      rw [hrange]
      rw [replayFold_no_cp _ hnocp]
  | some cp =>
      obtain ⟨hcpmem, hcpmax⟩ := stepsDesc_head_max _ cp hh
      have hcpT : cp ∈ L.take (i + 1) := (List.mem_filter.mp hcpmem).1
      have hcpflag : cp.is_checkpoint = true := by
        simpa using (List.mem_filter.mp hcpmem).2
      have hcpL : cp ∈ L := List.mem_of_mem_take hcpT
      obtain ⟨m, hgm⟩ := List.mem_iff_get.mp hcpT
      have hmlen : m < L.length := by
        have := m.isLt
        have hlen : (L.take (i + 1)).length = i + 1 := by
          rw [List.length_take]
          omega
        omega
      have hgetm : (L.take (i + 1)).get m = L.get ⟨m, hmlen⟩ := by
        rw [List.get_eq_getElem, List.get_eq_getElem, List.getElem_take]
      have hcidx : cp.step_index = m := by
        rw [← hgm, hgetm]
        exact hidx m hmlen
      have hcle : cp.step_index ≤ i := by
        have := m.isLt
        have hlen : (L.take (i + 1)).length = i + 1 := by
          rw [List.length_take]
          omega
        omega
      have hstate := hcp cp hcpL hcpflag
      show some (if cp.step_index + 1 ≤ i
          then replayFold (cp.state_after.getD []) (rangeQuery st eid (cp.step_index + 1) i)
          else cp.state_after.getD []) = _
      by_cases hci : cp.step_index + 1 ≤ i
      · rw [if_pos hci]
        have hnocp2 : ∀ r ∈ (L.take (i + 1)).drop (cp.step_index + 1),
            r.is_checkpoint = false := by
          intro r hr
          by_contra hcpr
          have hrT : r ∈ L.take (i + 1) := List.mem_of_mem_drop hr
          have hrcand : r ∈ (L.take (i + 1)).filter (fun r => r.is_checkpoint) :=
            List.mem_filter.mpr ⟨hrT, by simpa using hcpr⟩
          have hrle := hcpmax r hrcand
          obtain ⟨m', hgm'⟩ := List.mem_iff_get.mp hr
          have hpwd : ((L.take (i + 1)).drop (cp.step_index + 1)).Pairwise
              (fun r s => r.step_index < s.step_index) :=
            (hpwL.sublist (List.take_sublist _ _)).sublist (List.drop_sublist _ _)
          have hrm : r.step_index = (cp.step_index + 1) + m'.1 := by
            have hlt : (cp.step_index + 1) + m'.1 < L.length := by
              have h2 := m'.isLt
              simp only [List.length_drop, List.length_take] at h2
              omega
            have hget' : ((L.take (i + 1)).drop (cp.step_index + 1)).get m'
                = L.get ⟨(cp.step_index + 1) + m'.1, hlt⟩ := by
              rw [List.get_eq_getElem, List.get_eq_getElem, List.getElem_drop,
                List.getElem_take]
            rw [← hgm', hget', hidx _ hlt]
          omega
        have hrange : rangeQuery st eid (cp.step_index + 1) i
            = (L.take (i + 1)).drop (cp.step_index + 1) := by
          unfold rangeQuery
          rw [filter_and_steps, filter_and_steps, hL]
          rw [filter_ge_eq_drop (cp.step_index + 1) L 0 (by simpa using hidx)]
          simp only [Nat.sub_zero]
          rw [filter_le_eq_take i (L.drop (cp.step_index + 1)) (cp.step_index + 1) (by
            intro j hj
            have hlt : (cp.step_index + 1) + j < L.length := by
              rw [List.length_drop] at hj
              omega
            have hget' : (L.drop (cp.step_index + 1)).get ⟨j, hj⟩
                = L.get ⟨(cp.step_index + 1) + j, hlt⟩ := by
              rw [List.get_eq_getElem, List.get_eq_getElem, List.getElem_drop]
            rw [hget', hidx _ hlt]
            omega)]
          rw [show (L.drop (cp.step_index + 1)).take (i + 1 - (cp.step_index + 1))
              = (L.take (i + 1)).drop (cp.step_index + 1) by
            rw [show i + 1 - (cp.step_index + 1) = i - cp.step_index by omega,
              List.take_drop,
              show cp.step_index + 1 + (i - cp.step_index) = i + 1 by omega]]
          exact stepsAsc_eq_self _
            ((hpwL.sublist (List.take_sublist _ _)).sublist (List.drop_sublist _ _))
        rw [hrange, hstate]
        simp only [Option.getD_some]
        rw [replayFold_no_cp _ hnocp2]
        rw [show L.take (cp.step_index + 1) = (L.take (i + 1)).take (cp.step_index + 1) by
          rw [List.take_take]
          rw [Nat.min_eq_left (by omega)]]
        rw [show (L.take (i + 1)).map (fun r => r.state_diff)
            = ((L.take (i + 1)).take (cp.step_index + 1)).map (fun r => r.state_diff)
              ++ (((L.take (i + 1)).drop (cp.step_index + 1)).map (fun r => r.state_diff)) by
          rw [← List.map_append, List.take_append_drop]]
        rw [naiveStateAt_append]
      · rw [if_neg hci]
        have hceq : cp.step_index = i := by omega
        rw [hstate]
        simp only [Option.getD_some, hceq]

/-! ## Claim C2 -/

/-- C2 (counterexample): the checkpoint-shortcut reconstruction is not
equivalent to the naive diff fold for every recorded execution.  Recording
one step from `{"a": {"length": 1}}` to `{"a": {"length": 2}}` (checkpoint
interval 1) stores the checkpoint's full `state_after` together with a
genuine `"a.length"` changed entry that `apply_diff` skips, so for
`i = 0 < step_count = 1` the reconstruction returns the stored state while
the fold of the persisted diffs returns the unchanged initial state. -/
theorem C2_reconstruction_counterexample :
    start_executionSync ⟨⟨1, []⟩, []⟩ ⟨[], []⟩ "x" "g"
        [("a", Val.dict [("length", Val.int 1)])] none
      = (⟨⟨1, []⟩, [("x", 0)]⟩,
         ⟨[⟨"x", "g", [("a", Val.dict [("length", Val.int 1)])], 0, []⟩], []⟩,
         ⟨"x", "g", [("a", Val.dict [("length", Val.int 1)])], 0, []⟩)
    ∧ record_step ⟨⟨1, []⟩, [("x", 0)]⟩
        ⟨[⟨"x", "g", [("a", Val.dict [("length", Val.int 1)])], 0, []⟩], []⟩
        "x" "n" [("a", Val.dict [("length", Val.int 1)])]
        [("a", Val.dict [("length", Val.int 2)])] none
      = (⟨⟨1, []⟩, [("x", 1)]⟩,
         ⟨[⟨"x", "g", [("a", Val.dict [("length", Val.int 1)])], 0, []⟩],
          [⟨"x", "n", 0, .completed,
            some [("a", Val.dict [("length", Val.int 1)])],
            some [("a", Val.dict [("length", Val.int 2)])],
            ⟨[⟨"a.length", Val.int 1, Val.int 2⟩], [], []⟩, true, none⟩]⟩,
         ⟨"x", "n", 0, .completed,
          some [("a", Val.dict [("length", Val.int 1)])],
          some [("a", Val.dict [("length", Val.int 2)])],
          ⟨[⟨"a.length", Val.int 1, Val.int 2⟩], [], []⟩, true, none⟩)
    ∧ end_executionSync ⟨⟨1, []⟩, [("x", 1)]⟩
        ⟨[⟨"x", "g", [("a", Val.dict [("length", Val.int 1)])], 0, []⟩],
         [⟨"x", "n", 0, .completed,
           some [("a", Val.dict [("length", Val.int 1)])],
           some [("a", Val.dict [("length", Val.int 2)])],
           ⟨[⟨"a.length", Val.int 1, Val.int 2⟩], [], []⟩, true, none⟩]⟩ "x"
      = ⟨[⟨"x", "g", [("a", Val.dict [("length", Val.int 1)])], 1, []⟩],
         [⟨"x", "n", 0, .completed,
           some [("a", Val.dict [("length", Val.int 1)])],
           some [("a", Val.dict [("length", Val.int 2)])],
           ⟨[⟨"a.length", Val.int 1, Val.int 2⟩], [], []⟩, true, none⟩]⟩
    ∧ getExecution
        ⟨[⟨"x", "g", [("a", Val.dict [("length", Val.int 1)])], 1, []⟩],
         [⟨"x", "n", 0, .completed,
           some [("a", Val.dict [("length", Val.int 1)])],
           some [("a", Val.dict [("length", Val.int 2)])],
           ⟨[⟨"a.length", Val.int 1, Val.int 2⟩], [], []⟩, true, none⟩]⟩ "x"
      = some ⟨"x", "g", [("a", Val.dict [("length", Val.int 1)])], 1, []⟩
    ∧ get_state_at_step
        ⟨[⟨"x", "g", [("a", Val.dict [("length", Val.int 1)])], 1, []⟩],
         [⟨"x", "n", 0, .completed,
           some [("a", Val.dict [("length", Val.int 1)])],
           some [("a", Val.dict [("length", Val.int 2)])],
           ⟨[⟨"a.length", Val.int 1, Val.int 2⟩], [], []⟩, true, none⟩]⟩ "x" 0
      = some [("a", Val.dict [("length", Val.int 2)])]
    ∧ naiveStateAt [("a", Val.dict [("length", Val.int 1)])]
        ((List.filter (fun r => r.execution_id == "x")
          ([⟨"x", "n", 0, .completed,
            some [("a", Val.dict [("length", Val.int 1)])],
            some [("a", Val.dict [("length", Val.int 2)])],
            ⟨[⟨"a.length", Val.int 1, Val.int 2⟩], [], []⟩, true, none⟩] :
              List StepRow)).map
          (fun r => r.state_diff))
      = [("a", Val.dict [("length", Val.int 1)])]
    ∧ [("a", Val.dict [("length", Val.int 1)])]
        ≠ [("a", Val.dict [("length", Val.int 2)])] := by
  refine ⟨by decide, ?_, by decide, by decide, ?_, by decide, by decide⟩
  · have hs0 : serializeDict [("a", Val.dict [("length", Val.int 1)])]
        = [("a", Val.dict [("length", Val.int 1)])] := by decide
    have hs1 : serializeDict [("a", Val.dict [("length", Val.int 2)])]
        = [("a", Val.dict [("length", Val.int 2)])] := by decide
    simp only [record_step, hs0, hs1, compute_diff_length_example]
    decide
  · have hcpq : checkpointQuery
        ⟨[⟨"x", "g", [("a", Val.dict [("length", Val.int 1)])], 1, []⟩],
         [⟨"x", "n", 0, .completed,
           some [("a", Val.dict [("length", Val.int 1)])],
           some [("a", Val.dict [("length", Val.int 2)])],
           ⟨[⟨"a.length", Val.int 1, Val.int 2⟩], [], []⟩, true, none⟩]⟩ "x" 0
        = some ⟨"x", "n", 0, .completed,
            some [("a", Val.dict [("length", Val.int 1)])],
            some [("a", Val.dict [("length", Val.int 2)])],
            ⟨[⟨"a.length", Val.int 1, Val.int 2⟩], [], []⟩, true, none⟩ :=
      checkpointQuery_singleton _ _ _ _ (by decide)
    unfold get_state_at_step
    rw [hcpq]
    rfl

/-- C2 (amended): for a persisted execution whose step rows are exactly the
indices `0 .. step_count - 1` in order and whose checkpoint rows store the
state that the diff fold reaches at their index, `get_state_at_step`
returns, for every `i < step_count`, exactly the naive fold of the
persisted diffs `0 .. i` over the initial state. -/
theorem C2_reconstruction_amended (st : Storage) (eid : String) (ex : ExecutionR)
    (L : List StepRow) (i : Nat)
    (hex : getExecution st eid = some ex)
    (hL : st.steps.filter (fun r => r.execution_id == eid) = L)
    (hidx : ∀ (j : Nat) (hj : j < L.length), (L.get ⟨j, hj⟩).step_index = j)
    (hcp : ∀ row ∈ L, row.is_checkpoint = true →
      row.state_after = some (naiveStateAt ex.initial_state
        ((L.take (row.step_index + 1)).map (fun r => r.state_diff))))
    (hsc : ex.step_count = L.length)
    (hi : i < ex.step_count) :
    get_state_at_step st eid i
      = some (naiveStateAt ex.initial_state
          ((L.take (i + 1)).map (fun r => r.state_diff))) :=
  get_state_at_step_eq_fold st eid ex L i hex hL hidx hcp (hsc ▸ hi)

/-- Witness for C2 (amended): a two-step execution with one checkpoint at
index 0, consistent with its own diffs; every hypothesis is discharged by
computation. -/
theorem C2_reconstruction_amended_witness :
    get_state_at_step
        ⟨[⟨"x", "g", [("a", Val.int 1)], 2, []⟩],
         [⟨"x", "n0", 0, .completed, some [("a", Val.int 1)], some [("a", Val.int 2)],
           ⟨[⟨"a", Val.int 1, Val.int 2⟩], [], []⟩, true, none⟩,
          ⟨"x", "n1", 1, .completed, none, none,
           ⟨[⟨"a", Val.int 2, Val.int 3⟩], [], []⟩, false, none⟩]⟩ "x" 1
      = some (naiveStateAt [("a", Val.int 1)]
          ((([⟨"x", "n0", 0, .completed, some [("a", Val.int 1)], some [("a", Val.int 2)],
              ⟨[⟨"a", Val.int 1, Val.int 2⟩], [], []⟩, true, none⟩,
             ⟨"x", "n1", 1, .completed, none, none,
              ⟨[⟨"a", Val.int 2, Val.int 3⟩], [], []⟩, false,
              none⟩] : List StepRow).take (1 + 1)).map (fun r => r.state_diff))) := by
  refine C2_reconstruction_amended
    ⟨[⟨"x", "g", [("a", Val.int 1)], 2, []⟩],
     [⟨"x", "n0", 0, .completed, some [("a", Val.int 1)], some [("a", Val.int 2)],
       ⟨[⟨"a", Val.int 1, Val.int 2⟩], [], []⟩, true, none⟩,
      ⟨"x", "n1", 1, .completed, none, none,
       ⟨[⟨"a", Val.int 2, Val.int 3⟩], [], []⟩, false, none⟩]⟩ "x"
    ⟨"x", "g", [("a", Val.int 1)], 2, []⟩
    [⟨"x", "n0", 0, .completed, some [("a", Val.int 1)], some [("a", Val.int 2)],
      ⟨[⟨"a", Val.int 1, Val.int 2⟩], [], []⟩, true, none⟩,
     ⟨"x", "n1", 1, .completed, none, none,
      ⟨[⟨"a", Val.int 2, Val.int 3⟩], [], []⟩, false, none⟩] 1
    (by decide) (by decide) ?_ ?_ (by decide) (by decide)
  · intro j hj
    simp only [List.length_cons, List.length_nil] at hj
    interval_cases j <;> rfl
  · intro row hr hcpflag
    rcases List.mem_cons.mp hr with rfl | hr
    · decide
    · rcases List.mem_cons.mp hr with rfl | hr
      · exact absurd hcpflag (by decide)
      · simp at hr

/-! ## Claim C3 -/

/-- C3 (counterexample): `get_state_at_step` never checks the requested
index against `step_count`.  For an execution with `step_count = 1`, the
query at index `5 ≥ 1` still finds the checkpoint at index 0 and returns a
reconstructed tree instead of not-found. -/
theorem C3_out_of_range_counterexample :
    getExecution
        ⟨[⟨"x", "g", [("a", Val.int 1)], 1, []⟩],
         [⟨"x", "n0", 0, .completed, some [("a", Val.int 1)], some [("a", Val.int 2)],
           ⟨[⟨"a", Val.int 1, Val.int 2⟩], [], []⟩, true, none⟩]⟩ "x"
      = some ⟨"x", "g", [("a", Val.int 1)], 1, []⟩
    ∧ get_state_at_step
        ⟨[⟨"x", "g", [("a", Val.int 1)], 1, []⟩],
         [⟨"x", "n0", 0, .completed, some [("a", Val.int 1)], some [("a", Val.int 2)],
           ⟨[⟨"a", Val.int 1, Val.int 2⟩], [], []⟩, true, none⟩]⟩ "x" 5
      = some [("a", Val.int 2)]
    ∧ (some [("a", Val.int 2)] : Option (List (String × Val))) ≠ none := by
  refine ⟨by decide, ?_, by decide⟩
  have hcpq : checkpointQuery
      ⟨[⟨"x", "g", [("a", Val.int 1)], 1, []⟩],
       [⟨"x", "n0", 0, .completed, some [("a", Val.int 1)], some [("a", Val.int 2)],
         ⟨[⟨"a", Val.int 1, Val.int 2⟩], [], []⟩, true, none⟩]⟩ "x" 5
      = some ⟨"x", "n0", 0, .completed, some [("a", Val.int 1)], some [("a", Val.int 2)],
          ⟨[⟨"a", Val.int 1, Val.int 2⟩], [], []⟩, true, none⟩ :=
    checkpointQuery_singleton _ _ _ _ (by decide)
  have hrange : rangeQuery
      ⟨[⟨"x", "g", [("a", Val.int 1)], 1, []⟩],
       [⟨"x", "n0", 0, .completed, some [("a", Val.int 1)], some [("a", Val.int 2)],
         ⟨[⟨"a", Val.int 1, Val.int 2⟩], [], []⟩, true, none⟩]⟩ "x" 1 5 = [] :=
    rangeQuery_of_filter_nil _ _ _ _ (by decide)
  unfold get_state_at_step
  rw [hcpq]
  simp only []
  rw [if_pos (by omega)]
  rw [hrange]
  rfl

/-- C3 (amended): as long as the execution record exists,
`get_state_at_step` always returns a reconstructed tree — for every index,
including every `i ≥ step_count`; not-found is only possible when both the
checkpoint lookup and the execution lookup come back empty. -/
theorem C3_out_of_range_amended (st : Storage) (eid : String) (i : Nat)
    (ex : ExecutionR) (hex : getExecution st eid = some ex) :
    (get_state_at_step st eid i).isSome = true := by
  unfold get_state_at_step
  cases hcpq : checkpointQuery st eid i with
  | some cp => rfl
  | none =>
      rw [hex]
      rfl

/-- Witness for C3 (amended): the execution-row hypothesis discharged on a
concrete storage with an out-of-range index. -/
theorem C3_out_of_range_amended_witness :
    (get_state_at_step ⟨[⟨"x", "g", [("a", Val.int 1)], 1, []⟩], []⟩ "x" 7).isSome
      = true :=
  C3_out_of_range_amended ⟨[⟨"x", "g", [("a", Val.int 1)], 1, []⟩], []⟩ "x" 7
    ⟨"x", "g", [("a", Val.int 1)], 1, []⟩ (by decide)

/-! ## Claims C4 and C5 -/

mutual

/-- The tree shape the spec's invariant (I6) promises: only null,
booleans, finite numbers, strings, lists and string-keyed mappings —
written from the spec's words, to compare against the serializer. -/
def specTree : Val → Bool
  | .none | .bool _ | .int _ | .str _ => true
  | .float finite _ => finite
  | .list xs => specTreeL xs
  | .dict kvs => specTreeKV kvs
  | _ => false

def specTreeL : List Val → Bool
  | [] => true
  | x :: xs => specTree x && specTreeL xs

def specTreeKV : List (String × Val) → Bool
  | [] => true
  | (_, v) :: rest => specTree v && specTreeKV rest

end

/-- C4 (counterexample): `serialize_state` passes floats through unchanged
(line 63 checks `(int, float)` with no finiteness test), so a non-finite
float such as `inf` survives serialization as a float — it is neither
rendered `null` nor a sentinel string, and the output violates the spec's
finite-number tree shape. -/
theorem C4_nonfinite_float_counterexample :
    serialize_state (Val.float false 0) = Val.float false 0
    ∧ specTree (serialize_state (Val.float false 0)) = false := by
  constructor
  · decide
  · decide

/-- C4 (amended): the serializer always returns the source's tree shape —
null, booleans, ints, floats (finite or not, passed through verbatim),
strings, lists and string-keyed mappings — but it never converts a
non-finite float to `null` or to a sentinel string. -/
theorem C4_serialize_shape_amended :
    (∀ v : Val, isTree (serialize_state v) = true)
    ∧ (∀ (finite : Bool) (m : Int), serialize_state (Val.float finite m) = Val.float finite m) := by
  constructor
  · exact serialize_state_isTree
  · intro finite m
    unfold serialize_state
    rfl

/-- C5: `serialize_state` is total (it is a total function of the model,
mirroring that every Python branch returns) and idempotent: serializing a
serialized value changes nothing. -/
theorem C5_serialize_idempotent :
    ∀ x : Val, serialize_state (serialize_state x) = serialize_state x :=
  fun x => serialize_state_idem x

/-! ## Claim C6 -/

/-- C6 (counterexample): `start_execution` through the sync backend used by
`enable_debugging` persists with `INSERT OR REPLACE`: starting a second
execution with an id that already exists silently replaces the stored row
instead of failing with a unique violation. -/
theorem C6_start_execution_counterexample :
    (start_executionSync ⟨⟨10, []⟩, []⟩
        ⟨[⟨"x", "old", [("a", Val.int 1)], 3, []⟩], []⟩ "x" "new" [] none).2.1.executions
      = [⟨"x", "new", [], 0, []⟩]
    ∧ [(⟨"x", "new", [], 0, []⟩ : ExecutionR)]
        ≠ [⟨"x", "old", [("a", Val.int 1)], 3, []⟩, ⟨"x", "new", [], 0, []⟩] := by
  constructor
  · decide
  · decide

/-- C6 (amended): `start_execution` builds the `Execution` record from the
serialized initial state, zeroes the per-id step counter and persists it;
against the async backend a duplicate id fails with the storage-level
unique violation, while a fresh id appends the new row. -/
theorem C6_start_execution_amended (c : Collector) (st : Storage)
    (eid gname : String) (initial_state : List (String × Val))
    (metadata : Option (List (String × Val))) :
    (st.executions.any (fun r => r.execution_id == eid) = true →
      start_executionAsync c st eid gname initial_state metadata
        = .error .uniqueViolation)
    ∧ (st.executions.any (fun r => r.execution_id == eid) = false →
      start_executionAsync c st eid gname initial_state metadata
        = .ok (⟨c.config, countersSet c.step_counters eid 0⟩,
               ⟨st.executions ++ [⟨eid, gname, serializeDict initial_state, 0,
                  metadata.getD []⟩], st.steps⟩,
               ⟨eid, gname, serializeDict initial_state, 0, metadata.getD []⟩)) := by
  constructor
  · intro h
    simp only [start_executionAsync, saveExecutionAsync]
    rw [if_pos h]
  · intro h
    simp only [start_executionAsync, saveExecutionAsync]
    rw [if_neg (by rw [h]; exact Bool.false_ne_true)]

/-- Witness for C6 (amended): both branches exercised on concrete storage,
the duplicate-id hypothesis and the fresh-id hypothesis each discharged by
computation. -/
theorem C6_start_execution_amended_witness :
    start_executionAsync ⟨⟨10, []⟩, []⟩
        ⟨[⟨"x", "old", [("a", Val.int 1)], 3, []⟩], []⟩ "x" "new" [] none
      = .error .uniqueViolation
    ∧ start_executionAsync ⟨⟨10, []⟩, []⟩
        ⟨[⟨"x", "old", [("a", Val.int 1)], 3, []⟩], []⟩ "y" "new" [] none
      = .ok (⟨⟨10, []⟩, [("y", 0)]⟩,
             ⟨[⟨"x", "old", [("a", Val.int 1)], 3, []⟩]
                ++ [⟨"y", "new", serializeDict [], 0, (none : Option (List (String × Val))).getD []⟩],
              []⟩,
             ⟨"y", "new", serializeDict [], 0,
              (none : Option (List (String × Val))).getD []⟩) := by
  constructor
  · exact (C6_start_execution_amended ⟨⟨10, []⟩, []⟩
      ⟨[⟨"x", "old", [("a", Val.int 1)], 3, []⟩], []⟩ "x" "new" [] none).1 (by decide)
  · exact (C6_start_execution_amended ⟨⟨10, []⟩, []⟩
      ⟨[⟨"x", "old", [("a", Val.int 1)], 3, []⟩], []⟩ "y" "new" [] none).2 (by decide)

/-! ## Claim C7 -/

/-- C7 (counterexample): the source sets the status by Python truthiness
(`StepStatus.FAILED if error else StepStatus.COMPLETED`), so a present but
empty-string error — reachable through the adapter, which passes
`error=str(exc)`, and `str(ValueError())` is `""` — is persisted with the
error set but `status = completed`, refuting "failed iff the error
argument is present". -/
theorem C7_status_truthiness_counterexample :
    (record_step ⟨⟨10, []⟩, []⟩ ⟨[], []⟩ "x" "n" [] [] (some "")).2.2.error
      = some ""
    ∧ (record_step ⟨⟨10, []⟩, []⟩ ⟨[], []⟩ "x" "n" [] [] (some "")).2.2.status
      = StepStatus.completed := by
  constructor
  · simp [record_step]
  · simp [record_step]

/-- C7 (amended): the persisted step's status is `failed` exactly when the
`error` argument is present AND nonempty (Python truthiness), and
`completed` otherwise — in particular a present empty-string error yields
`completed`; the error argument itself is persisted verbatim either way. -/
theorem C7_status_truthiness_amended (c : Collector) (st : Storage)
    (eid node : String) (state_before state_after : List (String × Val))
    (error : Option String) :
    ((record_step c st eid node state_before state_after error).2.2.status
        = StepStatus.failed ↔ (error ≠ none ∧ error ≠ some ""))
    ∧ ((record_step c st eid node state_before state_after error).2.2.status
        = StepStatus.completed ↔ (error = none ∨ error = some ""))
    ∧ (record_step c st eid node state_before state_after error).2.2.error
        = error := by
  cases error with
  | none =>
      exact ⟨by simp [record_step], by simp [record_step], by simp [record_step]⟩
  | some e =>
      by_cases he : e = ""
      · subst he
        exact ⟨by simp [record_step], by simp [record_step], by simp [record_step]⟩
      · exact ⟨by simp [record_step, he], by simp [record_step, he],
          by simp [record_step]⟩

/-! ## Claim C8 -/

/-- C8 (counterexample): when `_set_at_path` walks a list index beyond the
current length on a non-final segment, it extends the list with `{}`
fillers (`container.append({})`), not with nulls: adding `"a[1].b"` to
`{"a": []}` produces a `{}` filler at index 0. -/
theorem C8_null_fill_counterexample :
    apply_diff [("a", Val.list [])] ⟨[], [⟨"a[1].b", Val.int 7⟩], []⟩
      = [("a", Val.list [Val.dict [], Val.dict [("b", Val.int 7)]])]
    ∧ [("a", Val.list [Val.dict [], Val.dict [("b", Val.int 7)]])]
        ≠ [("a", Val.list [Val.none, Val.dict [("b", Val.int 7)]])] := by
  constructor
  · decide
  · decide

/-- C8 (amended): `added` entries are applied one by one in the diff's
given order; an added list index beyond the current length pads the list
with `null` fillers when the index is the path's final segment, but with
empty-mapping (`{}`) fillers when the path continues past the index. -/
theorem C8_added_fill_amended :
    (∀ (s : Val) (e : AddedE) (es : List AddedE),
        applyAdded s (e :: es) = applyAdded (setAtPath s e.path e.value) es)
    ∧ (∀ (xs : List Val) (n : Nat) (v : Val), xs.length ≤ n →
        setSegs (Val.list xs) [Seg.idx n] v
          = Val.list (xs ++ List.replicate (n - xs.length) Val.none ++ [v]))
    ∧ (∀ (xs : List Val) (n : Nat) (s₂ : Seg) (rest : List Seg) (v : Val),
        setSegs (Val.list xs) (Seg.idx n :: s₂ :: rest) v
          = Val.list (List.modify (fun c => setSegs c (s₂ :: rest) v) n
              (xs ++ List.replicate (n + 1 - xs.length) (Val.dict [])))) := by
  refine ⟨fun s e es => rfl, ?_, fun xs n s₂ rest v => ?_⟩
  · intro xs n v h
    show Val.list ((padWith xs n Val.none).set n v) = _
    unfold padWith
    rw [show n + 1 - xs.length = (n - xs.length) + 1 by omega]
    rw [List.replicate_succ', ← List.append_assoc]
    have hlen : (xs ++ List.replicate (n - xs.length) Val.none).length = n := by
      simp
      omega
    rw [show ((xs ++ List.replicate (n - xs.length) Val.none) ++ [Val.none]).set n v
        = ((xs ++ List.replicate (n - xs.length) Val.none) ++ [Val.none]).set
            (xs ++ List.replicate (n - xs.length) Val.none).length v by rw [hlen]]
    rw [set_concat_self]
  · show Val.list (List.modify (fun c => setSegs c (s₂ :: rest) v) n
        (padWith xs n (Val.dict []))) = _
    unfold padWith
    rfl

/-- Witness for C8 (amended): the final-segment null padding exercised at a
concrete out-of-range index, its hypothesis discharged by computation. -/
theorem C8_added_fill_amended_witness :
    List.length ([] : List Val) ≤ 1
    ∧ setSegs (Val.list []) [Seg.idx 1] (Val.int 5)
        = Val.list ([] ++ List.replicate (1 - List.length ([] : List Val)) Val.none
            ++ [Val.int 5]) :=
  ⟨by decide, (C8_added_fill_amended).2.1 [] 1 (Val.int 5) (by decide)⟩

/-! ## Claim C9 -/

theorem countersGet_not_mem (cs : List (String × Nat)) (k : String)
    (h : ∀ p ∈ cs, p.1 ≠ k) : countersGet cs k = 0 := by
  induction cs with
  | nil => rfl
  | cons p rest ih =>
      obtain ⟨k', n⟩ := p
      unfold countersGet
      rw [if_neg (h (k', n) (by simp))]
      exact ih (fun q hq => h q (by simp [hq]))

theorem countersGet_countersSet_self (cs : List (String × Nat)) (k : String) (n : Nat) :
    countersGet (countersSet cs k n) k = n := by
  induction cs with
  | nil => simp [countersSet, countersGet]
  | cons p rest ih =>
      obtain ⟨k', n'⟩ := p
      by_cases hk : k' = k
      · simp [countersSet, countersGet, hk]
      · simp only [countersSet, countersGet, if_neg hk]
        exact ih

/-- C9: `record_step` for an execution id that `start_execution` never
initialized does not fail: the counter defaults to 0, so the step gets
index 0, is a checkpoint, the counter becomes 1, and the row is appended
to storage even though no `Execution` record exists for the id. -/
theorem C9_record_step_unknown_id (c : Collector) (st : Storage)
    (eid node : String) (state_before state_after : List (String × Val))
    (h : ∀ p ∈ c.step_counters, p.1 ≠ eid) :
    (record_step c st eid node state_before state_after none).2.2.step_index = 0
    ∧ (record_step c st eid node state_before state_after none).2.2.is_checkpoint = true
    ∧ countersGet
        (record_step c st eid node state_before state_after none).1.step_counters eid = 1
    ∧ (record_step c st eid node state_before state_after none).2.1.steps
        = st.steps ++ [(record_step c st eid node state_before state_after none).2.2] := by
  have h0 : countersGet c.step_counters eid = 0 := countersGet_not_mem _ _ h
  refine ⟨?_, ?_, ?_, ?_⟩
  · simp [record_step, h0]
  · simp [record_step, h0]
  · simp only [record_step]
    rw [h0]
    exact countersGet_countersSet_self _ _ _
  · rfl

/-- Witness for C9: a collector holding a counter for a different id, the
unknown-id hypothesis discharged by computation. -/
theorem C9_record_step_unknown_id_witness :
    (record_step ⟨⟨10, []⟩, [("other", 4)]⟩ ⟨[], []⟩ "x" "n"
        [("a", Val.int 1)] [("a", Val.int 1)] none).2.2.step_index = 0
    ∧ (record_step ⟨⟨10, []⟩, [("other", 4)]⟩ ⟨[], []⟩ "x" "n"
        [("a", Val.int 1)] [("a", Val.int 1)] none).2.2.is_checkpoint = true
    ∧ countersGet (record_step ⟨⟨10, []⟩, [("other", 4)]⟩ ⟨[], []⟩ "x" "n"
        [("a", Val.int 1)] [("a", Val.int 1)] none).1.step_counters "x" = 1
    ∧ (record_step ⟨⟨10, []⟩, [("other", 4)]⟩ ⟨[], []⟩ "x" "n"
        [("a", Val.int 1)] [("a", Val.int 1)] none).2.1.steps
        = ([] : List StepRow) ++ [(record_step ⟨⟨10, []⟩, [("other", 4)]⟩ ⟨[], []⟩ "x" "n"
            [("a", Val.int 1)] [("a", Val.int 1)] none).2.2] :=
  C9_record_step_unknown_id ⟨⟨10, []⟩, [("other", 4)]⟩ ⟨[], []⟩ "x" "n"
    [("a", Val.int 1)] [("a", Val.int 1)] (by decide)

/-! ## Claim C10 -/

theorem diffVS_self_scalar (b : Val)
    (h : diffVS b b = if Val.beq b b then DiffS.empty else ⟨[⟨[], b, b, false⟩], [], []⟩) :
    diffVS b b = DiffS.empty := by
  rw [h, if_pos ((Val.beq_iff_eq b b).mpr rfl)]

theorem diffSharedS_self_empty (x : List (String × Val)) (ks : List String)
    (H : ∀ (k : String) (bv : Val), dictGet x k = some bv → diffVS bv bv = DiffS.empty) :
    diffSharedS x x ks = DiffS.empty := by
  induction ks with
  | nil => exact diffSharedS_nil x x
  | cons k ks ih =>
      cases hb : dictGet x k with
      | none =>
          have hcons : diffSharedS x x (k :: ks)
              = DiffS.app DiffS.empty (diffSharedS x x ks) := by
            conv_lhs => unfold diffSharedS
            cases hb' : dictGet x k with
            | none => rfl
            | some bv' => simp [hb] at hb'
          rw [hcons, ih]
          rfl
      | some bv =>
          rw [diffSharedS_cons_some x x k ks bv bv hb hb]
          rw [H k bv hb, ih]
          rfl

theorem diffListsAuxS_self_empty (bs : List Val)
    (H : ∀ b ∈ bs, diffVS b b = DiffS.empty) :
    ∀ i : Nat, diffListsAuxS bs bs i = DiffS.empty := by
  induction bs with
  | nil => intro i; exact diffListsAuxS_nil_left [] i
  | cons b bs ih =>
      intro i
      rw [diffListsAuxS_cons, H b (by simp),
        ih (fun b' hb' => H b' (by simp [hb'])) (i + 1)]
      rfl

theorem diffVS_self_bounded : ∀ (n : Nat) (b : Val), sizeOf b < n →
    diffVS b b = DiffS.empty := by
  intro n
  induction n with
  | zero =>
      intro b h
      omega
  | succ n ih =>
      intro b hsz
      cases b <;>
        first
          | (rename_i x
             by_cases hdict : ∃ kvs : List (String × Val), Val.dict x = Val.dict kvs
             · have hVS : diffVS (Val.dict x) (Val.dict x) = diffDictsS x x := by
                 unfold diffVS
                 rfl
               rw [hVS]
               have hd2 : diffDictsS x x = DiffS.app
                   ⟨[],
                    (addedKeysOf (setKeys x) (setKeys x)).map
                      (fun k => ⟨[Seg.key k], (dictGet x k).getD .none⟩),
                    (removedKeysOf (setKeys x) (setKeys x)).map
                      (fun k => ⟨[Seg.key k], (dictGet x k).getD .none⟩)⟩
                   (diffSharedS x x (sharedKeysOf (setKeys x) (setKeys x))) := by
                 unfold diffDictsS
                 rfl
               rw [hd2]
               have hka : addedKeysOf (setKeys x) (setKeys x) = [] := by
                 unfold addedKeysOf sortStr
                 rw [List.filter_eq_nil_iff.mpr (by simp)]
                 exact List.mergeSort_nil
               have hkr : removedKeysOf (setKeys x) (setKeys x) = [] := by
                 unfold removedKeysOf sortStr
                 rw [List.filter_eq_nil_iff.mpr (by simp)]
                 exact List.mergeSort_nil
               rw [hka, hkr]
               rw [diffSharedS_self_empty x _ (fun k bv hbv => by
                 have hsx : sizeOf (Val.dict x) = 1 + sizeOf x := by simp
                 have := sizeOf_dictGet x k bv hbv
                 exact ih bv (by omega))]
               rfl
             · exact absurd ⟨x, rfl⟩ hdict)
          | (rename_i xs
             by_cases hlist : ∃ ys : List Val, Val.list xs = Val.list ys
             · have hVS : diffVS (Val.list xs) (Val.list xs) = diffListsS xs xs := by
                 unfold diffVS
                 rfl
               rw [hVS]
               have haux : diffListsAuxS xs xs 0 = DiffS.empty :=
                 diffListsAuxS_self_empty xs (fun b hb => by
                   have hsx : sizeOf (Val.list xs) = 1 + sizeOf xs := by simp
                   have := List.sizeOf_lt_of_mem hb
                   exact ih b (by omega)) 0
               have hL2 : diffListsS xs xs =
                   ⟨(diffListsAuxS xs xs 0).changed ++
                      (if xs.length ≠ xs.length
                       then [⟨[], .int xs.length, .int xs.length, true⟩] else []),
                    (diffListsAuxS xs xs 0).added ++
                      addedTailS (min xs.length xs.length)
                        (xs.drop (min xs.length xs.length)),
                    (diffListsAuxS xs xs 0).removed ++
                      removedTailS (min xs.length xs.length)
                        (xs.drop (min xs.length xs.length))⟩ := by
                 unfold diffListsS
                 rfl
               rw [hL2, haux]
               rw [if_neg (by simp)]
               rw [Nat.min_self, List.drop_length]
               rfl
             · exact absurd ⟨xs, rfl⟩ hlist)
          | (exact diffVS_self_scalar _ (by unfold diffVS; rfl))

theorem diffVS_self (b : Val) : diffVS b b = DiffS.empty :=
  diffVS_self_bounded (sizeOf b + 1) b (by omega)

theorem compute_diff_self (t : List (String × Val)) :
    compute_diff t t [] = ⟨[], [], []⟩ := by
  rw [compute_diff_corr]
  have h : diffDictsS t t = DiffS.empty := by
    have h2 := diffVS_self (Val.dict t)
    rw [show diffVS (Val.dict t) (Val.dict t) = diffDictsS t t from by
      unfold diffVS
      rfl] at h2
    exact h2
  rw [h]
  rfl

theorem diffShared_nil_keys (x y : List (String × Val)) (p : String)
    (ign : List String) : diffShared x y [] p ign = StateDiff.empty := by
  unfold diffShared
  rfl

theorem diffShared_cons_some (x y : List (String × Val)) (k : String)
    (ks : List String) (p : String) (ign : List String) (bv av : Val)
    (hx : dictGet x k = some bv) (hy : dictGet y k = some av) :
    diffShared x y (k :: ks) p ign
      = (diffValues bv av (joinPath p k) ign).app (diffShared x y ks p ign) := by
  conv_lhs => unfold diffShared
  cases hb : dictGet x k with
  | none =>
      rw [hx] at hb
      exact absurd hb (by simp)
  | some bv' =>
      cases ha : dictGet y k with
      | none =>
          rw [hy] at ha
          exact absurd ha (by simp)
      | some av' =>
          rw [hx] at hb
          rw [hy] at ha
          obtain rfl : bv = bv' := by injection hb
          obtain rfl : av = av' := by injection ha
          rfl

theorem diffShared_self_empty (x : List (String × Val)) (ks : List String)
    (p : String) (ign : List String)
    (H : ∀ (k : String) (bv : Val), dictGet x k = some bv →
      ∀ q : String, diffValues bv bv q ign = StateDiff.empty) :
    diffShared x x ks p ign = StateDiff.empty := by
  induction ks with
  | nil => exact diffShared_nil_keys x x p ign
  | cons k ks ih =>
      cases hb : dictGet x k with
      | none =>
          have hcons : diffShared x x (k :: ks) p ign
              = StateDiff.app StateDiff.empty (diffShared x x ks p ign) := by
            conv_lhs => unfold diffShared
            cases hb' : dictGet x k with
            | none => rfl
            | some bv' => simp [hb] at hb'
          rw [hcons, ih]
          rfl
      | some bv =>
          rw [diffShared_cons_some x x k ks p ign bv bv hb hb]
          rw [H k bv hb (joinPath p k), ih]
          rfl

theorem diffListsAux_nil_left (as : List Val) (i : Nat) (p : String)
    (ign : List String) : diffListsAux [] as i p ign = StateDiff.empty := by
  unfold diffListsAux
  rfl

theorem diffListsAux_cons (b a : Val) (bs as : List Val) (i : Nat) (p : String)
    (ign : List String) :
    diffListsAux (b :: bs) (a :: as) i p ign
      = (diffValues b a (idxPath p i) ign).app
          (diffListsAux bs as (i + 1) p ign) := by
  conv_lhs => unfold diffListsAux

theorem diffListsAux_self_empty (bs : List Val) (p : String) (ign : List String)
    (H : ∀ b ∈ bs, ∀ q : String, diffValues b b q ign = StateDiff.empty) :
    ∀ i : Nat, diffListsAux bs bs i p ign = StateDiff.empty := by
  induction bs with
  | nil => intro i; exact diffListsAux_nil_left [] i p ign
  | cons b bs ih =>
      intro i
      rw [diffListsAux_cons, H b (by simp) (idxPath p i),
        ih (fun b' hb' q => H b' (by simp [hb']) q) (i + 1)]
      rfl

theorem diffValues_self_scalar (b : Val) (p : String) (ign : List String)
    (h : diffValues b b p ign
      = if Val.beq b b then StateDiff.empty else ⟨[⟨p, b, b⟩], [], []⟩) :
    diffValues b b p ign = StateDiff.empty := by
  rw [h, if_pos ((Val.beq_iff_eq b b).mpr rfl)]

theorem diffValues_self_bounded : ∀ (n : Nat) (b : Val), sizeOf b < n →
    ∀ (p : String) (ign : List String), diffValues b b p ign = StateDiff.empty := by
  intro n
  induction n with
  | zero =>
      intro b h
      omega
  | succ n ih =>
      intro b hsz p ign
      cases b <;>
        first
          | (rename_i x
             by_cases hdict : ∃ kvs : List (String × Val), Val.dict x = Val.dict kvs
             · have hVS : diffValues (Val.dict x) (Val.dict x) p ign
                   = diffDicts x x p ign := by
                 unfold diffValues
                 rfl
               rw [hVS]
               have hd2 : diffDicts x x p ign = StateDiff.app
                   ⟨[],
                    (addedKeysOf (filteredKeys x p ign) (filteredKeys x p ign)).map
                      (fun k => ⟨joinPath p k, (dictGet x k).getD .none⟩),
                    (removedKeysOf (filteredKeys x p ign) (filteredKeys x p ign)).map
                      (fun k => ⟨joinPath p k, (dictGet x k).getD .none⟩)⟩
                   (diffShared x x
                     (sharedKeysOf (filteredKeys x p ign) (filteredKeys x p ign))
                     p ign) := by
                 unfold diffDicts
                 rfl
               rw [hd2]
               have hka : addedKeysOf (filteredKeys x p ign)
                   (filteredKeys x p ign) = [] := by
                 unfold addedKeysOf sortStr
                 rw [List.filter_eq_nil_iff.mpr (by simp)]
                 exact List.mergeSort_nil
               have hkr : removedKeysOf (filteredKeys x p ign)
                   (filteredKeys x p ign) = [] := by
                 unfold removedKeysOf sortStr
                 rw [List.filter_eq_nil_iff.mpr (by simp)]
                 exact List.mergeSort_nil
               rw [hka, hkr]
               rw [diffShared_self_empty x _ p ign (fun k bv hbv q => by
                 have hsx : sizeOf (Val.dict x) = 1 + sizeOf x := by simp
                 have := sizeOf_dictGet x k bv hbv
                 exact ih bv (by omega) q ign)]
               rfl
             · exact absurd ⟨x, rfl⟩ hdict)
          | (rename_i xs
             by_cases hlist : ∃ ys : List Val, Val.list xs = Val.list ys
             · have hVS : diffValues (Val.list xs) (Val.list xs) p ign
                   = diffLists xs xs p ign := by
                 unfold diffValues
                 rfl
               rw [hVS]
               have haux : diffListsAux xs xs 0 p ign = StateDiff.empty :=
                 diffListsAux_self_empty xs p ign (fun b hb q => by
                   have hsx : sizeOf (Val.list xs) = 1 + sizeOf xs := by simp
                   have := List.sizeOf_lt_of_mem hb
                   exact ih b (by omega) q ign) 0
               have hL2 : diffLists xs xs p ign =
                   ⟨(diffListsAux xs xs 0 p ign).changed ++
                      (if xs.length ≠ xs.length
                       then [⟨lenPath p, .int xs.length, .int xs.length⟩] else []),
                    (diffListsAux xs xs 0 p ign).added ++
                      addedTailE p (min xs.length xs.length)
                        (xs.drop (min xs.length xs.length)),
                    (diffListsAux xs xs 0 p ign).removed ++
                      removedTailE p (min xs.length xs.length)
                        (xs.drop (min xs.length xs.length))⟩ := by
                 unfold diffLists
                 rfl
               rw [hL2, haux]
               rw [if_neg (by simp)]
               rw [Nat.min_self, List.drop_length]
               rfl
             · exact absurd ⟨xs, rfl⟩ hlist)
          | (exact diffValues_self_scalar _ _ _ (by unfold diffValues; rfl))

theorem diffValues_self (b : Val) (p : String) (ign : List String) :
    diffValues b b p ign = StateDiff.empty :=
  diffValues_self_bounded (sizeOf b + 1) b (by omega) p ign

theorem compute_diff_self_ignore (t : List (String × Val)) (ign : List String) :
    compute_diff t t ign = ⟨[], [], []⟩ := by
  have h := diffValues_self (Val.dict t) "" ign
  rw [show diffValues (Val.dict t) (Val.dict t) "" ign = diffDicts t t "" ign from by
    unfold diffValues
    rfl] at h
  unfold compute_diff
  exact h

/-- C10: a node that returns `None` leaves the captured state unchanged
(`_compute_state_after` returns `state_before`), and whenever the two
serialized captures agree — in particular in that case — the recorded
step's structural diff is empty, for every collector configuration
(any `ignore_keys`, including the nonempty default). -/
theorem C10_none_merge_empty_diff :
    (∀ state_before : Val, compute_state_after state_before Val.none = state_before)
    ∧ (∀ (c : Collector) (st : Storage) (eid node : String)
        (state_before state_after : List (String × Val)) (error : Option String),
        serializeDict state_before = serializeDict state_after →
        (record_step c st eid node state_before state_after error).2.2.state_diff
          = ⟨[], [], []⟩) := by
  constructor
  · intro sb
    unfold compute_state_after
    rw [if_pos rfl]
  · intro c st eid node sb sa err hser
    simp only [record_step]
    rw [hser]
    exact compute_diff_self_ignore _ _

/-- Witness for C10: the hypothesis discharged for a node that returns
`None` on a concrete state, so both captures serialize identically, under
a collector whose `ignore_keys` is nonempty (as in the default config). -/
theorem C10_none_merge_empty_diff_witness :
    compute_state_after (Val.dict [("a", Val.int 1)]) Val.none
      = Val.dict [("a", Val.int 1)]
    ∧ (record_step ⟨⟨10, ["timestamp"]⟩, []⟩ ⟨[], []⟩ "x" "n"
        [("a", Val.int 1)] [("a", Val.int 1)] none).2.2.state_diff = ⟨[], [], []⟩ :=
  ⟨(C10_none_merge_empty_diff).1 (Val.dict [("a", Val.int 1)]),
   (C10_none_merge_empty_diff).2 ⟨⟨10, ["timestamp"]⟩, []⟩ ⟨[], []⟩ "x" "n"
     [("a", Val.int 1)] [("a", Val.int 1)] none (by decide)⟩
